import Mathlib

/-!
# BreveMenus: a verification development for `src/brevemenus.js`

The JavaScript module is embedded shallowly:

* pixel coordinates and sizes are rationals (`ℚ`); floating-point rounding is
  not modelled;
* the browser's timer queue is an explicit value (`Timers`), `setTimeout`
  appends to it and `clearTimeout` removes from it;
* JavaScript objects used as dictionaries are association lists kept in
  property-creation order; `for ... in` enumerates them with `forInOrder`
  (array-index keys first, ascending, then the remaining keys in creation
  order), over a snapshot of the keys taken when the loop starts;
* DOM elements carry a reference number standing for their object identity;
  the text of a button is kept as the string assigned to `innerHTML`, which
  the browser parses as markup;
* the prototype chain of plain objects is not modelled: where the source's
  behaviour depends on it (an assignment to the key `__proto__`, a read that
  finds a property inherited from `Object.prototype` and goes on with it) the
  outcome is the explicit `JSError.notModelled`, and the statements about
  builds exclude those inputs or report that outcome;
* a thrown `TypeError` is an explicit outcome (`Res.throw`) that keeps the
  state reached when it was thrown;
* `contextMenuAlertParent` reads class strings and ids with `search` and
  `substring` as the source does, and is a total function: its first argument
  is the room left on the call stack, and exhausting it is the `RangeError`
  outcome.
-/

namespace BreveMenus

/-! ## Geometry (`clamp`, `mouseRelativePosition`, submenu placement) -/

/-- `clamp(num, min, max)` of the source: `Math.max(min, Math.min(num, max))`;
`max = none` stands for the default `Infinity`. -/
def clamp (num min : ℚ) (max : Option ℚ) : ℚ :=
  match max with
  | none => Max.max min num
  | some m => Max.max min (Min.min num m)

/-- The part of the browser environment the placement code reads:
`window.innerWidth`, `window.innerHeight` and the tracked pointer `mouse`. -/
structure Viewport where
  innerWidth : ℚ
  innerHeight : ℚ
  mouseX : ℚ
  mouseY : ℚ

/-- A `DOMRect` as returned by `getBoundingClientRect()`. -/
structure Rect where
  left : ℚ
  top : ℚ
  right : ℚ
  bottom : ℚ
  width : ℚ
  height : ℚ

/-- The `{left, top}` result of `mouseRelativePosition`. -/
structure LeftTop where
  left : ℚ
  top : ℚ

/-- `mouseRelativePosition(obj, offsetX, offsetY)`; `r` is
`obj.getBoundingClientRect()`. -/
def mouseRelativePosition (v : Viewport) (r : Rect) (offsetX offsetY : ℚ) : LeftTop :=
  { left := if r.width > v.innerWidth - v.mouseX
            then clamp (v.mouseX - r.width - 2 * offsetX) 0 none
            else v.mouseX + offsetX
    top := if r.height > v.innerHeight - v.mouseY
           then clamp (v.mouseY - r.height - 2 * offsetY) 0 none
           else v.mouseY + offsetY }

/-- The four inline style offsets the module writes (`div.style.left` and so
on), in pixels; `none` is "not set". -/
structure Style where
  left : Option ℚ
  right : Option ℚ
  top : Option ℚ
  bottom : Option ℚ

/-- The style of a freshly created element. -/
def Style.unset : Style := { left := none, right := none, top := none, bottom := none }

/-- Horizontal half of the deferred placement callback of
`resolveContextSubLists` (source lines 464-474): `rect` is the anchor button's
rectangle, `subrect` the submenu's. -/
def placeHorizontal (v : Viewport) (rect subrect : Rect) (s : Style) : Style :=
  if subrect.width ≤ v.innerWidth - rect.right then
    { s with left := some rect.right }
  else if subrect.width ≤ rect.left then
    { s with right := some (v.innerWidth - rect.left) }
  else
    { s with left := some 0 }

/-- Vertical half of the deferred placement callback (source lines 476-481). -/
def placeVertical (v : Viewport) (rect subrect : Rect) (s : Style) : Style :=
  if subrect.height ≤ v.innerHeight - rect.top then
    { s with top := some rect.top }
  else if subrect.height ≤ rect.bottom then
    { s with bottom := some rect.bottom }
  else
    { s with bottom := some v.innerHeight }

/-- The whole geometric effect of the deferred placement callback. -/
def placeSubmenu (v : Viewport) (rect subrect : Rect) (s : Style) : Style :=
  placeVertical v rect subrect (placeHorizontal v rect subrect s)

/-- Horizontal extent `(leftEdge, rightEdge)` of a box of width `w` laid out in
a viewport of width `vw` from its style: a CSS `left` value `x` puts the left
edge at `x`; a CSS `right` value `r` puts the right edge at `vw - r`. -/
def horizontalExtent (vw w : ℚ) (s : Style) : Option (ℚ × ℚ) :=
  match s.left, s.right with
  | some x, _ => some (x, x + w)
  | none, some r => some (vw - r - w, vw - r)
  | none, none => none

/-- Vertical extent `(topEdge, bottomEdge)` of a box of height `h` laid out in
a viewport of height `vh`: a CSS `top` value `y` puts the top edge at `y`; a
CSS `bottom` value `b` puts the bottom edge at `vh - b`. -/
def verticalExtent (vh h : ℚ) (s : Style) : Option (ℚ × ℚ) :=
  match s.top, s.bottom with
  | some y, _ => some (y, y + h)
  | none, some b => some (vh - b - h, vh - b)
  | none, none => none

/-! ## The browser timer queue and `BreveTimer` -/

/-- The browser's queue of pending timeouts; `α` is the type of callbacks,
`none` a `null` callback. -/
structure Timers (α : Type) where
  pending : List (Nat × Option α × Nat)
  nextHandle : Nat

/-- An empty timer queue. -/
def Timers.empty (α : Type) : Timers α := { pending := [], nextHandle := 1 }

/-- `setTimeout(cb, delay)`: returns the new handle. -/
def setTimeout {α : Type} (cb : Option α) (delay : Nat) (q : Timers α) : Nat × Timers α :=
  (q.nextHandle,
    { pending := q.pending ++ [(q.nextHandle, cb, delay)], nextHandle := q.nextHandle + 1 })

/-- `clearTimeout(h)`. -/
def clearTimeout {α : Type} (h : Nat) (q : Timers α) : Timers α :=
  { q with pending := q.pending.filter (fun p => p.1 ≠ h) }

/-- The fields of a `BreveTimer` object; `α` is the type of the actions it is
given. -/
structure BreveTimer (α : Type) where
  active : Bool
  t : Option Nat
  waitingToRun : Option α
  waitingDelay : Nat
  onWait : Option α
  continueWaiting : Bool
  waiting : Bool

/-- `new BreveTimer(continueWaiting)`. -/
def BreveTimer.new (α : Type) (continueWaiting : Bool) : BreveTimer α :=
  { active := false, t := none, waitingToRun := none, waitingDelay := 1000, onWait := none,
    continueWaiting := continueWaiting, waiting := false }

/-- `set(toRun, delay = this.waitingDelay, onWait = null)`; `delay = none` is
an omitted argument. `inj` says how the timer's actions sit in the browser
queue's callback type. -/
def BreveTimer.set {α γ : Type} (inj : α → γ) (toRun : α) (delay : Option Nat)
    (onWait : Option α) (tm : BreveTimer α) (q : Timers γ) : BreveTimer α × Timers γ :=
  let d := delay.getD tm.waitingDelay
  let tm1 := { tm with active := true, waitingToRun := some toRun, waitingDelay := d,
                       onWait := onWait }
  let q1 := match tm1.t with
    | some h => clearTimeout h q
    | none => q
  if tm1.waiting then (tm1, q1)
  else
    let r := setTimeout (tm1.waitingToRun.map inj) tm1.waitingDelay q1
    ({ tm1 with t := some r.1 }, r.2)

/-- `wait()`. The third component is the `onWait` callback that the method
invokes (`none` when `onWait` is `null`). -/
def BreveTimer.wait {α γ : Type} (tm : BreveTimer α) (q : Timers γ) :
    BreveTimer α × Timers γ × Option α :=
  let tm1 := { tm with waiting := true }
  match tm1.t with
  | some h => ({ tm1 with t := none }, clearTimeout h q, tm1.onWait)
  | none => (tm1, q, tm1.onWait)

/-- `start()`. -/
def BreveTimer.start {α γ : Type} (inj : α → γ) (tm : BreveTimer α) (q : Timers γ) :
    BreveTimer α × Timers γ :=
  if tm.waiting then
    let r := setTimeout (tm.waitingToRun.map inj) tm.waitingDelay q
    ({ tm with t := some r.1, waiting := false }, r.2)
  else
    ({ tm with waiting := false }, q)

/-- `cancel()`. -/
def BreveTimer.cancel {α γ : Type} (tm : BreveTimer α) (q : Timers γ) :
    BreveTimer α × Timers γ :=
  let (tm1, q1) := match tm.t with
    | some h => ({ tm with t := none }, clearTimeout h q)
    | none => (tm, q)
  let tm2 := if tm1.continueWaiting then tm1 else { tm1 with waiting := false }
  ({ tm2 with active := false, waitingToRun := none, waitingDelay := 1000 }, q1)

/-- A timer together with the queue holding the timeouts it scheduled. -/
abbrev TimerState (α : Type) := BreveTimer α × Timers α

/-- The browser fires the pending timeout `h`: it leaves the queue (and its
callback runs; the callbacks of interest do not touch the timer). -/
def fireTimeout {α : Type} (h : Nat) (s : TimerState α) : TimerState α :=
  (s.1, clearTimeout h s.2)

/-- The calls that can be made on a timer, plus the firing of a timeout. -/
inductive TimerOp (α : Type) where
  | set (toRun : α) (delay : Option Nat) (onWait : Option α)
  | wait
  | start
  | cancel
  | fire (h : Nat)

/-- The calls other than `start()`. -/
inductive PausedOp (α : Type) where
  | set (toRun : α) (delay : Option Nat) (onWait : Option α)
  | wait
  | cancel

/-- One call on a timer. -/
def TimerOp.run {α : Type} : TimerOp α → TimerState α → TimerState α
  | .set a d w, s => BreveTimer.set id a d w s.1 s.2
  | .wait, s => let r := BreveTimer.wait s.1 s.2; (r.1, r.2.1)
  | .start, s => BreveTimer.start id s.1 s.2
  | .cancel, s => BreveTimer.cancel s.1 s.2
  | .fire h, s => fireTimeout h s

/-- One call other than `start()`. -/
def PausedOp.run {α : Type} : PausedOp α → TimerState α → TimerState α
  | .set a d w, s => BreveTimer.set id a d w s.1 s.2
  | .wait, s => let r := BreveTimer.wait s.1 s.2; (r.1, r.2.1)
  | .cancel, s => BreveTimer.cancel s.1 s.2

/-- A sequence of calls, left to right. -/
def runOps {α : Type} (ops : List (TimerOp α)) (s : TimerState α) : TimerState α :=
  ops.foldl (fun s op => op.run s) s

/-- A sequence of calls other than `start()`, left to right. -/
def runPaused {α : Type} (ops : List (PausedOp α)) (s : TimerState α) : TimerState α :=
  ops.foldl (fun s op => op.run s) s

/-- `const tooltipTimer = new BreveTimer(true)` with an empty queue. -/
def tooltipTimerInit (α : Type) : TimerState α := (BreveTimer.new α true, Timers.empty α)

/-- The invariant linking a timer to the queue of its own timeouts: at most one
is pending, its handle is the one stored in `t`, and none is pending while the
timer is paused. -/
def TimerInv {α : Type} (s : TimerState α) : Prop :=
  s.2.pending = [] ∨
    ∃ h cb d, s.2.pending = [(h, cb, d)] ∧ s.1.t = some h ∧ s.1.waiting = false

/-! ## JavaScript objects and `for ... in` -/

/-- Whether a character is a decimal digit. -/
def isDigitChar (c : Char) : Bool := decide (48 ≤ c.toNat) && decide (c.toNat ≤ 57)

/-- The number written by a list of decimal digits. -/
def digitsValue (cs : List Char) : Nat := cs.foldl (fun n c => 10 * n + (c.toNat - 48)) 0

/-- The array index a property key denotes, if it is one: a canonical decimal
numeral (no leading zero) below `2^32 - 1`. -/
def arrayIndex? (s : String) : Option Nat :=
  match s.data with
  | [] => none
  | c :: cs =>
    if (c :: cs).all isDigitChar && (decide (c.toNat ≠ 48) || cs.isEmpty)
        && decide (digitsValue (c :: cs) < 4294967295)
    then some (digitsValue (c :: cs)) else none

/-- A JavaScript object used as a dictionary: its own enumerable properties, in
the order in which they were created. The prototype of the object is not
recorded: it is `Object.prototype` throughout, which has no enumerable
property. -/
abbrev Obj (α : Type) := List (String × α)

/-- The names of the properties of `Object.prototype`: reading one of them on
an object that has no own property of that name gives the inherited value,
not `undefined`. -/
def objectPrototypeKeys : List String :=
  ["constructor", "__defineGetter__", "__defineSetter__", "hasOwnProperty",
   "__lookupGetter__", "__lookupSetter__", "isPrototypeOf", "propertyIsEnumerable",
   "toString", "valueOf", "__proto__", "toLocaleString"]

/-- `o[k]`; `none` is `undefined`. -/
def Obj.lookup {α : Type} (o : Obj α) (k : String) : Option α :=
  (o.find? (fun p => p.1 = k)).map (fun p => p.2)

/-- `o.hasOwnProperty(k)`. -/
def Obj.has {α : Type} (o : Obj α) (k : String) : Bool := o.any (fun p => p.1 = k)

/-- `o[k] = v` for a key other than `__proto__`: an existing property keeps its
place, a new one goes last. On the plain objects of the module an assignment
to the key `__proto__` creates no property: it replaces the prototype of the
object; the model never applies `Obj.set` to that key (see `protoAssigned`). -/
def Obj.set {α : Type} (o : Obj α) (k : String) (v : α) : Obj α :=
  if Obj.has o k then o.map (fun p => if p.1 = k then (k, v) else p) else o ++ [(k, v)]

/-- `delete o[k]`. -/
def Obj.delete {α : Type} (o : Obj α) (k : String) : Obj α := o.filter (fun p => p.1 ≠ k)

/-- The order in which `for ... in` (and `Object.keys`) visits the properties of
an object: array-index keys in ascending numeric order, then the other keys in
creation order. -/
def forInOrder {α : Type} (o : Obj α) : Obj α :=
  ((o.filterMap (fun p => (arrayIndex? p.1).map (fun n => (n, p)))).insertionSort
      (fun a b => a.1 ≤ b.1)).map (fun a => a.2)
    ++ o.filter (fun p => (arrayIndex? p.1).isNone)

/-- The keys a `for ... in` loop snapshots when it starts. -/
def forInKeys {α : Type} (o : Obj α) : List String := (forInOrder o).map (fun p => p.1)

/-! ## Menu specifications -/

/-- A menu item specification: the own properties the code reads. `none` is an
absent property. `run` is the identity of the callback; `children` is the
nested menu object. -/
inductive Item : Type where
  | mk (type : Option String) (icon : Option String) (iconlib : Option String)
      (iconclass : Option String) (condition : Option Bool) (run : Option Nat)
      (toggle : Option Bool) (children : Option (List (String × Item)))

/-- `item.type`. -/
def Item.type : Item → Option String
  | .mk t _ _ _ _ _ _ _ => t

/-- `item.icon`. -/
def Item.icon : Item → Option String
  | .mk _ i _ _ _ _ _ _ => i

/-- `item.iconlib`. -/
def Item.iconlib : Item → Option String
  | .mk _ _ l _ _ _ _ _ => l

/-- `item.iconclass`. -/
def Item.iconclass : Item → Option String
  | .mk _ _ _ c _ _ _ _ => c

/-- `item.condition`. -/
def Item.condition : Item → Option Bool
  | .mk _ _ _ _ c _ _ _ => c

/-- `item.run`. -/
def Item.run : Item → Option Nat
  | .mk _ _ _ _ _ r _ _ => r

/-- `item.toggle`. -/
def Item.toggle : Item → Option Bool
  | .mk _ _ _ _ _ _ t _ => t

/-- `item.children`. -/
def Item.children : Item → Option (Obj Item)
  | .mk _ _ _ _ _ _ _ ch => ch

/-- A menu specification: label to item. -/
abbrev Menu := Obj Item

/-- A function item `{type: "function", run: r}`. -/
def Item.function (r : Nat) : Item :=
  .mk (some "function") none none none none (some r) none none

/-- A category item `{type: "category", children: ch}`. -/
def Item.category (ch : Menu) : Item :=
  .mk (some "category") none none none none none none (some ch)

/-- A separator item `{type: "separator"}`. -/
def Item.separator : Item :=
  .mk (some "separator") none none none none none none none

/-! ## DOM elements -/

/-- The configuration object `BreveMenus`. -/
structure Config where
  tooltipDelay : Nat
  tooltipFadeTime : Nat
  tooltipOffsetX : ℚ
  tooltipOffsetY : ℚ
  hideTooltipOnMouseMove : Bool
  iconClass : String
  disableDefaultContextMenus : Bool

/-- The configuration the module ships with. -/
def Config.default : Config :=
  { tooltipDelay := 750, tooltipFadeTime := 0, tooltipOffsetX := 5, tooltipOffsetY := 5,
    hideTooltipOnMouseMove := true, iconClass := "material-icons",
    disableDefaultContextMenus := false }

/-- An exception thrown by the JavaScript code or by the browser: a
`TypeError`, the `SyntaxError` of `querySelector` on an invalid selector, the
`RangeError` of an exhausted call stack. The last case is no exception:
`notModelled` marks a point from which what the code does depends on the
prototype of an object, which the state does not record (see `protoAssigned`
and `objectPrototypeKeys`); the model stops there, and nothing is concluded
about the code from such an outcome. -/
inductive JSError where
  | typeError (msg : String)
  | syntaxError (msg : String)
  | rangeError (msg : String)
  | notModelled (what : String)
  deriving DecidableEq, Repr

/-- A click listener of a menu button: the item's `run` callback or
`cancelContextMenu`. -/
inductive Handler where
  | run (callback : Nat)
  | cancelContextMenu
  deriving DecidableEq, Repr

/-- The children a menu item element can have: an icon `div` (the `class`
attribute of its `i`, the string assigned to the `innerHTML` of that `i`,
whether the `div` has class `withText`), a text `div` (the string assigned to
the `innerHTML` of its `span`), a text node (what `append` makes of a non-node
argument), the empty `div` of a separator. The strings assigned to `innerHTML`
are kept as they are assigned: the browser parses them as HTML, and what it
shows is the string itself only when the string holds no markup. -/
inductive Node where
  | icon (library iconName : String) (withText : Bool)
  | text (html : String)
  | raw (s : String)
  | blob
  deriving DecidableEq, Repr

/-- A menu item element (a `button` or a separator `div`). `ref` stands for
the identity of the DOM object, `click` for its click listeners in the order
they were added. -/
structure Element where
  ref : Nat
  tag : String
  id : String
  classes : List String
  children : List Node
  click : List Handler
  deriving DecidableEq, Repr

/-- `classList.add(c)`. -/
def classAdd (cs : List String) (c : String) : List String := if c ∈ cs then cs else cs ++ [c]

/-- `classList.remove(c)`. -/
def classRemove (cs : List String) (c : String) : List String := cs.filter (fun x => x ≠ c)

/-- `show(obj)` on a class list. -/
def showClasses (cs : List String) : List String :=
  classRemove (classRemove (classAdd cs "shown") "hidden") "hiddenByDefault"

/-- `hide(obj)` on a class list. -/
def hideClasses (cs : List String) : List String :=
  if "hiddenByDefault" ∈ cs then cs else classRemove (classAdd cs "hidden") "shown"

/-- `hideByDefault(obj)` on a class list. -/
def hideByDefaultClasses (cs : List String) : List String :=
  classAdd (classAdd cs "hiddenByDefault") "hidden"

/-- `makeIcon(iconName, library)`: `none` is the `null` returned for an empty
library. -/
def makeIcon (iconName library : String) : Option Node :=
  if library = "" then none else some (Node.icon library iconName false)

/-- `makeText(text)`: a `div.text` holding a `span` with `innerHTML = text`
(source line 251). -/
def makeText (text : String) : Node := Node.text text

/-- `tempIcon.classList.add("withText")`. -/
def Node.addWithText : Node → Node
  | .icon l n _ => .icon l n true
  | other => other

/-- `makeButton(icon, text, iconClass)`, the new button having identity `ref`.
When `makeIcon` returns `null`, `tempIcon.classList` throws if `text` is not
empty; otherwise `button.append(null)` appends the text node "null". -/
def makeButton (ref : Nat) (icon text iconClass : String) : Except JSError Element :=
  let button : Element :=
    { ref := ref, tag := "button", id := "", classes := ["btn"], children := [], click := [] }
  let withIcon : Except JSError Element :=
    if icon ≠ "" then
      match makeIcon icon iconClass with
      | none =>
        if text ≠ "" then .error (.typeError "tempIcon is null")
        else .ok { button with children := [Node.raw "null"] }
      | some tempIcon =>
        .ok { button with children := [if text ≠ "" then tempIcon.addWithText else tempIcon] }
    else .ok button
  match withIcon with
  | .error e => .error e
  | .ok b => if text ≠ "" then .ok { b with children := b.children ++ [makeText text] } else .ok b

/-- `button.append(makeIcon(...))`: a `null` icon is appended as the text node
"null". -/
def appendIcon (e : Element) (icon : Option Node) : Element :=
  match icon with
  | some n => { e with children := e.children ++ [n] }
  | none => { e with children := e.children ++ [Node.raw "null"] }

/-- The string assigned to the `innerHTML` of the `span` of a text `div`. -/
def Node.text? : Node → Option String
  | .text s => some s
  | _ => none

/-- The label a menu item element was built with: the string `makeText`
assigned to the `innerHTML` of the `span` of its text `div` (the empty string
if it has no text `div`). It is the HTML source of what the item shows, not
the text the browser makes of it. -/
def Element.label (e : Element) : String := (e.children.findSome? Node.text?).getD ""

/-! ## The module's state -/

/-- A value of a pending sublist: `{_parent: button, _item: item}`. -/
structure Entry where
  _parent : Nat
  _item : Item

/-- A menu level: `div.contextMenu`. `anchor` is the button the level is wired
to by `resolveContextSubLists` (hover listeners on the button and on the
`div`, a fresh delay timer, and the deferred placement callback). -/
structure MenuDiv where
  ref : Nat
  id : String
  classes : List String
  items : List Element
  style : Style
  anchor : Option Nat

/-- The container `div#BreveContextMenu`. -/
structure Container where
  ref : Nat
  id : String
  classes : List String
  children : List MenuDiv

/-- The listeners the module registers on `window`. -/
inductive WinListener where
  | trackMouse
  | preventDefault
  | leftClickCancelContextMenu
  | cancelContextMenu
  | escKeyCancelContextMenu
  deriving DecidableEq, Repr

/-- The two closures `setTooltip` gives to `tooltipTimer`. -/
inductive TooltipCb where
  | show (text : String)
  | hide
  deriving DecidableEq, Repr

/-- The callbacks the module hands to `setTimeout`: the body of
`makeContextMenu`, the placement closure of `resolveContextSubLists`, and the
tooltip timer's action. -/
inductive Callback where
  | openMenu (ancestor : Nat) (menu : Menu)
  | place (button div : Nat)
  | tooltip (cb : TooltipCb)

/-- The shared tooltip element `div#BreveTooltip`. -/
structure Tooltip where
  classes : List String
  text : String
  left : Option ℚ
  top : Option ℚ

/-- The state of the module and of the part of the page it touches. -/
structure World where
  contextMenuParent : Option Nat
  contextSubLists : Obj (Obj Entry)
  submenuCount : Nat
  document : List Container
  windowListeners : List (String × WinListener)
  contextOpen : List Nat
  timers : Timers Callback
  tooltipTimer : BreveTimer TooltipCb
  tooltip : Tooltip
  nextRef : Nat

/-- The state right after the module has loaded. -/
def World.init : World :=
  { contextMenuParent := none, contextSubLists := [], submenuCount := 0, document := [],
    windowListeners := [("mousemove", .trackMouse), ("contextmenu", .preventDefault)],
    contextOpen := [], timers := Timers.empty Callback,
    tooltipTimer := BreveTimer.new TooltipCb true,
    tooltip := { classes := hideByDefaultClasses [], text := "", left := none, top := none },
    nextRef := 1 }

/-- The layout the browser reports: the viewport with the pointer, and the
bounding rectangle of each element. -/
structure Env where
  viewport : Viewport
  rectOf : Nat → Rect
  tooltipRect : Rect

/-- The outcome of running a piece of the module: normal completion with a
value, or a thrown exception; both with the state reached. -/
inductive Res (α : Type) where
  | ok (a : α) (w : World)
  | throw (e : JSError) (w : World)

/-- The state an outcome ends in. -/
def Res.world {α : Type} : Res α → World
  | .ok _ w => w
  | .throw _ w => w

/-- Whether an outcome is a normal completion. -/
def Res.isOk {α : Type} : Res α → Bool
  | .ok _ _ => true
  | .throw _ _ => false

/-- The exception an outcome ends with, if any. -/
def Res.thrown {α : Type} : Res α → Option JSError
  | .ok _ _ => none
  | .throw e _ => some e

/-- `window.addEventListener(type, l)`: a listener already registered for the
type is not added again. -/
def addListener (ls : List (String × WinListener)) (type : String) (l : WinListener) :
    List (String × WinListener) :=
  if (type, l) ∈ ls then ls else ls ++ [(type, l)]

/-- `window.removeEventListener(type, l)`. -/
def removeListener (ls : List (String × WinListener)) (type : String) (l : WinListener) :
    List (String × WinListener) :=
  ls.filter (fun p => p ≠ (type, l))

/-! ## `makeContextMenuItem` -/

/-- Whether registering the children `ch` of the category `name` assigns to the
key `__proto__`: `sublist[text] = ...` (source line 575) for a child labelled
`__proto__`, or `contextSubLists[name] = sublist` (line 580) for a category
labelled `__proto__`. Such an assignment creates no property: it makes the
assigned value the prototype of `sublist` or of `contextSubLists`, whose
inherited properties the later `for ... in` loops enumerate. -/
def protoAssigned (name : String) (ch : List (String × Item)) : Bool :=
  decide (name = "__proto__") || Obj.has ch "__proto__"

/-- The pending sublist a category registers: each child, in `for ... in`
order, paired with the category's button. -/
def makeSublist (button : Nat) (children : Menu) : Obj Entry :=
  (forInOrder children).map (fun p => (p.1, { _parent := button, _item := p.2 }))

/-- The icon library `makeContextMenuItem` hands to `makeButton`: the
configured one, or `item.iconclass` when the item has an `iconlib` property
(an `undefined` argument takes the parameter's default, the configured one). -/
def iconLibrary (cfg : Config) (item : Item) : String :=
  if item.iconlib.isSome then item.iconclass.getD cfg.iconClass else cfg.iconClass

/-- The button after `button.classList.add(item.type)` and, for a false
condition, `button.classList.add("noFunction")` (source lines 549-553). -/
def styledButton (b0 : Element) (ty : String) (condition : Bool) : Element :=
  let b1 := { b0 with classes := classAdd b0.classes ty }
  if condition then b1 else { b1 with classes := classAdd b1.classes "noFunction" }

/-- The click wiring of a function item (source lines 558-562). -/
def wireClick (button : Element) (condition : Bool) (r : Nat) : Element :=
  if condition then
    { button with click := button.click ++ [Handler.run r, Handler.cancelContextMenu] }
  else button

/-- The toggle glyph of a function item (source lines 563-564). -/
def appendToggle (cfg : Config) (toggle : Option Bool) (button : Element) : Element :=
  match toggle with
  | some t =>
    appendIcon button
      (makeIcon (if t then "check_box" else "check_box_outline_blank") cfg.iconClass)
  | none => button

/-- The separator element (source lines 591-595), with identity `ref`. -/
def separatorElement (ref : Nat) : Element :=
  { ref := ref, tag := "div", id := "", classes := ["separator"], children := [Node.blob],
    click := [] }

/-- `makeContextMenuItem(name, item)`. The result `none` is `null`. When the
registration of the children assigns to the key `__proto__` the outcome is
`notModelled`. -/
def makeContextMenuItem (cfg : Config) (name : String) (item : Item) (w : World) :
    Res (Option Element) :=
  match item.type with
  | none => .ok none w
  | some ty =>
    if ty = "function" ∨ ty = "category" then
      let condition := item.condition.getD true
      let w1 := { w with nextRef := w.nextRef + 1 }
      match makeButton w.nextRef (item.icon.getD "") name (iconLibrary cfg item) with
      | .error e => .throw e w1
      | .ok b0 =>
        let button := styledButton b0 ty condition
        if ty = "function" then
          match item.run with
          | none => .ok none w1
          | some r => .ok (some (appendToggle cfg item.toggle (wireClick button condition r))) w1
        else if condition then
          match item.children with
          | some ch =>
            if protoAssigned name ch then
              .throw (.notModelled "assignment to the key __proto__") w1
            else
              .ok (some (appendIcon button (makeIcon "chevron_right" cfg.iconClass)))
                { w1 with contextSubLists :=
                    Obj.set w1.contextSubLists name (makeSublist button.ref ch) }
          | none => .ok none w1
        else .ok (some (appendIcon button (makeIcon "chevron_right" cfg.iconClass))) w1
    else if ty = "separator" then
      .ok (some (separatorElement w.nextRef)) { w with nextRef := w.nextRef + 1 }
    else .ok none w

/-! ## `resolveContextSubLists` -/

/-- The id given to the `itemCount`-th entry of the menu level `menuId`. -/
def itemId (menuId : String) (itemCount : Nat) : String :=
  menuId ++ "-itemAtPos" ++ toString itemCount

/-- `newItem.id = ...; div.append(newItem)` when `newItem` is not `null`. -/
def appendItem (items : List Element) (menuId : String) (itemCount : Nat)
    (newItem : Option Element) : List Element :=
  match newItem with
  | some el => items ++ [{ el with id := itemId menuId itemCount }]
  | none => items

/-- `contextSubLists[name][text]` when both are own properties; `none` when
either is not. -/
def pendingEntry (w : World) (name text : String) : Option Entry :=
  (Obj.lookup w.contextSubLists name).bind (fun sub => Obj.lookup sub text)

/-- `container.append(div)` for the container with identity `container`. -/
def appendDiv (container : Nat) (div : MenuDiv) (w : World) : World :=
  { w with document := w.document.map (fun c =>
      if c.ref = container then { c with children := c.children ++ [div] } else c) }

/-- The inner loop of `resolveContextSubLists` (source lines 442-453) over the
keys snapshot of the sublist: `button` is the loop's `button` variable,
`items` the children appended to `div` so far. The body reads
`contextSubLists[name][text]` anew at each use. When the first read (line 444)
finds no own property, `makeContextMenuItem` is called with `undefined` or the
read itself fails: a `TypeError` either way. When the second read (line 446)
finds none, `._parent` throws a `TypeError` on `undefined`; but if `name` or
`text` is the name of a property of `Object.prototype` an inherited value may
be read instead, `button` becomes `undefined` and the loop goes on: that
outcome is `notModelled`. -/
def subListLoop (cfg : Config) (name divId : String) :
    List String → Option Nat → List Element → Nat → World → Res (Option Nat × List Element)
  | [], button, items, _, w => .ok (button, items) w
  | text :: rest, button, items, itemCount, w =>
    match pendingEntry w name text with
    | none => .throw (.typeError "contextSubLists[name][text] is undefined") w
    | some entry =>
      match makeContextMenuItem cfg text entry._item w with
      | .throw e w1 => .throw e w1
      | .ok newItem w1 =>
        match button with
        | some b =>
          subListLoop cfg name divId rest (some b) (appendItem items divId itemCount newItem)
            (itemCount + 1) w1
        | none =>
          match pendingEntry w1 name text with
          | none =>
            if name ∈ objectPrototypeKeys ∨ text ∈ objectPrototypeKeys then
              .throw (.notModelled "an inherited property is read as the button") w1
            else .throw (.typeError "contextSubLists[name][text] is undefined") w1
          | some entry1 =>
            subListLoop cfg name divId rest (some entry1._parent)
              (appendItem items divId itemCount newItem) (itemCount + 1) w1

/-- The start of an iteration of the outer loop (source lines 434-439):
`submenuCount++`, `delete contextSubLists[prev]` when `prev` is not `null`, and
the creation of the submenu's `div` (whose identity is the old `nextRef`). -/
def beginSubmenu (prev : Option String) (w : World) : World :=
  { w with
    submenuCount := w.submenuCount + 1,
    contextSubLists := (match prev with
      | some p => Obj.delete w.contextSubLists p
      | none => w.contextSubLists),
    nextRef := w.nextRef + 1 }

/-- The id of the submenu being built: `contextMenuSub${submenuCount}`. -/
def submenuDivId (w : World) : String := "contextMenuSub" ++ toString w.submenuCount

/-- The keys the inner loop snapshots: those of `contextSubLists[name]` (no key
when it is `undefined`). -/
def sublistKeys (w : World) (name : String) : List String :=
  match Obj.lookup w.contextSubLists name with
  | some sub => forInKeys sub
  | none => []

/-- The submenu `div` as it is when appended to the container: class
`contextMenu` (source line 438), hidden by default (line 454), holding the
items built by the inner loop, and wired to `button` when it is not `null`. -/
def submenuDiv (divRef : Nat) (divId : String) (button : Option Nat) (items : List Element) :
    MenuDiv :=
  { ref := divRef, id := divId, classes := hideByDefaultClasses ["contextMenu"],
    items := items, style := Style.unset, anchor := button }

/-- The end of an iteration of the outer loop (source lines 454-512):
`hideByDefault(div)`, the wiring to `button` when it is not `null` (the
deferred placement, the delay timer and the hover listeners), and
`container.append(div)`. -/
def finishSubmenu (container divRef : Nat) (divId : String) (button : Option Nat)
    (items : List Element) (w : World) : World :=
  let w1 := match button with
    | some b =>
      { w with timers := (setTimeout (some (Callback.place b divRef)) 1 w.timers).2 }
    | none => w
  appendDiv container (submenuDiv divRef divId button items) w1

/-- The outer loop of `resolveContextSubLists` (source lines 432-514) over the
keys snapshot of `contextSubLists`; a key that is no longer a property when
its turn comes is skipped. The result is the final value of `prev`. -/
def registryLoop (cfg : Config) (container : Nat) :
    List String → Option String → World → Res (Option String)
  | [], prev, w => .ok prev w
  | name :: rest, prev, w =>
    if Obj.has w.contextSubLists name then
      let w1 := beginSubmenu prev w
      match subListLoop cfg name (submenuDivId w1) (sublistKeys w1 name) none [] 1 w1 with
      | .throw e w2 => .throw e w2
      | .ok r w2 =>
        registryLoop cfg container rest (some name)
          (finishSubmenu container w.nextRef (submenuDivId w1) r.1 r.2 w2)
    else registryLoop cfg container rest prev w

/-- `resolveContextSubLists(container)`. The first argument bounds the depth of
the recursion; `none` means the bound was reached. -/
def resolveContextSubLists (cfg : Config) (container : Nat) : Nat → World → Option (Res Unit)
  | 0, _ => none
  | fuel + 1, w =>
    match registryLoop cfg container (forInKeys w.contextSubLists) none w with
    | .throw e w1 => some (.throw e w1)
    | .ok (some prev) w1 =>
      resolveContextSubLists cfg container fuel
        { w1 with contextSubLists := Obj.delete w1.contextSubLists prev }
    | .ok none w1 => some (.ok () { w1 with submenuCount := 0 })

/-! ## `makeContextMenu` and `cancelContextMenu` -/

/-- The root loop of `makeContextMenu` (source lines 619-628). -/
def rootLoop (cfg : Config) :
    List (String × Item) → List Element → Nat → World → Res (List Element)
  | [], items, _, w => .ok items w
  | (text, item) :: rest, items, itemCount, w =>
    match makeContextMenuItem cfg text item w with
    | .throw e w1 => .throw e w1
    | .ok newItem w1 =>
      rootLoop cfg rest (appendItem items "contextMenuMain" itemCount newItem) (itemCount + 1) w1

/-- Running one of the tooltip timer's closures. -/
def runTooltipCb (cfg : Config) (env : Env) (cb : TooltipCb) (w : World) : World :=
  match cb with
  | .hide => { w with tooltip := { w.tooltip with classes := hideClasses w.tooltip.classes } }
  | .show text =>
    let pos := mouseRelativePosition env.viewport env.tooltipRect cfg.tooltipOffsetX
      cfg.tooltipOffsetY
    { w with tooltip :=
        { classes := showClasses w.tooltip.classes, text := text, left := some pos.left,
          top := some pos.top } }

/-- `tooltipTimer.wait()`, running the `onWait` closure it invokes. -/
def tooltipTimerWait (cfg : Config) (env : Env) (w : World) : World :=
  let r := BreveTimer.wait w.tooltipTimer w.timers
  let w1 := { w with tooltipTimer := r.1, timers := r.2.1 }
  match r.2.2 with
  | some cb => runTooltipCb cfg env cb w1
  | none => w1

/-- `tooltipTimer.start()`. -/
def tooltipTimerStart (w : World) : World :=
  let r := BreveTimer.start Callback.tooltip w.tooltipTimer w.timers
  { w with tooltipTimer := r.1, timers := r.2 }

/-- The root level `div#contextMenuMain` with its position (source lines
613-636); `rect` is its bounding rectangle. -/
def mainDiv (env : Env) (divRef : Nat) (items : List Element) : MenuDiv :=
  let pos := mouseRelativePosition env.viewport (env.rectOf divRef) 0 0
  { ref := divRef, id := "contextMenuMain", classes := ["contextMenu"], items := items,
    style := { Style.unset with left := some pos.left, top := some pos.top },
    anchor := none }

/-- The container `div#BreveContextMenu` holding the root level. The class
list is the one `className = "contextMenuContainer"` leaves. -/
def newContainer (containerRef : Nat) (div : MenuDiv) : Container :=
  { ref := containerRef, id := "BreveContextMenu", classes := ["contextMenuContainer"],
    children := [div] }

/-- The end of the deferred body of `makeContextMenu` (source lines 638-643):
the anchor gets class `contextOpen`, the container is shown, the tooltip timer
is paused and the three dismissal listeners are registered. -/
def showMenu (cfg : Config) (env : Env) (ancestor containerRef : Nat) (w : World) : World :=
  let w1 := { w with
    contextOpen := (if ancestor ∈ w.contextOpen then w.contextOpen
                    else w.contextOpen ++ [ancestor]),
    document := w.document.map (fun c =>
      if c.ref = containerRef then { c with classes := showClasses c.classes } else c) }
  let w2 := tooltipTimerWait cfg env w1
  let l1 := addListener w2.windowListeners "click" .leftClickCancelContextMenu
  let l2 := addListener l1 "contextmenu" .cancelContextMenu
  let l3 := addListener l2 "keydown" .escKeyCancelContextMenu
  { w2 with windowListeners := l3 }

/-- The function `makeContextMenu(ancestor, menu)` defers (source lines
609-645). `fuel` bounds the recursion of `resolveContextSubLists`. The
container gets identity `w.nextRef`, the root level `w.nextRef + 1`. -/
def openMenu (cfg : Config) (env : Env) (fuel : Nat) (ancestor : Nat) (menu : Menu)
    (w : World) : Option (Res Unit) :=
  let w1 := { w with contextMenuParent := some ancestor, nextRef := w.nextRef + 2 }
  match rootLoop cfg (forInOrder menu) [] 1 w1 with
  | .throw e w2 => some (.throw e w2)
  | .ok items w2 =>
    let container := newContainer w.nextRef (mainDiv env (w.nextRef + 1) items)
    let w3 := { w2 with document := w2.document.tail ++ [container] }
    match resolveContextSubLists cfg w.nextRef fuel w3 with
    | none => none
    | some (.throw e w4) => some (.throw e w4)
    | some (.ok _ w4) => some (.ok () (showMenu cfg env ancestor w.nextRef w4))

/-- The state in which the deferred body of `makeContextMenu(ancestor, menu)`
calls `resolveContextSubLists` (source lines 611-636): the root loop has run
and the container that holds the root level is in the document; `none` if the
root loop throws. `openMenu` goes on from this state. -/
def beforeResolve (cfg : Config) (env : Env) (ancestor : Nat) (menu : Menu) (w : World) :
    Option World :=
  match rootLoop cfg (forInOrder menu) [] 1
      { w with contextMenuParent := some ancestor, nextRef := w.nextRef + 2 } with
  | .throw _ _ => none
  | .ok items w2 =>
    some { w2 with document := w2.document.tail ++
      [newContainer w.nextRef (mainDiv env (w.nextRef + 1) items)] }

/-- `makeContextMenu(ancestor, menu)`: it only schedules `openMenu`. -/
def makeContextMenu (ancestor : Nat) (menu : Menu) (w : World) : World :=
  { w with timers := (setTimeout (some (Callback.openMenu ancestor menu)) 1 w.timers).2 }

/-- `cancelContextMenu()`; `_qs("#BreveContextMenu")` is the first container in
the document. -/
def cancelContextMenu (w : World) : Res Unit :=
  match w.document with
  | [] => .ok () w
  | _ :: rest =>
    match w.contextMenuParent with
    | none => .throw (.typeError "contextMenuParent is null") w
    | some p =>
      let l1 := removeListener w.windowListeners "click" .leftClickCancelContextMenu
      let l2 := removeListener l1 "contextmenu" .cancelContextMenu
      let l3 := removeListener l2 "keydown" .escKeyCancelContextMenu
      let w1 := { w with
        contextOpen := w.contextOpen.filter (fun x => x ≠ p),
        document := rest,
        windowListeners := l3 }
      let w2 := tooltipTimerStart w1
      .ok () { w2 with contextMenuParent := none }

/-- The deferred placement closure of `resolveContextSubLists` (source lines
457-488) for the button and the submenu with the given identities. Elements
that are no longer in the document are changed without any effect on the
state. -/
def placeCallback (env : Env) (button div : Nat) (w : World) : World :=
  let divs := w.document.flatMap (fun c => c.children)
  match divs.find? (fun d => d.ref = div),
        (divs.flatMap (fun d => d.items)).find? (fun e => e.ref = button) with
  | some d, some b =>
    { w with document := w.document.map (fun c =>
        { c with children := c.children.map (fun m =>
            let m1 := { m with items := m.items.map (fun e =>
              if e.ref = button
              then { e with classes := classAdd e.classes ("child-" ++ d.id ++ "-endchild") }
              else e) }
            if m1.ref = div then
              { m1 with
                classes := classAdd m1.classes ("parent-" ++ b.id ++ "-endparent"),
                style := placeSubmenu env.viewport (env.rectOf button) (env.rectOf div)
                  m1.style }
            else m1) }) }
  | _, _ => w

/-- Running a callback taken from the timer queue. -/
def runCallback (cfg : Config) (env : Env) (fuel : Nat) (cb : Option Callback) (w : World) :
    Option (Res Unit) :=
  match cb with
  | none => some (.ok () w)
  | some (.openMenu ancestor menu) => openMenu cfg env fuel ancestor menu w
  | some (.place button div) => some (.ok () (placeCallback env button div w))
  | some (.tooltip t) => some (.ok () (runTooltipCb cfg env t w))

/-- The browser fires the pending timeout with handle `h`: it leaves the queue
and its callback runs. Nothing happens if no such timeout is pending. -/
def fireHandle (cfg : Config) (env : Env) (fuel : Nat) (h : Nat) (w : World) :
    Option (Res Unit) :=
  match w.timers.pending.find? (fun p => p.1 = h) with
  | none => some (.ok () w)
  | some p => runCallback cfg env fuel p.2.1 { w with timers := clearTimeout h w.timers }

/-- Letting every timeout scheduled with a handle of at least `since` fire, in
the order of the queue, until none is left; an exception thrown by a callback
is reported to the console and the next timeout fires. The first `Nat` bounds
the number of firings. -/
def drain (cfg : Config) (env : Env) (fuel : Nat) (since : Nat) : Nat → World → Option World
  | 0, _ => none
  | n + 1, w =>
    match w.timers.pending.find? (fun p => since ≤ p.1) with
    | none => some w
    | some p =>
      match fireHandle cfg env fuel p.1 w with
      | none => none
      | some r => drain cfg env fuel since n r.world

/-! ## Predicates on item specifications -/

/-- The items for which `makeButton` throws inside `makeContextMenuItem`: a
function or category item with a non-empty icon and a non-empty label whose
icon library is the empty string. -/
def buttonFails (cfg : Config) (name : String) (item : Item) : Prop :=
  (item.type = some "function" ∨ item.type = some "category") ∧
    item.icon.getD "" ≠ "" ∧ iconLibrary cfg item = "" ∧ name ≠ ""

/-- The items the specification says are dropped: no `type`, an unknown
`type`, a function without `run`, or a category whose condition is true or
absent and that has no `children`. -/
def specNull (item : Item) : Prop :=
  match item.type with
  | none => True
  | some ty =>
    (ty ≠ "function" ∧ ty ≠ "category" ∧ ty ≠ "separator") ∨
    (ty = "function" ∧ item.run = none) ∨
    (ty = "category" ∧ item.condition ≠ some false ∧ item.children = none)

/-- The children a category item registers as a pending sublist: those of a
category whose condition is true or absent. -/
def Item.pendingChildren (item : Item) : Option Menu :=
  if item.type = some "category" ∧ item.condition.getD true = true then item.children
  else none

/-- The items whose registration assigns to the key `__proto__`: a category
that registers its children and is itself labelled `__proto__` or has a child
labelled `__proto__`. On these `makeContextMenuItem` is not modelled. -/
def setsPrototype (name : String) (item : Item) : Prop :=
  match item.pendingChildren with
  | some ch => protoAssigned name ch = true
  | none => False

/-! ## Measures on menu trees -/

mutual
/-- The number of menu levels nested below an item through `children`. -/
def Item.depth : Item → Nat
  | .mk _ _ _ _ _ _ _ none => 0
  | .mk _ _ _ _ _ _ _ (some ch) => menuDepth ch + 1
/-- The largest depth of an item of a menu. -/
def menuDepth : List (String × Item) → Nat
  | [] => 0
  | (_, i) :: r => max (Item.depth i) (menuDepth r)
end

/-- The menu a pending sublist was made from: its entries without the
`_parent` references. -/
def subMenu (sub : Obj Entry) : Menu := sub.map (fun p => (p.1, p.2._item))

/-- The number of menu levels a pending sublist stands for. -/
def subRank (sub : Obj Entry) : Nat := menuDepth (subMenu sub) + 1

/-- The largest rank of a pending sublist: a bound on the number of recursive
calls `resolveContextSubLists` still makes. -/
def registryRank : Obj (Obj Entry) → Nat
  | [] => 0
  | p :: r => max (subRank p.2) (registryRank r)

/-- The invariant of the loops of `resolveContextSubLists` that bounds the
recursion: no pending sublist has a rank above `d`, and those of rank `d` have
a key in `keys` (the keys still to be visited, and `prev`). -/
def RankInv (d : Nat) (keys : List String) (reg : Obj (Obj Entry)) : Prop :=
  ∀ p ∈ reg, subRank p.2 ≤ d ∧ (subRank p.2 = d → p.1 ∈ keys)

/-! ## What a built menu should look like -/

instance (cfg : Config) (name : String) (item : Item) : Decidable (buttonFails cfg name item) := by
  unfold buttonFails; infer_instance

instance (name : String) (item : Item) : Decidable (setsPrototype name item) := by
  unfold setsPrototype
  cases item.pendingChildren with
  | none => exact isFalse (fun h => h)
  | some ch => simp only; infer_instance

instance decidableEqNone {α : Type} (o : Option α) : Decidable (o = none) :=
  match o with
  | none => isTrue rfl
  | some _ => isFalse (fun h => Option.noConfusion h)

instance (item : Item) : Decidable (specNull item) := by
  unfold specNull
  cases item.type with
  | none => exact isTrue trivial
  | some ty => simp only; infer_instance

mutual
/-- The category `name` when it registers a submenu (it has children and its
condition is true or absent), followed by the categories below it. -/
def itemCats (name : String) : Item → List (String × Menu)
  | .mk ty _ _ _ cond _ _ (some ch) =>
    if ty = some "category" ∧ cond.getD true = true then (name, ch) :: menuCats ch else []
  | .mk _ _ _ _ _ _ _ none => []
/-- All the categories of a menu tree that register a submenu, each with its
children: those of the first item, then those of the rest. -/
def menuCats : List (String × Item) → List (String × Menu)
  | [] => []
  | (name, item) :: rest => itemCats name item ++ menuCats rest
end

/-- The menu levels of a tree that get built: the root and the children of
every category that registers a submenu. -/
def levels (menu : Menu) : List Menu := menu :: (menuCats menu).map (fun p => p.2)

/-- The categories among the items of a menu level that register a submenu,
each with its children, in the order of the level. -/
def childCats (m : Menu) : List (String × Menu) :=
  m.filterMap (fun p => p.2.pendingChildren.map (fun ch => (p.1, ch)))

/-- One pass of the outer loop of `resolveContextSubLists`, seen on the labels:
the categories `todo` are visited in turn while `reg` lists the categories
whose sublist is pending. The visit of `(name, ch)` registers the categories
of the level `ch`: none of them may have the label of a pending category (that
of `name` included), whose sublist the registration would overwrite. After the
visit the sublist of `name` is deleted. -/
def passClear : List (String × Menu) → List (String × Menu) → Prop
  | [], _ => True
  | (name, ch) :: rest, reg =>
    (∀ x ∈ childCats ch, x.1 ∉ reg.map (fun p => p.1)) ∧
    passClear rest (reg.filter (fun p => p.1 ≠ name) ++ childCats ch)

/-- The categories whose sublist is pending after a pass over the pending
categories `q`: the categories of the levels visited, in the order of the
visits. -/
def passNext (q : List (String × Menu)) : List (String × Menu) :=
  (forInOrder q).flatMap (fun c => childCats c.2)

/-- Starting with the pending categories `q`, no registration ever overwrites a
pending sublist: in each pass (the `k`-th starts with `passNext^[k] q`, which
`for ... in` visits in its own order) every registration is that of a label
which is not pending. -/
def ClearFrom (q : List (String × Menu)) : Prop :=
  ∀ k, passClear (forInOrder (passNext^[k] q)) (passNext^[k] q)

/-- A menu level that is built as the claim says: its labels are pairwise
distinct, `for ... in` visits them in insertion order (the array-index labels
come first, in ascending order), no item makes `makeButton` fail, and no
registration assigns to the key `__proto__`. -/
def LevelOk (cfg : Config) (m : Menu) : Prop :=
  (m.map (fun p => p.1)).Nodup ∧ forInKeys m = m.map (fun p => p.1) ∧
  ∀ p ∈ m, ¬ buttonFails cfg p.1 p.2 ∧ ¬ setsPrototype p.1 p.2

/-- The trees on which building is well behaved: every level that gets built
is `LevelOk`, and no category registers its sublist under a label whose
sublist is pending at that time (`ClearFrom`). The same label may be used at
different places of the tree when the earlier sublist has been visited and
deleted by then. -/
def WellFormed (cfg : Config) (menu : Menu) : Prop :=
  (∀ m ∈ levels menu, LevelOk cfg m) ∧ ClearFrom (childCats menu)

instance (cfg : Config) (m : List (String × Item)) : Decidable (LevelOk cfg m) := by
  unfold LevelOk
  infer_instance

instance passClearDecidable :
    (todo reg : List (String × List (String × Item))) → Decidable (passClear todo reg)
  | [], _ => isTrue trivial
  | (name, ch) :: rest, reg =>
    @instDecidableAnd _ _ inferInstance
      (passClearDecidable rest (reg.filter (fun p => p.1 ≠ name) ++ childCats ch))

/-- The element `e` is what the item `name` is rendered as: a separator `div`
for a separator, else a button built with the label `name` (its text `span`
was given `name` as `innerHTML`). -/
def Renders (e : Element) (name : String) (item : Item) : Prop :=
  if item.type = some "separator" then e.tag = "div" ∧ e.classes = ["separator"]
  else e.tag = "button" ∧ e.label = name

/-- The entries of a menu that are not dropped, in order. -/
def validEntries (m : Menu) : List (String × Item) := m.filter (fun p => ¬ specNull p.2)

/-- The elements `items` are the valid entries of the menu `m`, in order. -/
def Shows (items : List Element) (m : Menu) : Prop :=
  List.Forall₂ (fun e p => Renders e p.1 p.2) items (validEntries m)

/-- The submenu `d` built for the category `name` with children `ch` is wired
to that category's own button: the element that renders the category in the
level holding it. A category with an empty `children` object gets a submenu
wired to no button. -/
def Anchored (lv : List (MenuDiv × Menu)) (d : MenuDiv) (name : String) (ch : Menu) : Prop :=
  (ch = [] → d.anchor = none) ∧
  (ch ≠ [] → ∃ l ∈ lv, ∃ e item, (e, (name, item)) ∈ List.zip l.1.items (validEntries l.2) ∧
    item.pendingChildren = some ch ∧ d.anchor = some e.ref)

/-- The menu levels `main :: subs` realise the tree `menu`: the root level
shows the root's valid items; the submenus are, one for one, the categories
of the tree that register a submenu (`srcs` lists them in the order of
`subs`), each showing the category's valid children and wired to the
category's own button; and the item elements are pairwise distinct objects. -/
def Realises (menu : Menu) (main : MenuDiv) (subs : List MenuDiv) : Prop :=
  main.id = "contextMenuMain" ∧ Shows main.items menu ∧
  (((main :: subs).flatMap (fun d => d.items)).map (fun e => e.ref)).Nodup ∧
  ∃ srcs : List (String × Menu), srcs.Perm (menuCats menu) ∧
    List.Forall₂ (fun d src => Shows d.items src.2 ∧
      Anchored ((main, menu) :: List.zip subs (srcs.map (fun p => p.2))) d src.1 src.2)
      subs srcs

/-- The sublists registered while the elements `items` were built for the
valid entries of `m`: one for each category with pending children, holding
the category's button. -/
def regAdds (items : List Element) (m : Menu) : Obj (Obj Entry) :=
  (List.zip items (validEntries m)).filterMap
    (fun x => x.2.2.pendingChildren.map (fun ch => (x.2.1, makeSublist x.1.ref ch)))

/-- The sublist registered by one call of `makeContextMenuItem` that returned
`r` for the item `name`. -/
def stepAdds (r : Option Element) (name : String) (item : Item) : Obj (Obj Entry) :=
  match r, item.pendingChildren with
  | some el, some ch => [(name, makeSublist el.ref ch)]
  | _, _ => []

/-- The categories a pending sublist stands for: itself and those below. -/
def pendingCats (p : String × Obj Entry) : List (String × Menu) :=
  (p.1, subMenu p.2) :: menuCats (subMenu p.2)

/-- The categories the pending sublists stand for, each with its level. -/
def regCats (reg : Obj (Obj Entry)) : List (String × Menu) :=
  reg.map (fun p => (p.1, subMenu p.2))

/-- The menu levels built so far, each with the menu it was built from: the
root level and the submenus in `built` (a submenu, the label of its category,
the category's children). -/
def levelsOf (menu : Menu) (main : MenuDiv) (built : List (MenuDiv × String × Menu)) :
    List (MenuDiv × Menu) :=
  (main, menu) :: built.map (fun b => (b.1, b.2.2))

/-- `contextSubLists` as the next iteration of the outer loop of
`resolveContextSubLists` will see it: without the entry `prev`, which is
deleted when the iteration starts. -/
def effective (prev : Option String) (reg : Obj (Obj Entry)) : Obj (Obj Entry) :=
  match prev with
  | some p => Obj.delete reg p
  | none => reg

/-- The invariant of `resolveContextSubLists` on a well-formed tree `menu`,
between the levels built so far and the pending sublists `reg`:
every level shows the valid entries of its menu; every submenu is wired to
its category's button; every pending sublist is that of a category rendered
in a built level and holds that category's button; the submenus built and
the categories pending (with those below them) are exactly the categories of
the tree; the elements have pairwise distinct identities below `nextRef`. -/
structure BuildInv (menu : Menu) (main : MenuDiv) (built : List (MenuDiv × String × Menu))
    (reg : Obj (Obj Entry)) (nextRef : Nat) : Prop where
  shows : ∀ l ∈ levelsOf menu main built, Shows l.1.items l.2
  anchored : ∀ b ∈ built, Anchored (levelsOf menu main built) b.1 b.2.1 b.2.2
  pending : ∀ p ∈ reg, ∃ l ∈ levelsOf menu main built, ∃ e item,
    (e, (p.1, item)) ∈ List.zip l.1.items (validEntries l.2) ∧
    item.pendingChildren = some (subMenu p.2) ∧ ∀ q ∈ p.2, q.2._parent = e.ref
  account : (built.map (fun b => b.2) ++ reg.flatMap pendingCats).Perm (menuCats menu)
  refs : ∀ l ∈ levelsOf menu main built, ∀ e ∈ l.1.items, e.ref < nextRef
  nodup : (((levelsOf menu main built).flatMap (fun l => l.1.items)).map
    (fun e => e.ref)).Nodup

/-! ## Relations between states -/

/-- A callback other than the deferred body of `makeContextMenu`. -/
def Benign (cb : Option Callback) : Prop := ∀ a m, cb ≠ some (Callback.openMenu a m)

/-- Every pending timeout with a handle of at least `h` is benign. -/
def BenignSince (h : Nat) (w : World) : Prop :=
  ∀ p ∈ w.timers.pending, h ≤ p.1 → Benign p.2.1

/-- A container that kept its identity, id and classes and only got menu
levels appended. -/
def ContainerGrows (c c1 : Container) : Prop :=
  c1.ref = c.ref ∧ c1.id = c.id ∧ c1.classes = c.classes ∧ ∃ l, c1.children = c.children ++ l

/-- What building menu items and resolving sublists can change: the pending
sublists, the counters, placement callbacks added to the timer queue, and menu
levels appended to the containers. -/
def Builds (w w1 : World) : Prop :=
  w1.contextMenuParent = w.contextMenuParent ∧ w1.windowListeners = w.windowListeners ∧
  w1.contextOpen = w.contextOpen ∧ w1.tooltipTimer = w.tooltipTimer ∧ w1.tooltip = w.tooltip ∧
  List.Forall₂ ContainerGrows w.document w1.document ∧
  ∃ l, w1.timers.pending = w.timers.pending ++ l ∧
    ∀ p ∈ l, ∃ b d, p.2.1 = some (Callback.place b d)

/-- No menu is open: no container in the document, none of the three
dismissal listeners on `window`, and no anchor recorded. -/
def Clean (w : World) : Prop :=
  w.document = [] ∧
  ("click", WinListener.leftClickCancelContextMenu) ∉ w.windowListeners ∧
  ("contextmenu", WinListener.cancelContextMenu) ∉ w.windowListeners ∧
  ("keydown", WinListener.escKeyCancelContextMenu) ∉ w.windowListeners ∧
  w.contextMenuParent = none

/-- A layout used in examples: a 1000 by 800 viewport with the pointer at
(100, 100), every element 50 by 50 at the origin. -/
def Env.sample : Env :=
  { viewport := ⟨1000, 800, 100, 100⟩, rectOf := fun _ => ⟨0, 0, 50, 50, 50, 50⟩,
    tooltipRect := ⟨0, 0, 10, 10, 10, 10⟩ }

/-- The menu of the specification's end-to-end example:
`{"Copy": function, "More": category{children: {"Delete": function}}}`. -/
def Menu.example : Menu :=
  [("Copy", Item.function 1), ("More", Item.category [("Delete", Item.function 2)])]

/-- The state reached from the initial one when `makeContextMenu(7, example)`
has been called and its deferred body has run: the example menu is open on
the anchor 7. -/
def World.opened : World :=
  ((fireHandle Config.default Env.sample 5 1
    (makeContextMenu 7 Menu.example World.init)).map Res.world).getD World.init

/-! ## Sample trees for the build -/

/-- Two categories "More" at the same depth under different parents:
`{"Edit": category{"More": category{"X"}}, "View": category{"More": category{"Y"}}}`. -/
def Menu.sharedLabel : Menu :=
  [("Edit", Item.category [("More", Item.category [("X", Item.function 1)])]),
   ("View", Item.category [("More", Item.category [("Y", Item.function 2)])])]

/-- A category whose first child is a category with the same label:
`{"A": category{"A": category{"X"}}}`. -/
def Menu.nestedSameLabel : Menu :=
  [("A", Item.category [("A", Item.category [("X", Item.function 1)])])]

/-- A level with an array-index label inserted last: `{"b": function, "1": function}`. -/
def Menu.indexLabel : Menu := [("b", Item.function 1), ("1", Item.function 2)]

/-- The same label for a root category and, further down, for a category of a
later root category: `{"A": category{"X"}, "B": category{"A": category{"Y"}}}`.
The sublist of the first "A" has been visited and deleted when the second is
registered. -/
def Menu.reusedLabel : Menu :=
  [("A", Item.category [("X", Item.function 1)]),
   ("B", Item.category [("A", Item.category [("Y", Item.function 2)])])]

/-- A category under the label `__proto__`: registering its sublist is the
assignment `contextSubLists['__proto__'] = sublist`. -/
def Menu.protoLabel : Menu := [("__proto__", Item.category [("X", Item.function 1)])]

/-- The state in which `resolveContextSubLists` is called when
`Menu.nestedSameLabel` is built from the initial state. -/
def World.nestedRoot : World :=
  (beforeResolve Config.default Env.sample 7 Menu.nestedSameLabel World.init).getD World.init

/-- The levels of the only container of a build's outcome: for each level its
anchor and the identity and label of each of its items. -/
def builtLevels (r : Option (Res Unit)) : List (Option Nat × List (Nat × String)) :=
  match r with
  | some (.ok _ w) =>
    w.document.flatMap (fun c => c.children.map (fun d =>
      (d.anchor, d.items.map (fun e => (e.ref, e.label)))))
  | _ => []

/-- The state in which `resolveContextSubLists` is called when the example
menu is built from the initial state: the root loop has run and the container
holding the root level is in the document. -/
def World.rootBuilt : World :=
  match rootLoop Config.default (forInOrder Menu.example) [] 1
      { World.init with contextMenuParent := some 7, nextRef := World.init.nextRef + 2 } with
  | .ok items w2 =>
    { w2 with document :=
        [newContainer World.init.nextRef (mainDiv Env.sample (World.init.nextRef + 1) items)] }
  | .throw _ w2 => w2

/-! ## The close cascade (`contextMenuAlertParent`) -/

/-- The part of a `MouseEvent` the module reads. -/
structure MouseEvent where
  clientX : ℚ
  clientY : ℚ

/-- `mouseInside(event, obj)`, given `obj.getBoundingClientRect()`. -/
def mouseInside (event : MouseEvent) (rect : Rect) : Bool :=
  decide (event.clientX ≥ rect.left ∧ event.clientX ≤ rect.right ∧
    event.clientY ≥ rect.top ∧ event.clientY ≤ rect.bottom)

/-- The index of the first occurrence of `pat` in the characters `s`, counted
from `i`. -/
def searchFrom (pat : List Char) : List Char → Nat → Option Nat
  | [], i => if pat = [] then some i else none
  | c :: cs, i => if pat.isPrefixOf (c :: cs) then some i else searchFrom pat cs (i + 1)

/-- `s.search(pat)` for a pattern that holds no metacharacter of regular
expressions, such as the three the module uses: the index of the first
occurrence of `pat` in `s`; `none` stands for `-1`. -/
def search (s pat : String) : Option Nat := searchFrom pat.data s.data 0

/-- `s.substring(a, b)`: the characters from the smaller index up to the larger
one, both capped by the length. -/
def substring (s : String) (a b : Nat) : String :=
  ⟨(s.data.take (Max.max a b)).drop (Min.min a b)⟩

/-- `el.className` for the class list of `el`: the classes, a blank between
them. -/
def className (classes : List String) : String := " ".intercalate classes

/-- The class names in a `class` attribute: its pieces between white space. -/
def classTokens : List Char → List Char → List String
  | [], cur => if cur = [] then [] else [String.mk cur.reverse]
  | c :: cs, cur =>
    if c.toNat = 32 ∨ c.toNat = 9 ∨ c.toNat = 10 ∨ c.toNat = 12 ∨ c.toNat = 13 then
      (if cur = [] then [] else [String.mk cur.reverse]) ++ classTokens cs []
    else classTokens cs (c :: cur)

/-- A node of the menu part of the document: the container, a menu level, or
an item of a level. -/
inductive DomNode where
  | container (c : Container)
  | level (d : MenuDiv)
  | item (e : Element)

/-- The identity of the DOM object. -/
def DomNode.ref : DomNode → Nat
  | .container c => c.ref
  | .level d => d.ref
  | .item e => e.ref

/-- The node's `id`. -/
def DomNode.id : DomNode → String
  | .container c => c.id
  | .level d => d.id
  | .item e => e.id

/-- The node's class list. -/
def DomNode.classes : DomNode → List String
  | .container c => c.classes
  | .level d => d.classes
  | .item e => e.classes

/-- Whether the selector `.selected` matches inside a child of an item: the
`i` of an icon has the icon library as its `class` attribute; the `div`s have
the classes `icon`, `withText` and `text`. Labels and icon names are taken to
hold no markup. -/
def Node.selected : Node → Bool
  | .icon library _ _ => decide ("selected" ∈ classTokens library.data [])
  | _ => false

/-- Whether the selector `.selected` matches an item or inside it. -/
def Element.selected (e : Element) : Bool :=
  decide ("selected" ∈ e.classes) || e.children.any Node.selected

/-- `_qsa(".selected", div).length > 0`: some descendant of the node has the
class `selected`. -/
def DomNode.hasSelected : DomNode → Bool
  | .container c =>
    c.children.any (fun d => decide ("selected" ∈ d.classes) || d.items.any Element.selected)
  | .level d => d.items.any Element.selected
  | .item e => e.children.any Node.selected

/-- The nodes of a container in document order. -/
def Container.nodes (c : Container) : List DomNode :=
  .container c :: c.children.flatMap (fun d => .level d :: d.items.map DomNode.item)

/-- The nodes of the menu part of the document, in document order. -/
def World.nodes (w : World) : List DomNode := w.document.flatMap Container.nodes

/-- The node of the menu part of the document that is the DOM object `ref`. -/
def World.find (w : World) (ref : Nat) : Option DomNode :=
  w.nodes.find? (fun m => m.ref = ref)

/-- The node as it is in the state `w`: DOM objects are mutable, and the code
holds references to them. -/
def World.current (w : World) (n : DomNode) : DomNode := (w.find n.ref).getD n

/-- Whether `#` followed by `s` is modelled as a selector: `s` is a plain
identifier (a letter or `_`, then letters, digits, `_` and `-`), as every id
the module gives to a menu element is. -/
def cssIdent (s : String) : Bool :=
  match s.data with
  | [] => false
  | c :: cs => (c.isAlpha || c = '_') && cs.all (fun x => x.isAlphanum || x = '_' || x = '-')

/-- `_qs(query)` for the id selectors the module builds: the first node with
that id in document order, or `null`. Only the menu part of the document is
searched: the rest of the page is taken to hold no element with an id of a
menu element. A query that is not `#` followed by a plain identifier is
rejected with the `SyntaxError` the browser has for a string that is no
selector; other selectors are not modelled, and no class string written by the
module leads to one. -/
def _qs (w : World) (query : String) : Except JSError (Option DomNode) :=
  match query.data with
  | '#' :: rest =>
    if cssIdent (String.mk rest) then .ok (w.nodes.find? (fun n => n.id = String.mk rest))
    else .error (.syntaxError "not a valid selector")
  | _ => .error (.syntaxError "not a valid selector")

/-- Applying `f` to the class list of the item when it is the DOM object
`ref`. -/
def Element.mapClasses (ref : Nat) (f : List String → List String) (e : Element) : Element :=
  if e.ref = ref then { e with classes := f e.classes } else e

/-- Applying `f` to the class list of the DOM object `ref` in a menu level. -/
def MenuDiv.mapClasses (ref : Nat) (f : List String → List String) (d : MenuDiv) : MenuDiv :=
  { d with
    classes := if d.ref = ref then f d.classes else d.classes,
    items := d.items.map (Element.mapClasses ref f) }

/-- Applying `f` to the class list of the DOM object `ref` in a container. -/
def Container.mapClasses (ref : Nat) (f : List String → List String) (c : Container) :
    Container :=
  { c with
    classes := if c.ref = ref then f c.classes else c.classes,
    children := c.children.map (MenuDiv.mapClasses ref f) }

/-- Applying `f` to the class list of the DOM object `ref`. -/
def World.mapClasses (ref : Nat) (f : List String → List String) (w : World) : World :=
  { w with document := w.document.map (Container.mapClasses ref f) }

/-- `show(obj)` for a node of the menu. -/
def showNode (ref : Nat) (w : World) : World := w.mapClasses ref showClasses

/-- `hide(obj)` for a node of the menu. -/
def hideNode (ref : Nat) (w : World) : World := w.mapClasses ref hideClasses

/-- `selectMenuItem(button)`. -/
def selectMenuItem (button : Nat) (w : World) : World :=
  w.mapClasses button (fun cs => classAdd cs "selected")

/-- `deselectMenuItem(button)`. -/
def deselectMenuItem (button : Nat) (w : World) : World :=
  w.mapClasses button (fun cs => classRemove cs "selected")

/-- The `mouseover` listener `resolveContextSubLists` puts on an anchor button
(source lines 489-493): `show(div); selectMenuItem(button); delay.cancel()`.
The submenu's own delay timer has nothing pending unless a `mouseleave`
listener has set it, and is not part of the state. -/
def anchorMouseover (button div : Nat) (w : World) : World :=
  selectMenuItem button (showNode div w)

/-- The id `contextMenuAlertParent` reads in the class string of `div` (source
lines 401-405): what stands between the first `parent-` and the first
`-endparent`; `none` when either is missing. -/
def parentSelector (classes : List String) : Option String :=
  match search (className classes) "parent-", search (className classes) "-endparent" with
  | some pos1, some pos2 => some (substring (className classes) (pos1 + 7) pos2)
  | _, _ => none

/-- The id of the level of the anchor (source lines 412-416): `str` up to the
place of `-itemAtPos` in the id of the anchor; `none` when the id of the
anchor does not hold `-itemAtPos`. -/
def levelSelector (str parentId : String) : Option String :=
  match search parentId "-itemAtPos" with
  | some pos => some (substring str 0 pos)
  | none => none

/-- `hide(div); deselectMenuItem(parent)` (source lines 417-418). -/
def closeLevel (div parent : Nat) (w : World) : World :=
  deselectMenuItem parent (hideNode div w)

/-- `contextMenuAlertParent(div, event)` (source lines 397-420); `event` is
`none` when the argument is left out, as in the recursive call. The first
argument is the number of calls the call stack still has room for: the engine
throws a `RangeError` when it is exhausted. `div` is the node as it is when
the call is made. -/
def contextMenuAlertParent (env : Env) :
    Nat → DomNode → Option MouseEvent → World → Res Unit
  | 0, _, _, w => .throw (.rangeError "Maximum call stack size exceeded") w
  | depth + 1, div, event, w =>
    if div.hasSelected then .ok () w
    else
      match parentSelector div.classes with
      | none => .ok () w
      | some str =>
        match _qs w ("#" ++ str) with
        | .error e => .throw e w
        | .ok none => .throw (.typeError "parent is null") w
        | .ok (some parent) =>
          if event.any (fun ev => mouseInside ev (env.rectOf parent.ref)) then .ok () w
          else
            match levelSelector str parent.id with
            | none => .ok () w
            | some sel =>
              match _qs w ("#" ++ sel) with
              | .error e => .throw e w
              | .ok buttonParent =>
                let w1 := closeLevel div.ref parent.ref w
                match buttonParent with
                | none => .throw (.typeError "ancestor is null") w1
                | some bp => contextMenuAlertParent env depth (w1.current bp) none w1

/-- The anchor button of `div` as `contextMenuAlertParent` finds it: the node
whose id the class string of `div` names; `none` when there is none. -/
def anchorOf (w : World) (div : DomNode) : Option DomNode :=
  match parentSelector div.classes with
  | none => none
  | some str =>
    match _qs w ("#" ++ str) with
    | .ok r => r
    | .error _ => none

/-- The level that holds the anchor of `div` as `contextMenuAlertParent` finds
it (`buttonParent`); `none` when there is none. -/
def levelOf (w : World) (div : DomNode) : Option DomNode :=
  match parentSelector div.classes with
  | none => none
  | some str =>
    match _qs w ("#" ++ str) with
    | .ok (some parent) =>
      match levelSelector str parent.id with
      | none => none
      | some sel =>
        match _qs w ("#" ++ sel) with
        | .ok r => r
        | .error _ => none
    | _ => none

/-- The class list of the DOM object `ref`; `none` when it is not in the menu
part of the document. -/
def World.classesOf (w : World) (ref : Nat) : Option (List String) :=
  (w.find ref).map DomNode.classes

/-- The node `ref` is in the document and hidden: it has the class `hidden`
and not the class `shown`. -/
def Hidden (w : World) (ref : Nat) : Prop :=
  ∃ cs, w.classesOf ref = some cs ∧ "hidden" ∈ cs ∧ "shown" ∉ cs

/-- The node `ref` is in the document and shown: it has the class `shown` and
not the class `hidden`. -/
def Shown (w : World) (ref : Nat) : Prop :=
  ∃ cs, w.classesOf ref = some cs ∧ "shown" ∈ cs ∧ "hidden" ∉ cs

/-- The node `ref` is in the document and has the class `selected`. -/
def Selected (w : World) (ref : Nat) : Prop :=
  ∃ cs, w.classesOf ref = some cs ∧ "selected" ∈ cs

/-- The node `ref` is in the document and does not have the class `selected`. -/
def Deselected (w : World) (ref : Nat) : Prop :=
  ∃ cs, w.classesOf ref = some cs ∧ "selected" ∉ cs

/-- Applying `f` to the class list of the DOM object `ref` in a node. -/
def DomNode.mapClasses (ref : Nat) (f : List String → List String) : DomNode → DomNode
  | .container c => .container (c.mapClasses ref f)
  | .level d => .level (d.mapClasses ref f)
  | .item e => .item (e.mapClasses ref f)

/-- What a step of the cascade may do to a class list: `hidden` stays, and
neither `shown` nor `selected` comes. -/
def Calmer (cs cs1 : List String) : Prop :=
  ("hidden" ∈ cs → "hidden" ∈ cs1) ∧ ("shown" ∉ cs → "shown" ∉ cs1) ∧
  ("selected" ∉ cs → "selected" ∉ cs1)

/-- Every node of `w` is still in the document in `w1`, with a calmer class
list. -/
def Settles (w w1 : World) : Prop :=
  ∀ r cs, w.classesOf r = some cs → ∃ cs1, w1.classesOf r = some cs1 ∧ Calmer cs cs1

/-- Three levels: `{"File": category{"Recent": category{"Doc": function}}}`. -/
def Menu.nested : Menu :=
  [("File", Item.category [("Recent", Item.category [("Doc", Item.function 1)])])]

/-- A layout for `Menu.nested` in a viewport 400 wide: the button "File"
(identity 3) at [100,200]x[100,120], its submenu (4) to its right with the
button "Recent" (5) at [200,300]x[100,120], and the submenu of "Recent" (6),
120 wide and 15 high, which does not fit to the right. -/
def Env.nested : Env :=
  { viewport := ⟨400, 800, 100, 100⟩,
    rectOf := fun r =>
      if r = 3 then ⟨100, 100, 200, 120, 100, 20⟩
      else if r = 5 then ⟨200, 100, 300, 120, 100, 20⟩
      else if r = 4 then ⟨200, 100, 300, 120, 100, 20⟩
      else if r = 6 then ⟨80, 100, 200, 115, 120, 15⟩
      else ⟨100, 100, 200, 120, 100, 20⟩,
    tooltipRect := ⟨0, 0, 10, 10, 10, 10⟩ }

/-- The state in which `Menu.nested` is open on the anchor 7, the placement
callbacks have run, and the pointer has gone over "File" and then over
"Recent": both submenus are shown and both anchors selected. -/
def World.hovered : World :=
  match (fireHandle Config.default Env.nested 5 1
      (makeContextMenu 7 Menu.nested World.init)).bind
      (fun r => drain Config.default Env.nested 5 0 3 r.world) with
  | some w => anchorMouseover 5 6 (anchorMouseover 3 4 w)
  | none => World.init

/-- The node of `w` that is the DOM object `ref`; an empty container when
there is none. -/
def World.node (w : World) (ref : Nat) : DomNode :=
  (w.find ref).getD (.container { ref := 0, id := "", classes := [], children := [] })

/-- The pointer event of the example: the pointer at (150, 116), inside the
button "File" and outside the button "Recent". -/
def MouseEvent.overFile : MouseEvent := ⟨150, 116⟩

end BreveMenus

/-! # Theorems -/

namespace BreveMenus

/-! ## Geometry -/

theorem clamp_none (x : ℚ) : clamp x 0 none = Max.max 0 x := rfl

/-- C6: horizontal submenu placement follows the three-way rule (anchor's right
edge if the submenu fits to its right, else right edge flush with the anchor's
left edge if it fits to its left, else the viewport's left edge) and keeps the
submenu's horizontal extent inside `[0, innerWidth]`. -/
theorem placeHorizontal_within (v : Viewport) (rect subrect : Rect) (s : Style)
    (hl : 0 ≤ rect.left) (hlr : rect.left ≤ rect.right) (hr : rect.right ≤ v.innerWidth)
    (hw : subrect.width ≤ v.innerWidth) :
    (placeHorizontal v rect subrect Style.unset =
        if subrect.width ≤ v.innerWidth - rect.right then
          { Style.unset with left := some rect.right }
        else if subrect.width ≤ rect.left then
          { Style.unset with right := some (v.innerWidth - rect.left) }
        else { Style.unset with left := some 0 }) ∧
    (placeHorizontal v rect subrect s).top = s.top ∧
    (placeHorizontal v rect subrect s).bottom = s.bottom ∧
    ∃ lo hi, horizontalExtent v.innerWidth subrect.width
        (placeHorizontal v rect subrect Style.unset) = some (lo, hi) ∧
      0 ≤ lo ∧ hi ≤ v.innerWidth ∧ hi - lo = subrect.width := by
  refine ⟨rfl, ?_, ?_, ?_⟩
  · unfold placeHorizontal; split_ifs <;> rfl
  · unfold placeHorizontal; split_ifs <;> rfl
  · unfold placeHorizontal
    split_ifs with h1 h2
    · exact ⟨rect.right, rect.right + subrect.width, rfl, by linarith, by linarith, by ring⟩
    · exact ⟨v.innerWidth - (v.innerWidth - rect.left) - subrect.width,
        v.innerWidth - (v.innerWidth - rect.left), rfl, by linarith, by linarith, by ring⟩
    · exact ⟨0, 0 + subrect.width, rfl, le_refl _, by linarith, by ring⟩

/-- Witness for C6: a 30-wide submenu next to an anchor at `[80, 95]` in a
100-wide viewport goes to the anchor's left. -/
theorem placeHorizontal_within_witness :
    ∃ lo hi, horizontalExtent 100 30
        (placeHorizontal ⟨100, 100, 0, 0⟩ ⟨80, 10, 95, 20, 15, 10⟩ ⟨0, 0, 0, 0, 30, 40⟩
          Style.unset) = some (lo, hi) ∧
      0 ≤ lo ∧ hi ≤ 100 ∧ hi - lo = 30 :=
  (placeHorizontal_within ⟨100, 100, 0, 0⟩ ⟨80, 10, 95, 20, 15, 10⟩ ⟨0, 0, 0, 0, 30, 40⟩
    Style.unset (by norm_num) (by norm_num) (by norm_num) (by norm_num)).2.2.2

/-- C7: vertical submenu placement leaves the viewport. With a 100-high
viewport, an anchor at `[60, 80]` and a 50-high submenu the code sets
`bottom: 80px`, which puts the submenu at `[-30, 20]`; with an anchor at
`[10, 20]` and a 95-high submenu it sets `bottom: 100px`, which puts the
submenu at `[-95, 0]`, wholly above the viewport. -/
theorem placeVertical_leaves_viewport :
    placeVertical ⟨100, 100, 0, 0⟩ ⟨0, 60, 10, 80, 10, 20⟩ ⟨0, 0, 0, 0, 10, 50⟩ Style.unset
      = { Style.unset with bottom := some 80 } ∧
    verticalExtent 100 50
      (placeVertical ⟨100, 100, 0, 0⟩ ⟨0, 60, 10, 80, 10, 20⟩ ⟨0, 0, 0, 0, 10, 50⟩ Style.unset)
      = some (-30, 20) ∧
    placeVertical ⟨100, 100, 0, 0⟩ ⟨0, 10, 10, 20, 10, 10⟩ ⟨0, 0, 0, 0, 10, 95⟩ Style.unset
      = { Style.unset with bottom := some 100 } ∧
    verticalExtent 100 95
      (placeVertical ⟨100, 100, 0, 0⟩ ⟨0, 10, 10, 20, 10, 10⟩ ⟨0, 0, 0, 0, 10, 95⟩ Style.unset)
      = some (-95, 0) := by
  refine ⟨?_, ?_, ?_, ?_⟩ <;>
    norm_num [placeVertical, verticalExtent, Style.unset]

/-- Whenever the submenu does not fit below the anchor's top edge, the vertical
placement puts its top edge above the viewport. -/
theorem placeVertical_above_viewport (v : Viewport) (rect subrect : Rect)
    (htb : rect.top ≤ rect.bottom) (hb : rect.bottom ≤ v.innerHeight)
    (hfit : ¬ subrect.height ≤ v.innerHeight - rect.top) :
    ∃ lo hi, verticalExtent v.innerHeight subrect.height
        (placeVertical v rect subrect Style.unset) = some (lo, hi) ∧ lo < 0 := by
  unfold placeVertical
  rw [if_neg hfit]
  push_neg at hfit
  split_ifs with h2
  · exact ⟨v.innerHeight - rect.bottom - subrect.height, v.innerHeight - rect.bottom, rfl,
      by linarith⟩
  · push_neg at h2
    exact ⟨v.innerHeight - v.innerHeight - subrect.height, v.innerHeight - v.innerHeight, rfl,
      by linarith⟩

/-- C8 as stated fails: with the pointer at x = 50 in a 100-wide viewport, a
50-wide element and `offsetX = 5`, the element is not flipped and is placed at
`left = 55`, so its right edge is at 105. -/
theorem mouseRelativePosition_offset_overflow :
    (mouseRelativePosition ⟨100, 100, 50, 50⟩ ⟨0, 0, 0, 0, 50, 50⟩ 5 5).left = 55 ∧
    ¬ ((mouseRelativePosition ⟨100, 100, 50, 50⟩ ⟨0, 0, 0, 0, 50, 50⟩ 5 5).left + 50 ≤ 100) ∧
    (mouseRelativePosition ⟨100, 100, 50, 50⟩ ⟨0, 0, 0, 0, 50, 50⟩ 5 5).top = 55 ∧
    ¬ ((mouseRelativePosition ⟨100, 100, 50, 50⟩ ⟨0, 0, 0, 0, 50, 50⟩ 5 5).top + 50 ≤ 100) := by
  norm_num [mouseRelativePosition]

/-- C8, amended: for a pointer inside the viewport, an element no larger than
the viewport and non-negative offsets, the position is never left of or above
the viewport and the element overhangs the right and bottom edges by at most
the offset; with offsets 0 it lies wholly inside the viewport. -/
theorem mouseRelativePosition_bounds (v : Viewport) (r : Rect) (offsetX offsetY : ℚ)
    (hx0 : 0 ≤ v.mouseX) (hx1 : v.mouseX ≤ v.innerWidth)
    (hy0 : 0 ≤ v.mouseY) (hy1 : v.mouseY ≤ v.innerHeight)
    (hw : r.width ≤ v.innerWidth) (hh : r.height ≤ v.innerHeight)
    (hox : 0 ≤ offsetX) (hoy : 0 ≤ offsetY) :
    0 ≤ (mouseRelativePosition v r offsetX offsetY).left ∧
    (mouseRelativePosition v r offsetX offsetY).left + r.width ≤ v.innerWidth + offsetX ∧
    0 ≤ (mouseRelativePosition v r offsetX offsetY).top ∧
    (mouseRelativePosition v r offsetX offsetY).top + r.height ≤ v.innerHeight + offsetY ∧
    ((mouseRelativePosition v r 0 0).left + r.width ≤ v.innerWidth ∧
     (mouseRelativePosition v r 0 0).top + r.height ≤ v.innerHeight) := by
  have key : ∀ (m w W o : ℚ), 0 ≤ m → m ≤ W → w ≤ W → 0 ≤ o →
      0 ≤ (if w > W - m then clamp (m - w - 2 * o) 0 none else m + o) ∧
      (if w > W - m then clamp (m - w - 2 * o) 0 none else m + o) + w ≤ W + o := by
    intro m w W o hm hmW hwW ho
    split_ifs with h
    · rw [clamp_none]
      refine ⟨le_max_left _ _, ?_⟩
      rcases max_cases (0 : ℚ) (m - w - 2 * o) with ⟨e, _⟩ | ⟨e, _⟩ <;> rw [e] <;> linarith
    · push_neg at h
      exact ⟨by linarith, by linarith⟩
  have hX := key v.mouseX r.width v.innerWidth offsetX hx0 hx1 hw hox
  have hY := key v.mouseY r.height v.innerHeight offsetY hy0 hy1 hh hoy
  have hX0 := key v.mouseX r.width v.innerWidth 0 hx0 hx1 hw (le_refl _)
  have hY0 := key v.mouseY r.height v.innerHeight 0 hy0 hy1 hh (le_refl _)
  refine ⟨hX.1, hX.2, hY.1, hY.2, ?_, ?_⟩
  · simpa [mouseRelativePosition] using hX0.2
  · simpa [mouseRelativePosition] using hY0.2

/-- Witness for the amended C8: a 60-by-40 element, pointer at (70, 10) in a
100-by-100 viewport, offsets 0. -/
theorem mouseRelativePosition_bounds_witness :
    (mouseRelativePosition ⟨100, 100, 70, 10⟩ ⟨0, 0, 0, 0, 60, 40⟩ 0 0).left + 60 ≤ 100 ∧
    (mouseRelativePosition ⟨100, 100, 70, 10⟩ ⟨0, 0, 0, 0, 60, 40⟩ 0 0).top + 40 ≤ 100 :=
  (mouseRelativePosition_bounds ⟨100, 100, 70, 10⟩ ⟨0, 0, 0, 0, 60, 40⟩ 0 0
    (by norm_num) (by norm_num) (by norm_num) (by norm_num) (by norm_num) (by norm_num)
    (by norm_num) (by norm_num)).2.2.2.2

/-! ## BreveTimer -/

theorem clearTimeout_nil {α : Type} (h : Nat) (q : Timers α) (hq : q.pending = []) :
    (clearTimeout h q).pending = [] := by
  simp [clearTimeout, hq]

theorem clearTimeout_single {α : Type} (h : Nat) (cb : Option α) (d : Nat) (q : Timers α)
    (hq : q.pending = [(h, cb, d)]) : (clearTimeout h q).pending = [] := by
  simp [clearTimeout, hq]

theorem clearTimeout_cases {α : Type} (h h' : Nat) (cb : Option α) (d : Nat) (q : Timers α)
    (hq : q.pending = [(h, cb, d)]) :
    (clearTimeout h' q).pending = [] ∨ (clearTimeout h' q).pending = [(h, cb, d)] := by
  by_cases e : h = h'
  · left; subst e; exact clearTimeout_single h cb d q hq
  · right; simp [clearTimeout, hq, e]

theorem TimerInv_new {α : Type} (b : Bool) : TimerInv (BreveTimer.new α b, Timers.empty α) :=
  Or.inl rfl

theorem TimerInv_set {α : Type} (a : α) (d : Option Nat) (w : Option α) (s : TimerState α)
    (hs : TimerInv s) : TimerInv (BreveTimer.set id a d w s.1 s.2) := by
  obtain ⟨tm, q⟩ := s
  have hclear : (match tm.t with | some h => clearTimeout h q | none => q).pending = [] ∨
      tm.waiting = false := by
    rcases hs with h0 | ⟨h, cb, dl, hp, ht, hw⟩
    · left
      cases tm.t with
      | none => exact h0
      | some h => exact clearTimeout_nil h q h0
    · right; exact hw
  have hclear2 : tm.waiting = false →
      (match tm.t with | some h => clearTimeout h q | none => q).pending = [] := by
    intro hw
    rcases hs with h0 | ⟨h, cb, dl, hp, ht, _⟩
    · cases tm.t with
      | none => exact h0
      | some h => exact clearTimeout_nil h q h0
    · simp only at ht hp
      rw [ht]
      exact clearTimeout_single h cb dl q hp
  unfold BreveTimer.set
  by_cases hw : tm.waiting = true
  · simp only [hw, if_true]
    left
    rcases hclear with h | h
    · exact h
    · rw [hw] at h; cases h
  · have hw' : tm.waiting = false := by simpa using hw
    simp only [hw', Bool.false_eq_true, if_false]
    right
    refine ⟨(match tm.t with | some h => clearTimeout h q | none => q).nextHandle,
      (some a).map id, d.getD tm.waitingDelay, ?_, rfl, rfl⟩
    simp only [setTimeout]
    rw [hclear2 hw']
    rfl

theorem TimerInv_wait {α : Type} (s : TimerState α) (hs : TimerInv s) :
    (BreveTimer.wait s.1 s.2).2.1.pending = [] ∧ (BreveTimer.wait s.1 s.2).1.waiting = true ∧
    (BreveTimer.wait s.1 s.2).1.t = none ∧
    (BreveTimer.wait s.1 s.2).1.continueWaiting = s.1.continueWaiting := by
  obtain ⟨tm, q⟩ := s
  unfold BreveTimer.wait
  rcases hs with h0 | ⟨h, cb, dl, hp, ht, _⟩
  · cases e : tm.t with
    | none => simpa [e] using h0
    | some h => simpa [e] using clearTimeout_nil h q h0
  · simp only at ht hp
    simpa [ht] using clearTimeout_single h cb dl q hp

theorem TimerInv_start {α : Type} (s : TimerState α) (hs : TimerInv s) :
    TimerInv (BreveTimer.start id s.1 s.2) := by
  obtain ⟨tm, q⟩ := s
  unfold BreveTimer.start
  by_cases hw : tm.waiting = true
  · simp only [hw, if_true]
    right
    rcases hs with h0 | ⟨h, cb, dl, _, _, hw'⟩
    · refine ⟨q.nextHandle, tm.waitingToRun.map id, tm.waitingDelay, ?_, rfl, rfl⟩
      simp only [setTimeout]
      simp only at h0
      rw [h0]; rfl
    · simp only at hw'; rw [hw] at hw'; cases hw'
  · have hw' : tm.waiting = false := by simpa using hw
    simp only [hw', Bool.false_eq_true, if_false]
    rcases hs with h0 | ⟨h, cb, dl, hp, ht, _⟩
    · exact Or.inl h0
    · exact Or.inr ⟨h, cb, dl, hp, ht, rfl⟩

theorem cancel_pending {α : Type} (s : TimerState α) (hs : TimerInv s) :
    (BreveTimer.cancel s.1 s.2).2.pending = [] := by
  obtain ⟨tm, q⟩ := s
  unfold BreveTimer.cancel
  rcases hs with h0 | ⟨h, cb, dl, hp, ht, _⟩
  · cases e : tm.t with
    | none => simpa [e] using h0
    | some h => simpa [e] using clearTimeout_nil h q h0
  · simp only at ht hp
    simpa [ht] using clearTimeout_single h cb dl q hp

theorem TimerInv_cancel {α : Type} (s : TimerState α) (hs : TimerInv s) :
    TimerInv (BreveTimer.cancel s.1 s.2) :=
  Or.inl (cancel_pending s hs)

theorem TimerInv_fire {α : Type} (h : Nat) (s : TimerState α) (hs : TimerInv s) :
    TimerInv (fireTimeout h s) := by
  obtain ⟨tm, q⟩ := s
  rcases hs with h0 | ⟨h1, cb, dl, hp, ht, hw⟩
  · exact Or.inl (clearTimeout_nil h q h0)
  · rcases clearTimeout_cases h1 h cb dl q hp with e | e
    · exact Or.inl e
    · exact Or.inr ⟨h1, cb, dl, e, ht, hw⟩

theorem TimerInv_op {α : Type} (op : TimerOp α) (s : TimerState α) (hs : TimerInv s) :
    TimerInv (op.run s) := by
  cases op with
  | set a d w => exact TimerInv_set a d w s hs
  | wait => exact Or.inl (TimerInv_wait s hs).1
  | start => exact TimerInv_start s hs
  | cancel => exact TimerInv_cancel s hs
  | fire h => exact TimerInv_fire h s hs

theorem TimerInv_runOps {α : Type} (ops : List (TimerOp α)) (s : TimerState α)
    (hs : TimerInv s) : TimerInv (runOps ops s) := by
  induction ops generalizing s with
  | nil => exact hs
  | cons op ops ih => exact ih (op.run s) (TimerInv_op op s hs)

theorem continueWaiting_op {α : Type} (op : TimerOp α) (s : TimerState α) :
    (op.run s).1.continueWaiting = s.1.continueWaiting := by
  obtain ⟨tm, q⟩ := s
  cases op with
  | set a d w => simp only [TimerOp.run, BreveTimer.set]; split_ifs <;> rfl
  | wait => simp only [TimerOp.run, BreveTimer.wait]; split <;> rfl
  | start => simp only [TimerOp.run, BreveTimer.start]; split_ifs <;> rfl
  | cancel =>
    simp only [TimerOp.run, BreveTimer.cancel]
    cases tm.t <;> simp only <;> split_ifs <;> rfl
  | fire h => rfl

theorem continueWaiting_runOps {α : Type} (ops : List (TimerOp α)) (s : TimerState α) :
    (runOps ops s).1.continueWaiting = s.1.continueWaiting := by
  induction ops generalizing s with
  | nil => rfl
  | cons op ops ih => exact (ih (op.run s)).trans (continueWaiting_op op s)

/-- The state of a sticky timer between `wait()` and the next `start()`. -/
theorem paused_op {α : Type} (op : PausedOp α) (s : TimerState α)
    (hp : s.2.pending = []) (hw : s.1.waiting = true) (ht : s.1.t = none)
    (hc : s.1.continueWaiting = true) :
    (op.run s).2.pending = [] ∧ (op.run s).1.waiting = true ∧ (op.run s).1.t = none ∧
      (op.run s).1.continueWaiting = true := by
  obtain ⟨tm, q⟩ := s
  simp only at hp hw ht hc
  cases op with
  | set a d w => simp [PausedOp.run, BreveTimer.set, hw, ht, hp, hc]
  | wait => simp [PausedOp.run, BreveTimer.wait, ht, hp, hc]
  | cancel => simp [PausedOp.run, BreveTimer.cancel, ht, hp, hc, hw]

theorem paused_runPaused {α : Type} (ops : List (PausedOp α)) (s : TimerState α)
    (hp : s.2.pending = []) (hw : s.1.waiting = true) (ht : s.1.t = none)
    (hc : s.1.continueWaiting = true) :
    (runPaused ops s).2.pending = [] ∧ (runPaused ops s).1.waiting = true ∧
      (runPaused ops s).1.t = none ∧ (runPaused ops s).1.continueWaiting = true := by
  induction ops generalizing s with
  | nil => exact ⟨hp, hw, ht, hc⟩
  | cons op ops ih =>
    obtain ⟨h1, h2, h3, h4⟩ := paused_op op s hp hw ht hc
    exact ih (op.run s) h1 h2 h3 h4

/-- C10: on the sticky `tooltipTimer`, after any history of calls, once
`wait()` has been called no sequence of `set()`, `cancel()` and `wait()` leaves
a timeout pending: the paused flag stays true (in particular across
`cancel()`), and `set()` only records the action and the delay. On a
non-sticky timer `cancel()` clears the paused flag, so the `set()` that
follows schedules its action. -/
theorem sticky_timer_stays_paused {α : Type} (pre : List (TimerOp α))
    (ops : List (PausedOp α)) (a : α) (d : Option Nat) (w : Option α) :
    (runPaused ops (TimerOp.wait.run (runOps pre (tooltipTimerInit α)))).2.pending = [] ∧
    (runPaused ops (TimerOp.wait.run (runOps pre (tooltipTimerInit α)))).1.waiting = true ∧
    (PausedOp.cancel.run
      (runPaused ops (TimerOp.wait.run (runOps pre (tooltipTimerInit α))))).1.waiting = true ∧
    (((PausedOp.set a d w).run
      (runPaused ops (TimerOp.wait.run (runOps pre (tooltipTimerInit α))))).2.pending = [] ∧
     ((PausedOp.set a d w).run
      (runPaused ops (TimerOp.wait.run (runOps pre (tooltipTimerInit α))))).1.waitingToRun
        = some a ∧
     ((PausedOp.set a d w).run
      (runPaused ops (TimerOp.wait.run (runOps pre (tooltipTimerInit α))))).1.waitingDelay
        = d.getD (runPaused ops
            (TimerOp.wait.run (runOps pre (tooltipTimerInit α)))).1.waitingDelay) ∧
    ((TimerOp.cancel.run
        (runOps pre (BreveTimer.new α false, Timers.empty α))).1.waiting = false ∧
     ∃ h, ((TimerOp.set a d w).run (TimerOp.cancel.run
        (runOps pre (BreveTimer.new α false, Timers.empty α)))).2.pending
          = [(h, some a, d.getD 1000)]) := by
  have hinv := TimerInv_runOps pre (tooltipTimerInit α) (TimerInv_new true)
  have hcw := continueWaiting_runOps pre (tooltipTimerInit α)
  obtain ⟨w1, w2, w3, w4⟩ := TimerInv_wait _ hinv
  have hc : (TimerOp.wait.run (runOps pre (tooltipTimerInit α))).1.continueWaiting = true := by
    show (BreveTimer.wait _ _).1.continueWaiting = true
    rw [w4, hcw]; rfl
  obtain ⟨p1, p2, p3, p4⟩ := paused_runPaused ops
    (TimerOp.wait.run (runOps pre (tooltipTimerInit α))) w1 w2 w3 hc
  refine ⟨p1, p2, (paused_op PausedOp.cancel _ p1 p2 p3 p4).2.1,
    ⟨(paused_op (PausedOp.set a d w) _ p1 p2 p3 p4).1, ?_, ?_⟩, ?_, ?_⟩
  · simp [PausedOp.run, BreveTimer.set, p2]
  · simp [PausedOp.run, BreveTimer.set, p2]
  · have hc0 := continueWaiting_runOps pre (BreveTimer.new α false, Timers.empty α)
    have hc0' : (runOps pre (BreveTimer.new α false, Timers.empty α)).1.continueWaiting
        = false := by rw [hc0]; rfl
    simp only [TimerOp.run, BreveTimer.cancel]
    cases (runOps pre (BreveTimer.new α false, Timers.empty α)).1.t <;> simp [hc0']
  · have hinv0 := TimerInv_runOps pre (BreveTimer.new α false, Timers.empty α)
      (TimerInv_new false)
    have hc0 := continueWaiting_runOps pre (BreveTimer.new α false, Timers.empty α)
    have hc0' : (runOps pre (BreveTimer.new α false, Timers.empty α)).1.continueWaiting
        = false := by rw [hc0]; rfl
    have hpend := cancel_pending _ hinv0
    generalize runOps pre (BreveTimer.new α false, Timers.empty α) = s at *
    obtain ⟨tm, q⟩ := s
    simp only at hc0'
    simp only [TimerOp.run]
    have e1 : (BreveTimer.cancel tm q).1.waiting = false := by
      simp only [BreveTimer.cancel]
      cases tm.t <;> simp [hc0']
    have e2 : (BreveTimer.cancel tm q).1.t = none := by
      simp only [BreveTimer.cancel]
      cases e : tm.t <;> simp only <;> split_ifs <;> first | rfl | exact e
    have e3 : (BreveTimer.cancel tm q).1.waitingDelay = 1000 := by
      simp only [BreveTimer.cancel]
    refine ⟨(BreveTimer.cancel tm q).2.nextHandle, ?_⟩
    simp only [BreveTimer.set, e1, e2, e3, setTimeout, hpend]
    simp

/-! ## `makeButton` and `makeContextMenuItem` -/

theorem makeButton_error_iff (ref : Nat) (icon text lib : String) :
    (∃ e, makeButton ref icon text lib = .error e) ↔ (icon ≠ "" ∧ lib = "" ∧ text ≠ "") := by
  unfold makeButton makeIcon
  by_cases hi : icon = "" <;> by_cases hl : lib = "" <;> by_cases ht : text = "" <;>
    simp [hi, hl, ht]

theorem makeButton_ok (ref : Nat) (icon text lib : String) (b : Element)
    (h : makeButton ref icon text lib = .ok b) :
    b.ref = ref ∧ b.tag = "button" ∧ b.click = [] ∧ b.classes = ["btn"] ∧ b.id = "" ∧
      b.label = text := by
  unfold makeButton makeIcon at h
  by_cases hi : icon = "" <;> by_cases hl : lib = "" <;> by_cases ht : text = "" <;>
    simp [hi, hl, ht] at h <;> subst h <;>
    simp [Element.label, makeText, Node.addWithText, ht, List.findSome?, Node.text?]

theorem makeButton_cases (cfg : Config) (name : String) (item : Item) (ref : Nat)
    (hty : item.type = some "function" ∨ item.type = some "category") :
    (buttonFails cfg name item ∧
      ∃ e, makeButton ref (item.icon.getD "") name (iconLibrary cfg item) = .error e) ∨
    (¬ buttonFails cfg name item ∧
      ∃ b, makeButton ref (item.icon.getD "") name (iconLibrary cfg item) = .ok b) := by
  have hiff := makeButton_error_iff ref (item.icon.getD "") name (iconLibrary cfg item)
  cases e : makeButton ref (item.icon.getD "") name (iconLibrary cfg item) with
  | error err => exact Or.inl ⟨⟨hty, hiff.1 ⟨err, e⟩⟩, err, rfl⟩
  | ok b =>
    refine Or.inr ⟨?_, b, rfl⟩
    rintro ⟨_, hf⟩
    obtain ⟨err, he⟩ := hiff.2 hf
    rw [e] at he; cases he

theorem mcmi_no_type (cfg : Config) (name : String) (item : Item) (w : World)
    (h : item.type = none) : makeContextMenuItem cfg name item w = .ok none w := by
  simp [makeContextMenuItem, h]

theorem mcmi_unknown (cfg : Config) (name : String) (item : Item) (w : World) (ty : String)
    (h : item.type = some ty) (h1 : ty ≠ "function") (h2 : ty ≠ "category")
    (h3 : ty ≠ "separator") : makeContextMenuItem cfg name item w = .ok none w := by
  simp [makeContextMenuItem, h, h1, h2, h3]

theorem mcmi_separator (cfg : Config) (name : String) (item : Item) (w : World)
    (h : item.type = some "separator") :
    makeContextMenuItem cfg name item w =
      .ok (some (separatorElement w.nextRef)) { w with nextRef := w.nextRef + 1 } := by
  simp [makeContextMenuItem, h]

theorem mcmi_button_throw (cfg : Config) (name : String) (item : Item) (w : World)
    (ty : String) (e : JSError) (h : item.type = some ty)
    (hty : ty = "function" ∨ ty = "category")
    (hb : makeButton w.nextRef (item.icon.getD "") name (iconLibrary cfg item) = .error e) :
    makeContextMenuItem cfg name item w = .throw e { w with nextRef := w.nextRef + 1 } := by
  simp [makeContextMenuItem, h, hty, hb]

theorem mcmi_function (cfg : Config) (name : String) (item : Item) (w : World) (b0 : Element)
    (h : item.type = some "function")
    (hb : makeButton w.nextRef (item.icon.getD "") name (iconLibrary cfg item) = .ok b0) :
    makeContextMenuItem cfg name item w =
      match item.run with
      | none => .ok none { w with nextRef := w.nextRef + 1 }
      | some r =>
        .ok (some (appendToggle cfg item.toggle
            (wireClick (styledButton b0 "function" (item.condition.getD true))
              (item.condition.getD true) r)))
          { w with nextRef := w.nextRef + 1 } := by
  simp only [makeContextMenuItem, h, hb]
  cases item.run <;> simp

theorem mcmi_category_proto (cfg : Config) (name : String) (item : Item) (w : World)
    (b0 : Element) (h : item.type = some "category")
    (hb : makeButton w.nextRef (item.icon.getD "") name (iconLibrary cfg item) = .ok b0)
    (hp : setsPrototype name item) :
    makeContextMenuItem cfg name item w
      = .throw (.notModelled "assignment to the key __proto__")
          { w with nextRef := w.nextRef + 1 } := by
  unfold setsPrototype Item.pendingChildren at hp
  simp only [makeContextMenuItem, h, hb]
  cases hch : item.children <;> cases hc : item.condition.getD true <;>
    simp [h, hc, hch] at hp ⊢
  exact hp

theorem mcmi_category (cfg : Config) (name : String) (item : Item) (w : World) (b0 : Element)
    (h : item.type = some "category")
    (hb : makeButton w.nextRef (item.icon.getD "") name (iconLibrary cfg item) = .ok b0)
    (hp : ¬ setsPrototype name item) :
    makeContextMenuItem cfg name item w =
      if item.condition.getD true then
        match item.children with
        | some ch =>
          .ok (some (appendIcon (styledButton b0 "category" true)
              (makeIcon "chevron_right" cfg.iconClass)))
            { w with nextRef := w.nextRef + 1,
                     contextSubLists := Obj.set w.contextSubLists name
                       (makeSublist b0.ref ch) }
        | none => .ok none { w with nextRef := w.nextRef + 1 }
      else
        .ok (some (appendIcon (styledButton b0 "category" false)
          (makeIcon "chevron_right" cfg.iconClass))) { w with nextRef := w.nextRef + 1 } := by
  unfold setsPrototype Item.pendingChildren at hp
  simp only [makeContextMenuItem, h, hb]
  cases hch : item.children <;> cases hc : item.condition.getD true <;>
    simp [h, hc, hch, styledButton] at hp ⊢
  exact hp

theorem appendIcon_makeIcon (e : Element) (n l : String) :
    (appendIcon e (makeIcon n l)).ref = e.ref ∧ (appendIcon e (makeIcon n l)).tag = e.tag ∧
    (appendIcon e (makeIcon n l)).click = e.click ∧
    (appendIcon e (makeIcon n l)).classes = e.classes ∧
    (appendIcon e (makeIcon n l)).label = e.label := by
  unfold appendIcon makeIcon Element.label
  by_cases h : l = "" <;>
    simp [h, List.findSome?_append, List.findSome?, Node.text?]

theorem appendToggle_props (cfg : Config) (t : Option Bool) (e : Element) :
    (appendToggle cfg t e).ref = e.ref ∧ (appendToggle cfg t e).tag = e.tag ∧
    (appendToggle cfg t e).click = e.click ∧ (appendToggle cfg t e).classes = e.classes ∧
    (appendToggle cfg t e).label = e.label := by
  unfold appendToggle
  cases t with
  | none => exact ⟨rfl, rfl, rfl, rfl, rfl⟩
  | some t => exact appendIcon_makeIcon e _ _

theorem styledButton_props (b : Element) (ty : String) (c : Bool) :
    (styledButton b ty c).ref = b.ref ∧ (styledButton b ty c).tag = b.tag ∧
    (styledButton b ty c).click = b.click ∧ (styledButton b ty c).label = b.label := by
  unfold styledButton; cases c <;> exact ⟨rfl, rfl, rfl, rfl⟩

theorem wireClick_props (b : Element) (c : Bool) (r : Nat) :
    (wireClick b c r).ref = b.ref ∧ (wireClick b c r).tag = b.tag ∧
    (wireClick b c r).label = b.label ∧ (wireClick b c r).classes = b.classes ∧
    (wireClick b c r).click =
      if c then b.click ++ [Handler.run r, Handler.cancelContextMenu] else b.click := by
  unfold wireClick; cases c <;> exact ⟨rfl, rfl, rfl, rfl, rfl⟩

theorem getD_true_eq_false (c : Option Bool) : c.getD true = false ↔ c = some false := by
  cases c with
  | none => simp
  | some b => cases b <;> simp

/-- Apart from the failure of `makeButton` and from the items whose
registration assigns to `__proto__`, `makeContextMenuItem` returns `null`
exactly on the items the specification lists, and an element (a `button`, or
a separator `div`) on every other item. -/
theorem makeContextMenuItem_null_iff (cfg : Config) (name : String) (item : Item) (w : World)
    (hb : ¬ buttonFails cfg name item) (hp : ¬ setsPrototype name item) :
    ((∃ w1, makeContextMenuItem cfg name item w = .ok none w1) ↔ specNull item) ∧
    (¬ specNull item → ∃ el w1, makeContextMenuItem cfg name item w = .ok (some el) w1 ∧
      el.ref = w.nextRef ∧
      (item.type = some "separator" → el = separatorElement w.nextRef) ∧
      (item.type ≠ some "separator" → el.tag = "button" ∧ el.label = name)) := by
  cases hty : item.type with
  | none =>
    rw [mcmi_no_type cfg name item w hty]
    simp [specNull, hty]
  | some ty =>
    by_cases h1 : ty = "function"
    · subst h1
      rcases makeButton_cases cfg name item w.nextRef (Or.inl hty) with ⟨hf, _⟩ | ⟨_, b0, hb0⟩
      · exact absurd hf hb
      · rw [mcmi_function cfg name item w b0 hty hb0]
        have hbo := makeButton_ok _ _ _ _ _ hb0
        cases hr : item.run with
        | none => simp [specNull, hty, hr]
        | some r =>
          simp only [specNull, hty, hr]
          have h1 := appendToggle_props cfg item.toggle
            (wireClick (styledButton b0 "function" (item.condition.getD true))
              (item.condition.getD true) r)
          have h2 := wireClick_props (styledButton b0 "function" (item.condition.getD true))
            (item.condition.getD true) r
          have h3 := styledButton_props b0 "function" (item.condition.getD true)
          refine ⟨by simp, fun _ => ⟨_, _, rfl, ?_, by simp, fun _ => ⟨?_, ?_⟩⟩⟩
          · rw [h1.1, h2.1, h3.1, hbo.1]
          · rw [h1.2.1, h2.2.1, h3.2.1, hbo.2.1]
          · rw [h1.2.2.2.2, h2.2.2.1, h3.2.2.2, hbo.2.2.2.2.2]
    · by_cases h2 : ty = "category"
      · subst h2
        rcases makeButton_cases cfg name item w.nextRef (Or.inr hty) with ⟨hf, _⟩ | ⟨_, b0, hb0⟩
        · exact absurd hf hb
        · rw [mcmi_category cfg name item w b0 hty hb0 hp]
          have hbo := makeButton_ok _ _ _ _ _ hb0
          have hlab : ∀ c, (appendIcon (styledButton b0 "category" c)
              (makeIcon "chevron_right" cfg.iconClass)).ref = w.nextRef ∧
              (appendIcon (styledButton b0 "category" c)
                (makeIcon "chevron_right" cfg.iconClass)).tag = "button" ∧
              (appendIcon (styledButton b0 "category" c)
                (makeIcon "chevron_right" cfg.iconClass)).label = name := by
            intro c
            have h1 := appendIcon_makeIcon (styledButton b0 "category" c) "chevron_right"
              cfg.iconClass
            have h3 := styledButton_props b0 "category" c
            exact ⟨by rw [h1.1, h3.1, hbo.1], by rw [h1.2.1, h3.2.1, hbo.2.1],
              by rw [h1.2.2.2.2, h3.2.2.2, hbo.2.2.2.2.2]⟩
          cases hc : item.condition.getD true with
          | false =>
            have hcf := (getD_true_eq_false item.condition).1 hc
            simp only [specNull, hty, hcf, Bool.false_eq_true, if_false]
            refine ⟨by simp, fun _ => ⟨_, _, rfl, (hlab false).1, by simp,
              fun _ => (hlab false).2⟩⟩
          | true =>
            have hcf : item.condition ≠ some false := by
              intro h; rw [h] at hc; simp at hc
            simp only [specNull, hty, if_true]
            cases hch : item.children with
            | none => simp [hcf]
            | some ch =>
              refine ⟨by simp, fun _ => ⟨_, _, rfl, (hlab true).1, by simp,
                fun _ => (hlab true).2⟩⟩
      · by_cases h3 : ty = "separator"
        · subst h3
          rw [mcmi_separator cfg name item w hty]
          simp [specNull, hty, separatorElement]
        · rw [mcmi_unknown cfg name item w ty hty h1 h2 h3]
          simp [specNull, hty, h1, h2, h3]

/-- On the items whose registration does not assign to `__proto__`, the
failure of `makeButton` is the only way `makeContextMenuItem` throws. -/
theorem makeContextMenuItem_throw_iff (cfg : Config) (name : String) (item : Item)
    (w : World) (hp : ¬ setsPrototype name item) :
    (∃ e w1, makeContextMenuItem cfg name item w = .throw e w1) ↔ buttonFails cfg name item := by
  constructor
  · rintro ⟨e, w1, h⟩
    by_contra hb
    have hn := makeContextMenuItem_null_iff cfg name item w hb hp
    by_cases hs : specNull item
    · obtain ⟨w2, h2⟩ := hn.1.2 hs
      rw [h2] at h; cases h
    · obtain ⟨el, w2, h2, _⟩ := hn.2 hs
      rw [h2] at h; cases h
  · intro hb
    obtain ⟨hty, hf⟩ := id hb
    have hty2 : ∃ ty, item.type = some ty ∧ (ty = "function" ∨ ty = "category") := by
      rcases hty with h | h
      · exact ⟨_, h, Or.inl rfl⟩
      · exact ⟨_, h, Or.inr rfl⟩
    obtain ⟨ty, hty3, hty4⟩ := hty2
    obtain ⟨e, he⟩ := (makeButton_error_iff w.nextRef _ _ _).2 hf
    exact ⟨e, _, mcmi_button_throw cfg name item w ty e hty3 hty4 he⟩

/-- C2: with an empty icon library configured, `makeContextMenuItem` throws a
`TypeError` on a function item that has a `run` callback and an icon, an item
on which the specification says it returns a button. -/
theorem makeContextMenuItem_throws_on_empty_library :
    ¬ specNull (.mk (some "function") (some "content_copy") none none none (some 1) none none) ∧
    ∃ w1, makeContextMenuItem { Config.default with iconClass := "" } "Copy"
        (.mk (some "function") (some "content_copy") none none none (some 1) none none)
        World.init = .throw (.typeError "tempIcon is null") w1 :=
  ⟨by simp [specNull, Item.type, Item.run], _, rfl⟩

/-- C3: for a function item with a `run` callback, the button
`makeContextMenuItem` builds has no click listener when `condition` is false,
and exactly `run` followed by `cancelContextMenu` when `condition` is true or
absent; a button is built whenever `makeButton` does not fail. -/
theorem function_item_click_handlers (cfg : Config) (name : String) (item : Item) (r : Nat)
    (w : World) (hty : item.type = some "function") (hrun : item.run = some r) :
    (∀ b w1, makeContextMenuItem cfg name item w = .ok (some b) w1 →
      b.click = if item.condition = some false then []
                else [Handler.run r, Handler.cancelContextMenu]) ∧
    (¬ buttonFails cfg name item →
      ∃ b w1, makeContextMenuItem cfg name item w = .ok (some b) w1) := by
  constructor
  · intro b w1 h
    rcases makeButton_cases cfg name item w.nextRef (Or.inl hty) with ⟨_, e, he⟩ | ⟨_, b0, hb0⟩
    · rw [mcmi_button_throw cfg name item w _ e hty (Or.inl rfl) he] at h; cases h
    · rw [mcmi_function cfg name item w b0 hty hb0, hrun] at h
      simp only [Res.ok.injEq, Option.some.injEq] at h
      have hbo := makeButton_ok _ _ _ _ _ hb0
      rw [← h.1, (appendToggle_props _ _ _).2.2.1, (wireClick_props _ _ _).2.2.2.2,
        (styledButton_props _ _ _).2.2.1, hbo.2.2.1]
      cases hc : item.condition.getD true with
      | false => simp [(getD_true_eq_false _).1 hc]
      | true =>
        have : item.condition ≠ some false := by intro h'; rw [h'] at hc; simp at hc
        simp [this]
  · intro hb
    have hn := makeContextMenuItem_null_iff cfg name item w hb
      (by simp [setsPrototype, Item.pendingChildren, hty])
    have hs : ¬ specNull item := by simp [specNull, hty, hrun]
    obtain ⟨el, w1, h, _⟩ := hn.2 hs
    exact ⟨el, w1, h⟩

/-- Witness for C3: a disabled function item gets a button without click
listeners. -/
theorem function_item_click_handlers_witness :
    ∃ b w1, makeContextMenuItem Config.default "Copy"
        (.mk (some "function") none none none (some false) (some 1) none none) World.init
          = .ok (some b) w1 ∧ b.click = [] :=
  match (function_item_click_handlers Config.default "Copy"
      (.mk (some "function") none none none (some false) (some 1) none none) 1 World.init
      rfl rfl).2 (by simp [buttonFails, Item.icon]) with
  | ⟨b, w1, hb⟩ =>
    ⟨b, w1, hb, by
      simpa [Item.condition] using
        (function_item_click_handlers Config.default "Copy"
          (.mk (some "function") none none none (some false) (some 1) none none) 1 World.init
          rfl rfl).1 b w1 hb⟩

theorem containerGrows_refl (c : Container) : ContainerGrows c c :=
  ⟨rfl, rfl, rfl, [], by simp⟩

theorem containerGrows_trans {a b c : Container} (h1 : ContainerGrows a b)
    (h2 : ContainerGrows b c) : ContainerGrows a c := by
  obtain ⟨r1, i1, c1, l1, e1⟩ := h1
  obtain ⟨r2, i2, c2, l2, e2⟩ := h2
  exact ⟨r2.trans r1, i2.trans i1, c2.trans c1, l1 ++ l2, by rw [e2, e1, List.append_assoc]⟩

theorem forall₂_grows_refl (l : List Container) : List.Forall₂ ContainerGrows l l := by
  induction l with
  | nil => exact List.Forall₂.nil
  | cons c l ih => exact List.Forall₂.cons (containerGrows_refl c) ih

theorem forall₂_grows_trans {l1 l2 l3 : List Container}
    (h1 : List.Forall₂ ContainerGrows l1 l2) (h2 : List.Forall₂ ContainerGrows l2 l3) :
    List.Forall₂ ContainerGrows l1 l3 := by
  induction h1 generalizing l3 with
  | nil => cases h2; exact List.Forall₂.nil
  | cons hab _ ih =>
    cases h2 with
    | cons hbc hrest => exact List.Forall₂.cons (containerGrows_trans hab hbc) (ih hrest)

/-- The state after `makeContextMenuItem`: only the reference counter and the
pending sublists can have changed, and a sublist is registered exactly when
the call returns a button for a category with pending children. -/
theorem mcmi_world (cfg : Config) (name : String) (item : Item) (w : World) :
    (∃ k, k ≤ 1 ∧ (makeContextMenuItem cfg name item w).world =
        { w with nextRef := w.nextRef + k }) ∨
    (∃ ch el, item.pendingChildren = some ch ∧
      makeContextMenuItem cfg name item w = .ok (some el)
        { w with nextRef := w.nextRef + 1,
                 contextSubLists := Obj.set w.contextSubLists name (makeSublist w.nextRef ch) }) := by
  cases hty : item.type with
  | none =>
    rw [mcmi_no_type cfg name item w hty]
    exact Or.inl ⟨0, by omega, rfl⟩
  | some ty =>
    by_cases h1 : ty = "function"
    · subst h1
      rcases makeButton_cases cfg name item w.nextRef (Or.inl hty) with ⟨_, e, he⟩ | ⟨_, b0, hb0⟩
      · rw [mcmi_button_throw cfg name item w _ e hty (Or.inl rfl) he]
        exact Or.inl ⟨1, le_refl _, rfl⟩
      · rw [mcmi_function cfg name item w b0 hty hb0]
        cases item.run <;> exact Or.inl ⟨1, le_refl _, rfl⟩
    · by_cases h2 : ty = "category"
      · subst h2
        rcases makeButton_cases cfg name item w.nextRef (Or.inr hty) with
          ⟨_, e, he⟩ | ⟨_, b0, hb0⟩
        · rw [mcmi_button_throw cfg name item w _ e hty (Or.inr rfl) he]
          exact Or.inl ⟨1, le_refl _, rfl⟩
        · by_cases hp : setsPrototype name item
          · rw [mcmi_category_proto cfg name item w b0 hty hb0 hp]
            exact Or.inl ⟨1, le_refl _, rfl⟩
          rw [mcmi_category cfg name item w b0 hty hb0 hp]
          have hbo := makeButton_ok _ _ _ _ _ hb0
          cases hc : item.condition.getD true with
          | false => exact Or.inl ⟨1, le_refl _, rfl⟩
          | true =>
            cases hch : item.children with
            | none => exact Or.inl ⟨1, le_refl _, rfl⟩
            | some ch =>
              refine Or.inr ⟨ch, appendIcon (styledButton b0 "category" true)
                (makeIcon "chevron_right" cfg.iconClass), ?_, ?_⟩
              · simp [Item.pendingChildren, hty, hc, hch]
              · simp only [if_true, hbo.1]
      · by_cases h3 : ty = "separator"
        · subst h3
          rw [mcmi_separator cfg name item w hty]
          exact Or.inl ⟨1, le_refl _, rfl⟩
        · rw [mcmi_unknown cfg name item w ty hty h1 h2 h3]
          exact Or.inl ⟨0, by omega, rfl⟩

theorem builds_refl (w : World) : Builds w w :=
  ⟨rfl, rfl, rfl, rfl, rfl, forall₂_grows_refl _, [], by simp, by simp⟩

theorem builds_trans {a b c : World} (h1 : Builds a b) (h2 : Builds b c) : Builds a c := by
  obtain ⟨p1, l1, o1, t1, tt1, d1, q1, e1, b1⟩ := h1
  obtain ⟨p2, l2, o2, t2, tt2, d2, q2, e2, b2⟩ := h2
  refine ⟨p2.trans p1, l2.trans l1, o2.trans o1, t2.trans t1, tt2.trans tt1,
    forall₂_grows_trans d1 d2, q1 ++ q2, by rw [e2, e1, List.append_assoc], ?_⟩
  intro p hp
  rcases List.mem_append.1 hp with h | h
  · exact b1 p h
  · exact b2 p h

/-- A change of the pending sublists and of the counters only. -/
theorem builds_of_eq (w : World) (reg : Obj (Obj Entry)) (n c : Nat) :
    Builds w { w with contextSubLists := reg, nextRef := n, submenuCount := c } :=
  ⟨rfl, rfl, rfl, rfl, rfl, forall₂_grows_refl _, [], by simp, by simp⟩

theorem builds_mcmi (cfg : Config) (name : String) (item : Item) (w : World) :
    Builds w (makeContextMenuItem cfg name item w).world := by
  rcases mcmi_world cfg name item w with ⟨k, _, h⟩ | ⟨ch, el, _, h⟩
  · rw [h]; exact builds_of_eq w w.contextSubLists _ w.submenuCount
  · rw [h]; exact builds_of_eq w _ _ w.submenuCount

theorem builds_subListLoop (cfg : Config) (name divId : String) (texts : List String)
    (button : Option Nat) (items : List Element) (itemCount : Nat) (w : World) :
    Builds w (subListLoop cfg name divId texts button items itemCount w).world := by
  induction texts generalizing button items itemCount w with
  | nil => exact builds_refl w
  | cons text rest ih =>
    unfold subListLoop
    cases pendingEntry w name text with
    | none => exact builds_refl w
    | some entry =>
      simp only
      have hb := builds_mcmi cfg text entry._item w
      cases hm : makeContextMenuItem cfg text entry._item w with
      | throw e w1 => rw [hm] at hb; exact hb
      | ok newItem w1 =>
        rw [hm] at hb
        simp only
        cases button with
        | some b => exact builds_trans hb (ih _ _ _ _)
        | none =>
          simp only
          cases pendingEntry w1 name text with
          | none => simp only; split <;> exact hb
          | some entry1 => exact builds_trans hb (ih _ _ _ _)

theorem builds_appendDiv (container : Nat) (div : MenuDiv) (w : World) :
    Builds w (appendDiv container div w) := by
  refine ⟨rfl, rfl, rfl, rfl, rfl, ?_, [], by simp [appendDiv], by simp⟩
  unfold appendDiv
  simp only
  generalize w.document = doc
  induction doc with
  | nil => exact List.Forall₂.nil
  | cons c doc ih =>
    refine List.Forall₂.cons ?_ ih
    show ContainerGrows c (if c.ref = container then _ else c)
    by_cases h : c.ref = container
    · rw [if_pos h]; exact ⟨rfl, rfl, rfl, [div], rfl⟩
    · rw [if_neg h]; exact containerGrows_refl c

theorem builds_beginSubmenu (prev : Option String) (w : World) :
    Builds w (beginSubmenu prev w) :=
  ⟨rfl, rfl, rfl, rfl, rfl, forall₂_grows_refl _, [], by simp [beginSubmenu], by simp⟩

theorem builds_finishSubmenu (container divRef : Nat) (divId : String) (button : Option Nat)
    (items : List Element) (w : World) :
    Builds w (finishSubmenu container divRef divId button items w) := by
  unfold finishSubmenu
  cases button with
  | none => exact builds_appendDiv _ _ _
  | some b =>
    refine builds_trans ?_ (builds_appendDiv _ _ _)
    exact ⟨rfl, rfl, rfl, rfl, rfl, forall₂_grows_refl _,
      [(w.timers.nextHandle, some (.place b divRef), 1)], rfl, by simp⟩

theorem builds_registryLoop (cfg : Config) (container : Nat) (names : List String)
    (prev : Option String) (w : World) :
    Builds w (registryLoop cfg container names prev w).world := by
  induction names generalizing prev w with
  | nil => exact builds_refl w
  | cons name rest ih =>
    unfold registryLoop
    by_cases hh : Obj.has w.contextSubLists name = true
    · simp only [hh, if_true]
      have h0 := builds_beginSubmenu prev w
      have h1 := builds_subListLoop cfg name (submenuDivId (beginSubmenu prev w))
        (sublistKeys (beginSubmenu prev w) name) none [] 1 (beginSubmenu prev w)
      cases hs : subListLoop cfg name (submenuDivId (beginSubmenu prev w))
        (sublistKeys (beginSubmenu prev w) name) none [] 1 (beginSubmenu prev w) with
      | throw e w2 => rw [hs] at h1; exact builds_trans h0 h1
      | ok r w2 =>
        rw [hs] at h1
        exact builds_trans (builds_trans h0 h1)
          (builds_trans (builds_finishSubmenu _ _ _ _ _ _) (ih _ _))
    · simp only [hh, if_false]
      exact ih prev w

theorem builds_resolve (cfg : Config) (container : Nat) (fuel : Nat) (w : World) (r : Res Unit)
    (h : resolveContextSubLists cfg container fuel w = some r) : Builds w r.world := by
  induction fuel generalizing w with
  | zero => simp [resolveContextSubLists] at h
  | succ fuel ih =>
    unfold resolveContextSubLists at h
    have hl := builds_registryLoop cfg container (forInKeys w.contextSubLists) none w
    cases hr : registryLoop cfg container (forInKeys w.contextSubLists) none w with
    | throw e w1 =>
      rw [hr] at h hl
      simp only [Option.some.injEq] at h
      subst h; exact hl
    | ok prev w1 =>
      rw [hr] at h hl
      cases prev with
      | none =>
        simp only [Option.some.injEq] at h
        subst h
        exact builds_trans hl (builds_of_eq w1 w1.contextSubLists w1.nextRef 0)
      | some p =>
        simp only at h
        exact builds_trans hl (builds_trans (builds_of_eq w1 _ w1.nextRef w1.submenuCount) (ih _ h))

theorem builds_rootLoop (cfg : Config) (entries : List (String × Item)) (items : List Element)
    (itemCount : Nat) (w : World) :
    Builds w (rootLoop cfg entries items itemCount w).world := by
  induction entries generalizing items itemCount w with
  | nil => exact builds_refl w
  | cons e rest ih =>
    obtain ⟨text, item⟩ := e
    unfold rootLoop
    have hb := builds_mcmi cfg text item w
    cases hm : makeContextMenuItem cfg text item w with
    | throw e w1 => rw [hm] at hb; exact hb
    | ok newItem w1 => rw [hm] at hb; exact builds_trans hb (ih _ _ _)

/-! ## Opening and closing a menu -/

theorem benignSince_of_builds {h : Nat} {w w1 : World} (hb : Builds w w1)
    (hw : BenignSince h w) : BenignSince h w1 := by
  obtain ⟨_, _, _, _, _, _, l, e, hl⟩ := hb
  intro p hp hge
  rw [e] at hp
  rcases List.mem_append.1 hp with hp | hp
  · exact hw p hp hge
  · obtain ⟨b, d, hbd⟩ := hl p hp
    intro a m hc
    rw [hbd] at hc
    cases hc

theorem benignSince_of_subset {h : Nat} {w w1 : World}
    (hs : ∀ p ∈ w1.timers.pending, p ∈ w.timers.pending) (hw : BenignSince h w) :
    BenignSince h w1 :=
  fun p hp hge => hw p (hs p hp) hge

theorem clearTimeout_subset {α : Type} (h : Nat) (q : Timers α) :
    ∀ p ∈ (clearTimeout h q).pending, p ∈ q.pending := by
  intro p hp
  exact (List.mem_filter.1 hp).1

theorem wait_subset {α γ : Type} (tm : BreveTimer α) (q : Timers γ) :
    ∀ p ∈ (BreveTimer.wait tm q).2.1.pending, p ∈ q.pending := by
  unfold BreveTimer.wait
  cases tm.t with
  | none => intro p hp; exact hp
  | some h => exact clearTimeout_subset h q

theorem runTooltipCb_frame (cfg : Config) (env : Env) (cb : TooltipCb) (w : World) :
    (runTooltipCb cfg env cb w).document = w.document ∧
    (runTooltipCb cfg env cb w).windowListeners = w.windowListeners ∧
    (runTooltipCb cfg env cb w).contextMenuParent = w.contextMenuParent ∧
    (runTooltipCb cfg env cb w).timers = w.timers := by
  cases cb <;> exact ⟨rfl, rfl, rfl, rfl⟩

theorem tooltipTimerWait_frame (cfg : Config) (env : Env) (w : World) :
    (tooltipTimerWait cfg env w).document = w.document ∧
    (tooltipTimerWait cfg env w).windowListeners = w.windowListeners ∧
    (tooltipTimerWait cfg env w).contextMenuParent = w.contextMenuParent ∧
    ∀ p ∈ (tooltipTimerWait cfg env w).timers.pending, p ∈ w.timers.pending := by
  unfold tooltipTimerWait
  simp only
  cases (BreveTimer.wait w.tooltipTimer w.timers).2.2 with
  | none => exact ⟨rfl, rfl, rfl, wait_subset _ _⟩
  | some cb =>
    obtain ⟨h1, h2, h3, h4⟩ := runTooltipCb_frame cfg env cb
      { w with tooltipTimer := (BreveTimer.wait w.tooltipTimer w.timers).1,
               timers := (BreveTimer.wait w.tooltipTimer w.timers).2.1 }
    refine ⟨h1, h2, h3, ?_⟩
    rw [h4]
    exact wait_subset _ _

theorem mem_addListener (ls : List (String × WinListener)) (t : String) (l : WinListener)
    (p : String × WinListener) : p ∈ addListener ls t l ↔ p ∈ ls ∨ p = (t, l) := by
  unfold addListener
  split_ifs with h
  · constructor
    · exact Or.inl
    · rintro (h1 | h1)
      · exact h1
      · rw [h1]; exact h
  · simp

theorem mem_removeListener (ls : List (String × WinListener)) (t : String) (l : WinListener)
    (p : String × WinListener) : p ∈ removeListener ls t l ↔ p ∈ ls ∧ p ≠ (t, l) := by
  unfold removeListener
  simp [List.mem_filter]

theorem tail_of_length_le_one {α : Type} (l : List α) (h : l.length ≤ 1) : l.tail = [] := by
  cases l with
  | nil => rfl
  | cons a l =>
    cases l with
    | nil => rfl
    | cons b l => simp at h

/-- What a successful run of the deferred body of `makeContextMenu` leaves. -/
theorem openMenu_ok (cfg : Config) (env : Env) (fuel : Nat) (a : Nat) (menu : Menu)
    (w w1 : World) (hdoc : w.document.length ≤ 1)
    (h : openMenu cfg env fuel a menu w = some (.ok () w1)) :
    w1.contextMenuParent = some a ∧
    (∃ items w2 c l,
      rootLoop cfg (forInOrder menu) [] 1
        { w with contextMenuParent := some a, nextRef := w.nextRef + 2 } = .ok items w2 ∧
      w1.document = [c] ∧ c.ref = w.nextRef ∧ c.id = "BreveContextMenu" ∧
      c.children = mainDiv env (w.nextRef + 1) items :: l) ∧
    (∀ p, p ∈ w1.windowListeners ↔ p ∈ w.windowListeners ∨
      p = ("click", WinListener.leftClickCancelContextMenu) ∨
      p = ("contextmenu", WinListener.cancelContextMenu) ∨
      p = ("keydown", WinListener.escKeyCancelContextMenu)) ∧
    (∀ n, BenignSince n w → BenignSince n w1) := by
  unfold openMenu at h
  simp only at h
  have hroot := builds_rootLoop cfg (forInOrder menu) [] 1
    { w with contextMenuParent := some a, nextRef := w.nextRef + 2 }
  cases hr : rootLoop cfg (forInOrder menu) [] 1
    { w with contextMenuParent := some a, nextRef := w.nextRef + 2 } with
  | throw e w2 => rw [hr] at h; cases h
  | ok items w2 =>
    rw [hr] at h hroot
    simp only at h
    cases hres : resolveContextSubLists cfg w.nextRef fuel
      { w2 with document := w2.document.tail ++
          [newContainer w.nextRef (mainDiv env (w.nextRef + 1) items)] } with
    | none => rw [hres] at h; cases h
    | some r =>
      rw [hres] at h
      have hb := builds_resolve cfg w.nextRef fuel _ r hres
      cases r with
      | throw e w4 => cases h
      | ok u w4 =>
        simp only [Option.some.injEq, Res.ok.injEq, true_and] at h
        subst h
        simp only [Res.world] at hb hroot
        have hn1 : ∀ n, BenignSince n w → BenignSince n w2 := fun n hn =>
          benignSince_of_builds hroot (fun p hp hge => hn p hp hge)
        have hn2 : ∀ n, BenignSince n w2 → BenignSince n w4 := fun n hn =>
          benignSince_of_builds hb (fun p hp hge => hn p hp hge)
        obtain ⟨hp, hl, _, _, _, hd, _⟩ := hb
        obtain ⟨hp0, hl0, _, _, _, hd0, _⟩ := hroot
        simp only at hp hl hd hp0 hl0 hd0
        have hlen : w2.document.length ≤ 1 := by
          rw [← List.Forall₂.length_eq hd0]; exact hdoc
        rw [tail_of_length_le_one _ hlen, List.nil_append] at hd
        obtain ⟨t1, t2, t3, t4⟩ := tooltipTimerWait_frame cfg env
          { w4 with
            contextOpen := (if a ∈ w4.contextOpen then w4.contextOpen
                            else w4.contextOpen ++ [a]),
            document := w4.document.map (fun c =>
              if c.ref = w.nextRef then { c with classes := showClasses c.classes } else c) }
        refine ⟨?_, ?_, ?_, ?_⟩
        · show (showMenu cfg env a w.nextRef w4).contextMenuParent = some a
          unfold showMenu
          simp only
          rw [t3]
          simp only
          rw [hp, hp0]
        · obtain ⟨c4, rest, hc, hnil, hdoc4⟩ := List.forall₂_cons_left_iff.1 hd
          have hrest := List.forall₂_nil_left_iff.1 hnil
          subst hrest
          obtain ⟨cr, ci, cc, l, cl⟩ := hc
          refine ⟨items, w2, { c4 with classes := showClasses c4.classes }, l, rfl, ?_,
            cr, ci, cl⟩
          show (showMenu cfg env a w.nextRef w4).document = _
          unfold showMenu
          simp only
          rw [t1]
          simp only
          rw [hdoc4]
          have : c4.ref = w.nextRef := cr
          simp [this]
        · intro p
          show p ∈ (showMenu cfg env a w.nextRef w4).windowListeners ↔ _
          unfold showMenu
          simp only [mem_addListener]
          rw [t2]
          simp only
          rw [hl, hl0]
          tauto
        · intro n hn
          show BenignSince n (showMenu cfg env a w.nextRef w4)
          intro p hp' hge
          exact hn2 n (hn1 n hn) p (t4 p hp') hge

theorem start_pending (tm : BreveTimer TooltipCb) (q : Timers Callback) :
    ∀ p ∈ (BreveTimer.start Callback.tooltip tm q).2.pending,
      p ∈ q.pending ∨ Benign p.2.1 := by
  unfold BreveTimer.start
  split_ifs
  · intro p hp
    simp only [setTimeout] at hp
    rcases List.mem_append.1 hp with h | h
    · exact Or.inl h
    · right
      simp only [List.mem_singleton] at h
      subst h
      intro a m hc
      simp only at hc
      cases hw : tm.waitingToRun with
      | none => rw [hw] at hc; cases hc
      | some x => rw [hw] at hc; cases hc
  · intro p hp; exact Or.inl hp

/-- Closing an open menu: `cancelContextMenu` removes the container, the three
dismissal listeners and the anchor. -/
theorem cancelContextMenu_open (w : World) (c : Container) (a : Nat)
    (hdoc : w.document = [c]) (hp : w.contextMenuParent = some a) :
    ∃ w1, cancelContextMenu w = .ok () w1 ∧ Clean w1 ∧
      ∀ n, BenignSince n w → BenignSince n w1 := by
  unfold cancelContextMenu
  rw [hdoc, hp]
  refine ⟨_, rfl, ⟨rfl, ?_, ?_, ?_, rfl⟩, ?_⟩
  · simp [tooltipTimerStart, mem_removeListener]
  · simp [tooltipTimerStart, mem_removeListener]
  · simp [tooltipTimerStart, mem_removeListener]
  · intro n hn p hp' hge
    simp only [tooltipTimerStart] at hp'
    rcases start_pending _ _ p hp' with h | h
    · exact hn p h hge
    · exact h

theorem placeCallback_of_empty (env : Env) (b d : Nat) (w : World) (h : w.document = []) :
    placeCallback env b d w = w := by
  unfold placeCallback
  simp [h]

theorem clean_congr {w w1 : World} (h : Clean w) (hd : w1.document = w.document)
    (hl : w1.windowListeners = w.windowListeners)
    (hp : w1.contextMenuParent = w.contextMenuParent) : Clean w1 := by
  unfold Clean at *
  rw [hd, hl, hp]; exact h

/-- Firing every benign timeout scheduled since `since` on a state without an
open menu ends, and leaves no menu open. -/
theorem drain_clean (cfg : Config) (env : Env) (fuel since : Nat) (n : Nat) (w : World)
    (hc : Clean w) (hb : BenignSince since w) (hn : w.timers.pending.length < n) :
    ∃ w1, drain cfg env fuel since n w = some w1 ∧ Clean w1 ∧
      ∀ p ∈ w1.timers.pending, p.1 < since := by
  induction n generalizing w with
  | zero => omega
  | succ n ih =>
    unfold drain
    cases hf : w.timers.pending.find? (fun p => decide (since ≤ p.1)) with
    | none =>
      refine ⟨w, rfl, hc, ?_⟩
      intro p hp
      have := List.find?_eq_none.1 hf p hp
      simpa using this
    | some p =>
      have hpm := List.mem_of_find?_eq_some hf
      have hps : since ≤ p.1 := by simpa using List.find?_some hf
      simp only
      unfold fireHandle
      cases hq : w.timers.pending.find? (fun q => decide (q.1 = p.1)) with
      | none =>
        have := List.find?_eq_none.1 hq p hpm
        simp at this
      | some q =>
        have hqm := List.mem_of_find?_eq_some hq
        have hq1 : q.1 = p.1 := by simpa using List.find?_some hq
        have hben : Benign q.2.1 := hb q hqm (by rw [hq1]; exact hps)
        simp only
        have hlen : (clearTimeout p.1 w.timers).pending.length < w.timers.pending.length := by
          unfold clearTimeout
          simp only
          rw [List.length_filter_lt_length_iff_exists]
          exact ⟨p, hpm, by simp⟩
        have hsub : ∀ x ∈ (clearTimeout p.1 w.timers).pending, x ∈ w.timers.pending :=
          clearTimeout_subset _ _
        have key : ∃ w2, runCallback cfg env fuel q.2.1
            { w with timers := clearTimeout p.1 w.timers } = some (.ok () w2) ∧ Clean w2 ∧
            w2.timers = clearTimeout p.1 w.timers := by
          cases hcb : q.2.1 with
          | none => exact ⟨_, rfl, clean_congr hc rfl rfl rfl, rfl⟩
          | some cb =>
            cases cb with
            | openMenu a m => exact absurd hcb (hben a m)
            | place b d =>
              have he := placeCallback_of_empty env b d
                { w with timers := clearTimeout p.1 w.timers } hc.1
              refine ⟨_, rfl, ?_, ?_⟩
              · rw [he]; exact clean_congr hc rfl rfl rfl
              · rw [he]
            | tooltip t =>
              obtain ⟨h1, h2, h3, h4⟩ := runTooltipCb_frame cfg env t
                { w with timers := clearTimeout p.1 w.timers }
              exact ⟨_, rfl, clean_congr hc h1 h2 h3, h4⟩
        obtain ⟨w2, hrun, hc2, ht2⟩ := key
        rw [hrun]
        simp only [Res.world]
        refine ih w2 hc2 ?_ ?_
        · intro x hx hge
          rw [ht2] at hx
          exact hb x (hsub x hx) hge
        · rw [ht2]; omega

theorem fire_makeContextMenu (cfg : Config) (env : Env) (fuel : Nat) (a : Nat) (menu : Menu)
    (w : World) (hq : ∀ p ∈ w.timers.pending, p.1 < w.timers.nextHandle) :
    fireHandle cfg env fuel w.timers.nextHandle (makeContextMenu a menu w) =
      openMenu cfg env fuel a menu
        { w with timers := { pending := w.timers.pending,
                             nextHandle := w.timers.nextHandle + 1 } } := by
  unfold fireHandle makeContextMenu
  simp only [setTimeout]
  have hnone : w.timers.pending.find? (fun p => decide (p.1 = w.timers.nextHandle)) = none := by
    rw [List.find?_eq_none]
    intro p hp
    have := hq p hp
    simp; omega
  rw [List.find?_append, hnone]
  simp only [List.find?, decide_True, Option.none_or, runCallback]
  congr 2
  unfold clearTimeout
  simp only [List.filter_append]
  have : w.timers.pending.filter (fun p => decide (p.1 ≠ w.timers.nextHandle))
      = w.timers.pending := by
    rw [List.filter_eq_self]
    intro p hp
    have := hq p hp
    simp; omega
  simp only [this]
  simp

/-- C4 as stated fails: `cancelContextMenu()` called right after
`makeContextMenu(7, example)` finds no container and does nothing; the deferred
body then runs and opens the menu. When every callback has run, the container
is in the document, the three dismissal listeners are registered and
`contextMenuParent` is the anchor. -/
theorem cancel_before_deferred_open_leaves_menu :
    (cancelContextMenu (makeContextMenu 7 Menu.example World.init)).isOk = true ∧
    ((drain Config.default Env.sample 5 1 5
      (cancelContextMenu (makeContextMenu 7 Menu.example World.init)).world).map
      (fun w => (w.document.map (fun c => c.id), w.contextMenuParent,
        decide (("click", WinListener.leftClickCancelContextMenu) ∈ w.windowListeners),
        decide (("contextmenu", WinListener.cancelContextMenu) ∈ w.windowListeners),
        decide (("keydown", WinListener.escKeyCancelContextMenu) ∈ w.windowListeners),
        w.timers.pending.length)))
      = some (["BreveContextMenu"], some 7, true, true, true, 0) := by
  constructor <;> decide

/-- C4, amended: when `makeContextMenu(a, menu)` has been called and its
deferred body has run to the end, `cancelContextMenu()` followed by every
callback scheduled since leaves no container in the document, none of the
three dismissal listeners, and `contextMenuParent` null. -/
theorem open_run_cancel_clean (cfg : Config) (env : Env) (fuel : Nat) (a : Nat) (menu : Menu)
    (w w1 : World) (hdoc : w.document.length ≤ 1)
    (hq : ∀ p ∈ w.timers.pending, p.1 < w.timers.nextHandle)
    (hopen : fireHandle cfg env fuel w.timers.nextHandle (makeContextMenu a menu w)
      = some (.ok () w1)) :
    ∃ w2, cancelContextMenu w1 = .ok () w2 ∧ Clean w2 ∧
      ∃ w3, drain cfg env fuel w.timers.nextHandle (w2.timers.pending.length + 1) w2 = some w3 ∧
        Clean w3 ∧ ∀ p ∈ w3.timers.pending, p.1 < w.timers.nextHandle := by
  rw [fire_makeContextMenu cfg env fuel a menu w hq] at hopen
  have hben : BenignSince w.timers.nextHandle
      { w with timers := { pending := w.timers.pending,
                           nextHandle := w.timers.nextHandle + 1 } } := by
    intro p hp hge
    have := hq p hp
    omega
  obtain ⟨hpar, ⟨items, w2, c, l, _, hd, _⟩, _, hb⟩ :=
    openMenu_ok cfg env fuel a menu
      { w with timers := { pending := w.timers.pending,
                           nextHandle := w.timers.nextHandle + 1 } } w1 hdoc hopen
  obtain ⟨w2, hcancel, hclean, hb2⟩ := cancelContextMenu_open w1 c a hd hpar
  refine ⟨w2, hcancel, hclean, ?_⟩
  exact drain_clean cfg env fuel w.timers.nextHandle _ w2 hclean
    (hb2 _ (hb _ hben)) (Nat.lt_succ_self _)

/-- Witness for the amended C4: the example menu opened on anchor 7 from the
initial state, then closed. -/
theorem open_run_cancel_clean_witness :
    ∃ w2, cancelContextMenu World.opened = .ok () w2 ∧ Clean w2 ∧
      ∃ w3, drain Config.default Env.sample 5 World.init.timers.nextHandle
          (w2.timers.pending.length + 1) w2 = some w3 ∧
        Clean w3 ∧ ∀ p ∈ w3.timers.pending, p.1 < World.init.timers.nextHandle :=
  open_run_cancel_clean Config.default Env.sample 5 7 Menu.example World.init World.opened
    (by decide) (by simp [World.init, Timers.empty]) rfl

/-- C5 as stated fails: with the example menu open on anchor 7,
`makeContextMenu(8, {"Paste": function})` is no no-op: once its deferred body
has run, `contextMenuParent` is 8 and the only container in the document is a
new one (identity 7, the old one had identity 1) holding the item "Paste". -/
theorem second_open_replaces_first :
    World.opened.contextMenuParent = some 7 ∧
    World.opened.document.map (fun c => c.ref) = [1] ∧
    World.opened.document.map
      (fun c => c.children.map (fun d => d.items.map (fun e => e.label)))
      = [[["Copy", "More"], ["Delete"]]] ∧
    (fireHandle Config.default Env.sample 5 World.opened.timers.nextHandle
        (makeContextMenu 8 [("Paste", Item.function 3)] World.opened)).map
      (fun r => (r.isOk, r.world.contextMenuParent, r.world.document.map (fun c => c.ref)))
      = some (true, some 8, [7]) ∧
    (fireHandle Config.default Env.sample 5 World.opened.timers.nextHandle
        (makeContextMenu 8 [("Paste", Item.function 3)] World.opened)).map
      (fun r => r.world.document.map
        (fun c => c.children.map (fun d => d.items.map (fun e => e.label))))
      = some [[["Paste"]]] := by
  refine ⟨?_, ?_, ?_, ?_, ?_⟩ <;> decide

/-- C5, amended: when a menu is open (one container in the document) and
`makeContextMenu(b, menu)` is called and its deferred body runs to the end,
the open menu is replaced: `contextMenuParent` is `b`, the old container is no
longer in the document, and the document holds exactly one container, a new
one whose root level holds the items built from `menu`. -/
theorem second_open_replaces (cfg : Config) (env : Env) (fuel : Nat) (b : Nat) (menu : Menu)
    (w w1 : World) (old : Container) (hdoc : w.document = [old])
    (href : old.ref < w.nextRef)
    (hq : ∀ p ∈ w.timers.pending, p.1 < w.timers.nextHandle)
    (hopen : fireHandle cfg env fuel w.timers.nextHandle (makeContextMenu b menu w)
      = some (.ok () w1)) :
    w1.contextMenuParent = some b ∧ old ∉ w1.document ∧
    ∃ items w2 c l,
      rootLoop cfg (forInOrder menu) [] 1
        { w with contextMenuParent := some b, nextRef := w.nextRef + 2,
                 timers := { pending := w.timers.pending,
                             nextHandle := w.timers.nextHandle + 1 } } = .ok items w2 ∧
      w1.document = [c] ∧ c.ref = w.nextRef ∧ c.id = "BreveContextMenu" ∧
      c.children = mainDiv env (w.nextRef + 1) items :: l := by
  rw [fire_makeContextMenu cfg env fuel b menu w hq] at hopen
  obtain ⟨hpar, ⟨items, w2, c, l, hroot, hd, hcr, hci, hcc⟩, _, _⟩ :=
    openMenu_ok cfg env fuel b menu
      { w with timers := { pending := w.timers.pending,
                           nextHandle := w.timers.nextHandle + 1 } } w1 (by simp [hdoc]) hopen
  refine ⟨hpar, ?_, items, w2, c, l, hroot, hd, hcr, hci, hcc⟩
  rw [hd]
  intro hmem
  have : old = c := by simpa using hmem
  have h2 : c.ref = w.nextRef := hcr
  rw [← this] at h2
  omega

/-- Witness for the amended C5: a second menu opened on anchor 8 while the
example menu is open on anchor 7. -/
theorem second_open_replaces_witness :
    (((fireHandle Config.default Env.sample 5 World.opened.timers.nextHandle
        (makeContextMenu 8 [("Paste", Item.function 3)] World.opened)).map
          Res.world).getD World.init).contextMenuParent = some 8 :=
  (second_open_replaces Config.default Env.sample 5 8 [("Paste", Item.function 3)]
    World.opened
    (((fireHandle Config.default Env.sample 5 World.opened.timers.nextHandle
        (makeContextMenu 8 [("Paste", Item.function 3)] World.opened)).map
          Res.world).getD World.init)
    (World.opened.document.headD ⟨0, "", [], []⟩) rfl (by decide) (by decide) rfl).1

/-! ## Dictionaries -/

theorem obj_has_iff {α : Type} (o : Obj α) (k : String) :
    Obj.has o k = true ↔ ∃ v, (k, v) ∈ o := by
  unfold Obj.has
  simp only [List.any_eq_true, decide_eq_true_eq]
  constructor
  · rintro ⟨p, hp, rfl⟩; exact ⟨p.2, hp⟩
  · rintro ⟨v, hv⟩; exact ⟨(k, v), hv, rfl⟩

theorem obj_has_iff_keys {α : Type} (o : Obj α) (k : String) :
    Obj.has o k = true ↔ k ∈ o.map (fun p => p.1) := by
  rw [obj_has_iff]
  simp only [List.mem_map]
  constructor
  · rintro ⟨v, hv⟩; exact ⟨(k, v), hv, rfl⟩
  · rintro ⟨p, hp, rfl⟩; exact ⟨p.2, hp⟩

theorem obj_lookup_mem {α : Type} (o : Obj α) (k : String) (v : α)
    (h : Obj.lookup o k = some v) : (k, v) ∈ o := by
  unfold Obj.lookup at h
  cases hf : o.find? (fun p => decide (p.1 = k)) with
  | none => rw [hf] at h; cases h
  | some p =>
    rw [hf] at h
    simp only [Option.map_some', Option.some.injEq] at h
    have h1 := List.mem_of_find?_eq_some hf
    have h2 : p.1 = k := by simpa using List.find?_some hf
    rw [← h, ← h2]
    exact h1

theorem obj_mem_set {α : Type} (o : Obj α) (k : String) (v : α) (p : String × α)
    (h : p ∈ Obj.set o k v) : p ∈ o ∨ p = (k, v) := by
  unfold Obj.set at h
  split_ifs at h
  · obtain ⟨q, hq, rfl⟩ := List.mem_map.1 h
    by_cases hk : q.1 = k
    · right; simp [hk]
    · left; simp [hk, hq]
  · rcases List.mem_append.1 h with h | h
    · exact Or.inl h
    · exact Or.inr (by simpa using h)

theorem obj_mem_delete {α : Type} (o : Obj α) (k : String) (p : String × α) :
    p ∈ Obj.delete o k ↔ p ∈ o ∧ p.1 ≠ k := by
  unfold Obj.delete
  simp [List.mem_filter]

theorem filterMap_index_map_snd {α : Type} (o : Obj α) :
    (o.filterMap (fun p => (arrayIndex? p.1).map (fun n => (n, p)))).map (fun a => a.2)
      = o.filter (fun p => (arrayIndex? p.1).isSome) := by
  induction o with
  | nil => rfl
  | cons p o ih =>
    cases h : arrayIndex? p.1 with
    | none => simp [List.filterMap_cons, List.filter_cons, h, ih]
    | some n => simp [List.filterMap_cons, List.filter_cons, h, ih]

/-- `for ... in` visits every property exactly once. -/
theorem forInOrder_perm {α : Type} (o : Obj α) : (forInOrder o).Perm o := by
  unfold forInOrder
  have h1 : (((o.filterMap (fun p => (arrayIndex? p.1).map (fun n => (n, p)))).insertionSort
      (fun a b => a.1 ≤ b.1)).map (fun a => a.2)).Perm
      (o.filter (fun p => (arrayIndex? p.1).isSome)) := by
    rw [← filterMap_index_map_snd]
    exact (List.perm_insertionSort _ _).map _
  have h2 : (o.filter (fun p => (arrayIndex? p.1).isSome) ++
      o.filter (fun p => (arrayIndex? p.1).isNone)).Perm o := by
    have := List.filter_append_perm (fun p : String × α => (arrayIndex? p.1).isSome) o
    convert this using 3
    funext p
    cases arrayIndex? p.1 <;> rfl
  exact (h1.append_right _).trans h2

theorem mem_forInOrder {α : Type} (o : Obj α) (p : String × α) : p ∈ forInOrder o ↔ p ∈ o :=
  (forInOrder_perm o).mem_iff

theorem mem_forInKeys {α : Type} (o : Obj α) (k : String) :
    k ∈ forInKeys o ↔ k ∈ o.map (fun p => p.1) := by
  unfold forInKeys
  exact ((forInOrder_perm o).map _).mem_iff

/-- Without array-index keys, `for ... in` follows the creation order. -/
theorem forInOrder_eq_self {α : Type} (o : Obj α) (h : ∀ p ∈ o, arrayIndex? p.1 = none) :
    forInOrder o = o := by
  unfold forInOrder
  have h1 : o.filterMap (fun p => (arrayIndex? p.1).map (fun n => (n, p))) = [] := by
    rw [List.filterMap_eq_nil_iff]
    intro p hp
    simp [h p hp]
  have h2 : o.filter (fun p => (arrayIndex? p.1).isNone) = o := by
    rw [List.filter_eq_self]
    intro p hp
    simp [h p hp]
  rw [h1, h2]
  rfl

/-! ## Termination of `resolveContextSubLists` -/

theorem depth_le_menuDepth (m : List (String × Item)) (p : String × Item) (h : p ∈ m) :
    p.2.depth ≤ menuDepth m := by
  induction m with
  | nil => cases h
  | cons q m ih =>
    obtain ⟨k, i⟩ := q
    simp only [menuDepth]
    rcases List.mem_cons.1 h with h | h
    · subst h; exact le_max_left _ _
    · exact le_trans (ih h) (le_max_right _ _)

theorem menuDepth_le (m : List (String × Item)) (d : Nat) (h : ∀ p ∈ m, p.2.depth ≤ d) :
    menuDepth m ≤ d := by
  induction m with
  | nil => exact Nat.zero_le _
  | cons q m ih =>
    obtain ⟨k, i⟩ := q
    simp only [menuDepth]
    exact max_le (h (k, i) (List.mem_cons_self _ _))
      (ih (fun p hp => h p (List.mem_cons_of_mem _ hp)))

theorem depth_of_children (item : Item) (ch : Menu) (h : item.children = some ch) :
    item.depth = menuDepth ch + 1 := by
  obtain ⟨ty, ic, il, icl, cond, run, tg, c⟩ := item
  simp only [Item.children] at h
  subst h
  simp [Item.depth]

theorem pendingChildren_children (item : Item) (ch : Menu)
    (h : item.pendingChildren = some ch) : item.children = some ch := by
  unfold Item.pendingChildren at h
  split_ifs at h
  exact h

theorem subRank_makeSublist (ref : Nat) (item : Item) (ch : Menu)
    (h : item.children = some ch) : subRank (makeSublist ref ch) ≤ item.depth := by
  rw [depth_of_children item ch h]
  unfold subRank
  apply Nat.succ_le_succ
  apply menuDepth_le
  intro p hp
  unfold subMenu makeSublist at hp
  simp only [List.map_map, List.mem_map, Function.comp] at hp
  obtain ⟨q, hq, rfl⟩ := hp
  exact depth_le_menuDepth ch q ((mem_forInOrder ch q).1 hq)

theorem registryRank_le (reg : Obj (Obj Entry)) (d : Nat) (h : ∀ p ∈ reg, subRank p.2 ≤ d) :
    registryRank reg ≤ d := by
  induction reg with
  | nil => exact Nat.zero_le _
  | cons q reg ih =>
    simp only [registryRank]
    exact max_le (h q (List.mem_cons_self _ _))
      (ih (fun p hp => h p (List.mem_cons_of_mem _ hp)))

theorem subRank_le_registryRank (reg : Obj (Obj Entry)) (p : String × Obj Entry)
    (h : p ∈ reg) : subRank p.2 ≤ registryRank reg := by
  induction reg with
  | nil => cases h
  | cons q reg ih =>
    simp only [registryRank]
    rcases List.mem_cons.1 h with h | h
    · subst h; exact le_max_left _ _
    · exact le_trans (ih h) (le_max_right _ _)

theorem pendingEntry_depth (w : World) (name text : String) (entry : Entry)
    (h : pendingEntry w name text = some entry) :
    ∃ sub, (name, sub) ∈ w.contextSubLists ∧ entry._item.depth + 1 ≤ subRank sub := by
  unfold pendingEntry at h
  cases hs : Obj.lookup w.contextSubLists name with
  | none => rw [hs] at h; cases h
  | some sub =>
    rw [hs] at h
    change Obj.lookup sub text = some entry at h
    refine ⟨sub, obj_lookup_mem _ _ _ hs, ?_⟩
    have hm := obj_lookup_mem _ _ _ h
    unfold subRank
    apply Nat.succ_le_succ
    have : (text, entry._item) ∈ subMenu sub := by
      unfold subMenu
      exact List.mem_map.2 ⟨(text, entry), hm, rfl⟩
    exact depth_le_menuDepth _ _ this

/-- `makeContextMenuItem` on an item of depth below `d` keeps the rank
invariant: the sublist it may register has a rank below `d`. -/
theorem rankInv_mcmi (cfg : Config) (name : String) (item : Item) (w : World) (d : Nat)
    (keys : List String) (hd : item.depth < d) (h : RankInv d keys w.contextSubLists) :
    RankInv d keys (makeContextMenuItem cfg name item w).world.contextSubLists := by
  rcases mcmi_world cfg name item w with ⟨k, _, hw⟩ | ⟨ch, el, hch, hw⟩
  · rw [hw]; exact h
  · rw [hw]
    simp only [Res.world]
    intro p hp
    rcases obj_mem_set _ _ _ _ hp with hp | hp
    · exact h p hp
    · subst hp
      have := subRank_makeSublist w.nextRef item ch (pendingChildren_children item ch hch)
      simp only
      constructor
      · omega
      · intro he; omega

theorem rankInv_subListLoop (cfg : Config) (name divId : String) (d : Nat)
    (keys : List String) (texts : List String) (button : Option Nat) (items : List Element)
    (itemCount : Nat) (w : World) (h : RankInv d keys w.contextSubLists) :
    RankInv d keys
      (subListLoop cfg name divId texts button items itemCount w).world.contextSubLists := by
  induction texts generalizing button items itemCount w with
  | nil => exact h
  | cons text rest ih =>
    unfold subListLoop
    cases hpe : pendingEntry w name text with
    | none => exact h
    | some entry =>
      simp only
      obtain ⟨sub, hsub, hdep⟩ := pendingEntry_depth w name text entry hpe
      have hlt : entry._item.depth < d := by
        have := (h (name, sub) hsub).1
        simp only at this
        omega
      have hb := rankInv_mcmi cfg text entry._item w d keys hlt h
      cases hm : makeContextMenuItem cfg text entry._item w with
      | throw e w1 => rw [hm] at hb; exact hb
      | ok newItem w1 =>
        rw [hm] at hb
        simp only
        cases button with
        | some b => exact ih _ _ _ _ hb
        | none =>
          simp only
          cases pendingEntry w1 name text with
          | none => simp only; split <;> exact hb
          | some entry1 => exact ih _ _ _ _ hb

theorem finishSubmenu_registry (container divRef : Nat) (divId : String)
    (button : Option Nat) (items : List Element) (w : World) :
    (finishSubmenu container divRef divId button items w).contextSubLists = w.contextSubLists ∧
    (finishSubmenu container divRef divId button items w).submenuCount = w.submenuCount ∧
    (finishSubmenu container divRef divId button items w).nextRef = w.nextRef := by
  unfold finishSubmenu appendDiv
  cases button <;> exact ⟨rfl, rfl, rfl⟩

theorem rankInv_mono (d : Nat) (keys keys1 : List String) (reg : Obj (Obj Entry))
    (h : RankInv d keys reg) (hk : ∀ p ∈ reg, p.1 ∈ keys → p.1 ∈ keys1) :
    RankInv d keys1 reg :=
  fun p hp => ⟨(h p hp).1, fun he => hk p hp ((h p hp).2 he)⟩

theorem rankInv_beginSubmenu (d : Nat) (name : String) (rest : List String)
    (prev : Option String) (w : World)
    (h : RankInv d ((name :: rest) ++ prev.toList) w.contextSubLists) :
    RankInv d (rest ++ [name]) (beginSubmenu prev w).contextSubLists := by
  unfold beginSubmenu
  simp only
  cases prev with
  | none =>
    simp only
    refine rankInv_mono d _ _ _ h ?_
    intro p _ hk
    simp only [Option.toList, List.append_nil, List.mem_cons] at hk
    simp only [List.mem_append, List.mem_singleton]
    tauto
  | some q =>
    simp only
    intro p hp
    obtain ⟨hp1, hp2⟩ := (obj_mem_delete _ _ _).1 hp
    refine ⟨(h p hp1).1, fun he => ?_⟩
    have := (h p hp1).2 he
    simp only [Option.toList, List.mem_append, List.mem_cons, List.mem_singleton,
      List.not_mem_nil, or_false] at this
    simp only [List.mem_append, List.mem_singleton]
    rcases this with (h1 | h1) | h1
    · exact Or.inr h1
    · exact Or.inl h1
    · exact absurd h1 hp2

/-- The outer loop keeps the rank invariant, the keys that may still carry a
sublist of full rank being those left to visit and `prev`. -/
theorem rankInv_registryLoop (cfg : Config) (container : Nat) (d : Nat) (names : List String)
    (prev : Option String) (w : World)
    (h : RankInv d (names ++ prev.toList) w.contextSubLists)
    (prev1 : Option String) (w1 : World)
    (hr : registryLoop cfg container names prev w = .ok prev1 w1) :
    RankInv d prev1.toList w1.contextSubLists := by
  induction names generalizing prev w with
  | nil =>
    simp only [registryLoop, Res.ok.injEq] at hr
    obtain ⟨rfl, rfl⟩ := hr
    simpa using h
  | cons name rest ih =>
    unfold registryLoop at hr
    by_cases hh : Obj.has w.contextSubLists name = true
    · simp only [hh, if_true] at hr
      have h1 := rankInv_beginSubmenu d name rest prev w h
      have h2 := rankInv_subListLoop cfg name (submenuDivId (beginSubmenu prev w)) d
        (rest ++ [name]) (sublistKeys (beginSubmenu prev w) name) none [] 1
        (beginSubmenu prev w) h1
      cases hs : subListLoop cfg name (submenuDivId (beginSubmenu prev w))
        (sublistKeys (beginSubmenu prev w) name) none [] 1 (beginSubmenu prev w) with
      | throw e w2 => rw [hs] at hr; cases hr
      | ok r w2 =>
        rw [hs] at hr h2
        simp only at hr
        refine ih (some name) _ ?_ hr
        rw [(finishSubmenu_registry _ _ _ _ _ _).1]
        simpa using h2
    · simp only [hh, if_false] at hr
      refine ih prev w ?_ hr
      refine rankInv_mono d _ _ _ h ?_
      intro p hp hk
      have hne : p.1 ≠ name := by
        intro he
        apply hh
        rw [obj_has_iff]
        exact ⟨p.2, by rw [← he]; exact hp⟩
      simp only [List.cons_append, List.mem_cons] at hk
      rcases hk with hk | hk
      · exact absurd hk hne
      · exact hk

/-- A loop that has visited a key ends with `prev` set. -/
theorem registryLoop_prev_some (cfg : Config) (container : Nat) (names : List String)
    (p : String) (w : World) (prev1 : Option String) (w1 : World)
    (hr : registryLoop cfg container names (some p) w = .ok prev1 w1) : prev1 ≠ none := by
  induction names generalizing p w with
  | nil =>
    simp only [registryLoop, Res.ok.injEq] at hr
    rw [← hr.1]; simp
  | cons name rest ih =>
    unfold registryLoop at hr
    by_cases hh : Obj.has w.contextSubLists name = true
    · simp only [hh, if_true] at hr
      cases hs : subListLoop cfg name (submenuDivId (beginSubmenu (some p) w))
        (sublistKeys (beginSubmenu (some p) w) name) none [] 1 (beginSubmenu (some p) w) with
      | throw e w2 => rw [hs] at hr; cases hr
      | ok r w2 =>
        rw [hs] at hr
        exact ih name _ hr
    · simp only [hh, if_false] at hr
      exact ih p w hr

/-- A loop that ends with `prev` still `null` has visited nothing: the state is
unchanged and none of the keys was a property. -/
theorem registryLoop_prev_none (cfg : Config) (container : Nat) (names : List String)
    (w w1 : World) (hr : registryLoop cfg container names none w = .ok none w1) :
    w1 = w ∧ ∀ k ∈ names, Obj.has w.contextSubLists k = false := by
  induction names with
  | nil =>
    simp only [registryLoop, Res.ok.injEq, true_and] at hr
    exact ⟨hr.symm, by simp⟩
  | cons name rest ih =>
    unfold registryLoop at hr
    by_cases hh : Obj.has w.contextSubLists name = true
    · simp only [hh, if_true] at hr
      cases hs : subListLoop cfg name (submenuDivId (beginSubmenu none w))
        (sublistKeys (beginSubmenu none w) name) none [] 1 (beginSubmenu none w) with
      | throw e w2 => rw [hs] at hr; cases hr
      | ok r w2 =>
        rw [hs] at hr
        exact absurd rfl (registryLoop_prev_some cfg container rest name _ none w1 hr)
    · simp only [hh, if_false] at hr
      obtain ⟨h1, h2⟩ := ih hr
      refine ⟨h1, ?_⟩
      intro k hk
      rcases List.mem_cons.1 hk with hk | hk
      · subst hk; simpa using hh
      · exact h2 k hk

theorem registryRank_lt (reg : Obj (Obj Entry)) (d : Nat) (hd : 0 < d)
    (h : RankInv d [] reg) : registryRank reg < d := by
  have : registryRank reg ≤ d - 1 := by
    apply registryRank_le
    intro p hp
    have h1 := (h p hp).1
    have h2 := (h p hp).2
    have : subRank p.2 ≠ d := fun he => by simpa using h2 he
    omega
  omega

/-- With fuel above the rank of the pending sublists `resolveContextSubLists`
ends, and when it returns there is no pending sublist and the submenu counter
is 0. -/
theorem resolve_ends (cfg : Config) (container : Nat) (n : Nat) (w : World)
    (hn : registryRank w.contextSubLists < n) :
    ∃ r, resolveContextSubLists cfg container n w = some r ∧
      ∀ u w1, r = .ok u w1 → w1.contextSubLists = [] ∧ w1.submenuCount = 0 := by
  induction n generalizing w with
  | zero => omega
  | succ n ih =>
    unfold resolveContextSubLists
    have hinv : RankInv (registryRank w.contextSubLists)
        (forInKeys w.contextSubLists ++ (none : Option String).toList) w.contextSubLists := by
      intro p hp
      refine ⟨subRank_le_registryRank _ _ hp, fun _ => ?_⟩
      simp only [Option.toList, List.append_nil]
      rw [mem_forInKeys]
      exact List.mem_map.2 ⟨p, hp, rfl⟩
    cases hr : registryLoop cfg container (forInKeys w.contextSubLists) none w with
    | throw e w1 => exact ⟨_, rfl, fun u w2 h => by cases h⟩
    | ok prev w1 =>
      have hinv1 := rankInv_registryLoop cfg container _ _ none w hinv prev w1 hr
      cases prev with
      | none =>
        refine ⟨_, rfl, ?_⟩
        intro u w2 h
        simp only [Res.ok.injEq, true_and] at h
        subst h
        obtain ⟨hw, hk⟩ := registryLoop_prev_none cfg container _ w w1 hr
        subst hw
        refine ⟨?_, rfl⟩
        simp only
        cases hreg : w1.contextSubLists with
        | nil => rfl
        | cons p reg =>
          exfalso
          have hmem : p.1 ∈ forInKeys w1.contextSubLists := by
            rw [mem_forInKeys, hreg]; simp
          have := hk p.1 hmem
          have hhas : Obj.has w1.contextSubLists p.1 = true := by
            rw [obj_has_iff, hreg]; exact ⟨p.2, by simp⟩
          rw [hhas] at this; cases this
      | some p =>
        simp only
        have hpos : 0 < registryRank w.contextSubLists := by
          by_contra hz
          have hz : registryRank w.contextSubLists = 0 := by omega
          have hnil : w.contextSubLists = [] := by
            cases hreg : w.contextSubLists with
            | nil => rfl
            | cons q reg =>
              rw [hreg] at hz
              simp only [registryRank, subRank] at hz
              omega
          rw [hnil] at hr
          simp [forInKeys, forInOrder, registryLoop] at hr
        apply ih
        simp only
        have : RankInv (registryRank w.contextSubLists) []
            (Obj.delete w1.contextSubLists p) := by
          intro q hq
          obtain ⟨hq1, hq2⟩ := (obj_mem_delete _ _ _).1 hq
          refine ⟨(hinv1 q hq1).1, fun he => ?_⟩
          have := (hinv1 q hq1).2 he
          simp only [Option.toList, List.mem_singleton] at this
          exact absurd this hq2
        have := registryRank_lt _ _ hpos this
        omega

theorem resolve_fuel_mono (cfg : Config) (container : Nat) (n : Nat) (w : World) (r : Res Unit)
    (h : resolveContextSubLists cfg container n w = some r) :
    resolveContextSubLists cfg container (n + 1) w = some r := by
  induction n generalizing w with
  | zero => simp [resolveContextSubLists] at h
  | succ n ih =>
    unfold resolveContextSubLists at h ⊢
    cases hr : registryLoop cfg container (forInKeys w.contextSubLists) none w with
    | throw e w1 => rw [hr] at h; exact h
    | ok prev w1 =>
      rw [hr] at h
      cases prev with
      | none => exact h
      | some p => exact ih _ h

theorem resolve_fuel_le (cfg : Config) (container : Nat) (n m : Nat) (w : World) (r : Res Unit)
    (h : resolveContextSubLists cfg container n w = some r) (hnm : n ≤ m) :
    resolveContextSubLists cfg container m w = some r := by
  induction hnm with
  | refl => exact h
  | step _ ih => exact resolve_fuel_mono cfg container _ w r ih

/-- On every state (whatever the pending sublists) `resolveContextSubLists`
ends: with any recursion bound above the rank of the pending sublists it has
one and the same outcome, a normal return, an exception or the stop
`JSError.notModelled`, and when that outcome is a normal return
`contextSubLists` is empty and `submenuCount` is 0. Whether the outcome is a
normal return is not part of this statement. -/
theorem resolveContextSubLists_terminates (cfg : Config) (container : Nat) (w : World) :
    ∃ r, (∀ fuel, registryRank w.contextSubLists < fuel →
        resolveContextSubLists cfg container fuel w = some r) ∧
      ∀ u w1, r = .ok u w1 → w1.contextSubLists = [] ∧ w1.submenuCount = 0 := by
  obtain ⟨r, hr, hpost⟩ := resolve_ends cfg container (registryRank w.contextSubLists + 1) w
    (Nat.lt_succ_self _)
  exact ⟨r, fun fuel hf => resolve_fuel_le cfg container _ fuel w r hr hf, hpost⟩

/-! ## Building the items of one menu level -/

theorem pendingChildren_eq_none_of_type (item : Item) (h : item.type ≠ some "category") :
    item.pendingChildren = none := by
  unfold Item.pendingChildren
  rw [if_neg]
  rintro ⟨h1, _⟩
  exact h h1

theorem pendingChildren_category (item : Item) (h : item.type = some "category") :
    item.pendingChildren = if item.condition.getD true = true then item.children else none := by
  unfold Item.pendingChildren
  simp [h]

theorem pendingChildren_not_null (item : Item) (ch : Menu)
    (h : item.pendingChildren = some ch) : ¬ specNull item := by
  unfold Item.pendingChildren at h
  split_ifs at h with hc
  obtain ⟨hty, hcond⟩ := hc
  unfold specNull
  rw [hty]
  simp only
  rintro (h1 | h1 | h1)
  · exact h1.2.1 rfl
  · simp at h1
  · rw [h] at h1; simp at h1

/-- The outcome of `makeContextMenuItem` on an item that does not make
`makeButton` fail and whose label, if it registers a sublist, is not yet a key
of `contextSubLists`: `null` exactly for the dropped items, else an element
with the identity `w.nextRef` that renders the item; a category with pending
children adds its sublist at the end of `contextSubLists`. -/
theorem mcmi_step (cfg : Config) (name : String) (item : Item) (w : World)
    (hb : ¬ buttonFails cfg name item) (hp : ¬ setsPrototype name item)
    (hfresh : item.pendingChildren ≠ none → Obj.has w.contextSubLists name = false) :
    ∃ r n1, makeContextMenuItem cfg name item w = .ok r
        { w with nextRef := n1,
                 contextSubLists := w.contextSubLists ++ stepAdds r name item } ∧
      w.nextRef ≤ n1 ∧ (r = none ↔ specNull item) ∧
      ∀ el, r = some el → el.ref = w.nextRef ∧ n1 = w.nextRef + 1 ∧ Renders el name item := by
  unfold stepAdds
  cases hty : item.type with
  | none =>
    refine ⟨none, w.nextRef, ?_, le_refl _, by simp [specNull, hty], by simp⟩
    rw [mcmi_no_type cfg name item w hty]
    simp
  | some ty =>
    by_cases h1 : ty = "function"
    · subst h1
      have hpc := pendingChildren_eq_none_of_type item (by rw [hty]; simp)
      rcases makeButton_cases cfg name item w.nextRef (Or.inl hty) with ⟨hf, _⟩ | ⟨_, b0, hb0⟩
      · exact absurd hf hb
      · have hbo := makeButton_ok _ _ _ _ _ hb0
        cases hr : item.run with
        | none =>
          refine ⟨none, w.nextRef + 1, ?_, Nat.le_succ _, by simp [specNull, hty, hr],
            by simp⟩
          rw [mcmi_function cfg name item w b0 hty hb0, hr]
          simp
        | some r =>
          refine ⟨some (appendToggle cfg item.toggle
              (wireClick (styledButton b0 "function" (item.condition.getD true))
                (item.condition.getD true) r)), w.nextRef + 1, ?_, Nat.le_succ _,
            by simp [specNull, hty, hr], ?_⟩
          · rw [mcmi_function cfg name item w b0 hty hb0, hr, hpc]
            simp
          · intro el hel
            simp only [Option.some.injEq] at hel
            subst hel
            have h1 := appendToggle_props cfg item.toggle
              (wireClick (styledButton b0 "function" (item.condition.getD true))
                (item.condition.getD true) r)
            have h2 := wireClick_props (styledButton b0 "function" (item.condition.getD true))
              (item.condition.getD true) r
            have h3 := styledButton_props b0 "function" (item.condition.getD true)
            refine ⟨by rw [h1.1, h2.1, h3.1, hbo.1], rfl, ?_⟩
            unfold Renders
            rw [if_neg (by rw [hty]; simp)]
            exact ⟨by rw [h1.2.1, h2.2.1, h3.2.1, hbo.2.1],
              by rw [h1.2.2.2.2, h2.2.2.1, h3.2.2.2, hbo.2.2.2.2.2]⟩
    · by_cases h2 : ty = "category"
      · subst h2
        have hpc := pendingChildren_category item hty
        rcases makeButton_cases cfg name item w.nextRef (Or.inr hty) with
          ⟨hf, _⟩ | ⟨_, b0, hb0⟩
        · exact absurd hf hb
        · have hbo := makeButton_ok _ _ _ _ _ hb0
          have hlab : ∀ c, (appendIcon (styledButton b0 "category" c)
              (makeIcon "chevron_right" cfg.iconClass)).ref = w.nextRef ∧
              Renders (appendIcon (styledButton b0 "category" c)
                (makeIcon "chevron_right" cfg.iconClass)) name item := by
            intro c
            have h1 := appendIcon_makeIcon (styledButton b0 "category" c) "chevron_right"
              cfg.iconClass
            have h3 := styledButton_props b0 "category" c
            refine ⟨by rw [h1.1, h3.1, hbo.1], ?_⟩
            unfold Renders
            rw [if_neg (by rw [hty]; simp)]
            exact ⟨by rw [h1.2.1, h3.2.1, hbo.2.1],
              by rw [h1.2.2.2.2, h3.2.2.2, hbo.2.2.2.2.2]⟩
          cases hc : item.condition.getD true with
          | false =>
            have hcf := (getD_true_eq_false item.condition).1 hc
            rw [hc] at hpc
            simp only [Bool.false_eq_true, if_false] at hpc
            refine ⟨some (appendIcon (styledButton b0 "category" false)
                (makeIcon "chevron_right" cfg.iconClass)), w.nextRef + 1, ?_, Nat.le_succ _,
              by simp [specNull, hty, hcf], ?_⟩
            · rw [mcmi_category cfg name item w b0 hty hb0 hp, hc, hpc]
              simp
            · intro el hel
              simp only [Option.some.injEq] at hel
              subst hel
              exact ⟨(hlab false).1, rfl, (hlab false).2⟩
          | true =>
            have hcf : item.condition ≠ some false := by
              intro h; rw [h] at hc; simp at hc
            rw [hc] at hpc
            simp only [if_true] at hpc
            cases hch : item.children with
            | none =>
              refine ⟨none, w.nextRef + 1, ?_, Nat.le_succ _,
                by simp [specNull, hty, hcf, hch], by simp⟩
              rw [mcmi_category cfg name item w b0 hty hb0 hp, hc, hch]
              simp
            | some ch =>
              rw [hch] at hpc
              have hfr := hfresh (by rw [hpc]; simp)
              refine ⟨some (appendIcon (styledButton b0 "category" true)
                  (makeIcon "chevron_right" cfg.iconClass)), w.nextRef + 1, ?_, Nat.le_succ _,
                by simp [specNull, hty, hcf, hch], ?_⟩
              · rw [mcmi_category cfg name item w b0 hty hb0 hp, hc, hch, hpc]
                simp only [if_true, (hlab true).1]
                unfold Obj.set
                rw [hfr]
                simp [hbo.1]
              · intro el hel
                simp only [Option.some.injEq] at hel
                subst hel
                exact ⟨(hlab true).1, rfl, (hlab true).2⟩
      · have hpc := pendingChildren_eq_none_of_type item (by rw [hty]; simpa using h2)
        by_cases h3 : ty = "separator"
        · subst h3
          refine ⟨some (separatorElement w.nextRef), w.nextRef + 1, ?_, Nat.le_succ _,
            by simp [specNull, hty], ?_⟩
          · rw [mcmi_separator cfg name item w hty, hpc]
            simp
          · intro el hel
            simp only [Option.some.injEq] at hel
            subst hel
            refine ⟨rfl, rfl, ?_⟩
            unfold Renders
            rw [if_pos hty]
            exact ⟨rfl, rfl⟩
        · refine ⟨none, w.nextRef, ?_, le_refl _, by simp [specNull, hty, h1, h2, h3],
            by simp⟩
          rw [mcmi_unknown cfg name item w ty hty h1 h2 h3]
          simp

theorem validEntries_cons_null (t : String) (item : Item) (m : Menu) (h : specNull item) :
    validEntries ((t, item) :: m) = validEntries m := by
  simp [validEntries, List.filter_cons, h]

theorem validEntries_cons_valid (t : String) (item : Item) (m : Menu) (h : ¬ specNull item) :
    validEntries ((t, item) :: m) = (t, item) :: validEntries m := by
  simp [validEntries, List.filter_cons, h]

theorem regAdds_cons_null (items : List Element) (t : String) (item : Item) (m : Menu)
    (h : specNull item) : regAdds items ((t, item) :: m) = regAdds items m := by
  unfold regAdds
  rw [validEntries_cons_null t item m h]

theorem regAdds_cons_valid (e : Element) (items : List Element) (t : String) (item : Item)
    (m : Menu) (h : ¬ specNull item) :
    regAdds (e :: items) ((t, item) :: m) = stepAdds (some e) t item ++ regAdds items m := by
  unfold regAdds stepAdds
  rw [validEntries_cons_valid t item m h]
  cases hp : item.pendingChildren <;> simp [List.zip_cons_cons, List.filterMap_cons, hp]

theorem stepAdds_withId (el : Element) (i : String) (t : String) (item : Item) :
    stepAdds (some { el with id := i }) t item = stepAdds (some el) t item := by
  unfold stepAdds
  cases item.pendingChildren <;> rfl

theorem stepAdds_none (t : String) (item : Item) : stepAdds none t item = [] := by
  unfold stepAdds; rfl

theorem stepAdds_keys (r : Option Element) (t : String) (item : Item) :
    ∀ p ∈ stepAdds r t item, p.1 = t := by
  unfold stepAdds
  intro p hp
  split at hp
  · simp only [List.mem_singleton] at hp; rw [hp]
  · cases hp

theorem obj_has_append {α : Type} (a b : Obj α) (k : String) :
    Obj.has (a ++ b) k = (Obj.has a k || Obj.has b k) := by
  unfold Obj.has
  simp [List.any_append]

theorem obj_has_false_iff {α : Type} (o : Obj α) (k : String) :
    Obj.has o k = false ↔ ∀ p ∈ o, p.1 ≠ k := by
  unfold Obj.has
  simp

theorem renders_withId (el : Element) (i : String) (t : String) (item : Item)
    (h : Renders el t item) : Renders { el with id := i } t item := by
  unfold Renders at *
  exact h

/-- The root loop of `makeContextMenu` on a menu level whose items do not make
`makeButton` fail and whose category labels are new keys: it returns, the new
elements show the valid entries of the level, they have fresh, increasing
identities, and the sublists of the level's categories are appended to
`contextSubLists`. -/
theorem rootLoop_spec (cfg : Config) (m : Menu) (items0 : List Element) (ic : Nat) (w : World)
    (hb : ∀ p ∈ m, ¬ buttonFails cfg p.1 p.2 ∧ ¬ setsPrototype p.1 p.2)
    (hnd : (m.map (fun p => p.1)).Nodup)
    (hfresh : ∀ p ∈ m, p.2.pendingChildren ≠ none → Obj.has w.contextSubLists p.1 = false) :
    ∃ newItems n1, rootLoop cfg m items0 ic w = .ok (items0 ++ newItems)
        { w with nextRef := n1, contextSubLists := w.contextSubLists ++ regAdds newItems m } ∧
      w.nextRef ≤ n1 ∧ Shows newItems m ∧ (∀ e ∈ newItems, w.nextRef ≤ e.ref ∧ e.ref < n1) ∧
      (newItems.map (fun e => e.ref)).Nodup := by
  induction m generalizing items0 ic w with
  | nil =>
    refine ⟨[], w.nextRef, ?_, le_refl _, List.Forall₂.nil, by simp, List.nodup_nil⟩
    simp [rootLoop, regAdds]
  | cons q m ih =>
    obtain ⟨t, item⟩ := q
    obtain ⟨r, n1, hr, hle, hnull, hel⟩ := mcmi_step cfg t item w
      (hb (t, item) (List.mem_cons_self _ _)).1 (hb (t, item) (List.mem_cons_self _ _)).2
      (hfresh (t, item) (List.mem_cons_self _ _))
    have hnd' : (m.map (fun p => p.1)).Nodup := (List.nodup_cons.1 hnd).2
    have htn : ∀ p ∈ m, p.1 ≠ t := by
      intro p hp he
      exact (List.nodup_cons.1 hnd).1 (List.mem_map.2 ⟨p, hp, he⟩)
    obtain ⟨newItems, n2, hr2, hle2, hshow, hrefs, hnd2⟩ := ih
      (appendItem items0 "contextMenuMain" ic r) (ic + 1)
      { w with nextRef := n1, contextSubLists := w.contextSubLists ++ stepAdds r t item }
      (fun p hp => hb p (List.mem_cons_of_mem _ hp)) hnd'
      (by
        intro p hp hpc
        simp only [obj_has_append, Bool.or_eq_false_iff]
        refine ⟨hfresh p (List.mem_cons_of_mem _ hp) hpc, ?_⟩
        rw [obj_has_false_iff]
        intro x hx
        rw [stepAdds_keys r t item x hx]
        exact fun he => htn p hp he.symm)
    unfold rootLoop
    rw [hr]
    simp only
    rw [hr2]
    cases r with
    | none =>
      have hsn : specNull item := hnull.1 rfl
      refine ⟨newItems, n2, ?_, le_trans hle hle2, ?_, ?_, hnd2⟩
      · simp [appendItem, stepAdds_none, regAdds_cons_null _ _ _ _ hsn]
      · unfold Shows; rw [validEntries_cons_null t item m hsn]; exact hshow
      · intro e he
        have := hrefs e he
        simp only at this
        exact ⟨le_trans hle this.1, this.2⟩
    | some el =>
      have hsn : ¬ specNull item := fun h => by
        have := hnull.2 h; cases this
      obtain ⟨href, hn1, hren⟩ := hel el rfl
      refine ⟨{ el with id := itemId "contextMenuMain" ic } :: newItems, n2, ?_,
        le_trans hle hle2, ?_, ?_, ?_⟩
      · simp [appendItem, regAdds_cons_valid _ _ _ _ _ hsn, stepAdds_withId]
      · unfold Shows
        rw [validEntries_cons_valid t item m hsn]
        exact List.Forall₂.cons (renders_withId el _ t item hren) hshow
      · intro e he
        rcases List.mem_cons.1 he with he | he
        · subst he
          simp only
          simp only at hle2
          omega
        · have := hrefs e he
          simp only at this
          omega
      · simp only [List.map_cons, List.nodup_cons]
        refine ⟨?_, hnd2⟩
        intro hmem
        obtain ⟨e, he, hee⟩ := List.mem_map.1 hmem
        have := hrefs e he
        simp only at this hee
        omega

theorem obj_lookup_append_left {α : Type} (a b : Obj α) (k : String) (v : α)
    (h : Obj.lookup a k = some v) : Obj.lookup (a ++ b) k = some v := by
  unfold Obj.lookup at *
  rw [List.find?_append]
  cases hf : a.find? (fun p => decide (p.1 = k)) with
  | none => rw [hf] at h; cases h
  | some p => rw [hf] at h; simpa using h

theorem pendingEntry_of_lookup (w : World) (name t : String) (sub : Obj Entry) (en : Entry)
    (h1 : Obj.lookup w.contextSubLists name = some sub) (h2 : Obj.lookup sub t = some en) :
    pendingEntry w name t = some en := by
  unfold pendingEntry
  rw [h1]
  exact h2

/-- The inner loop of `resolveContextSubLists` over the entries `es` of the
pending sublist of `name`, under the same conditions as `rootLoop_spec`: it
returns, with the same description of the new elements and sublists; `button`
ends as the `_parent` of the first entry. -/
theorem subListLoop_spec (cfg : Config) (name divId : String) (sub : Obj Entry)
    (es : List (String × Entry)) (button : Option Nat) (items0 : List Element) (ic : Nat)
    (w : World)
    (hlook : Obj.lookup w.contextSubLists name = some sub)
    (hes : ∀ p ∈ es, Obj.lookup sub p.1 = some p.2)
    (hb : ∀ p ∈ es, ¬ buttonFails cfg p.1 p.2._item ∧ ¬ setsPrototype p.1 p.2._item)
    (hnd : (es.map (fun p => p.1)).Nodup)
    (hfresh : ∀ p ∈ es, p.2._item.pendingChildren ≠ none →
      Obj.has w.contextSubLists p.1 = false) :
    ∃ newItems n1,
      subListLoop cfg name divId (es.map (fun p => p.1)) button items0 ic w =
        .ok (button.or (es.head?.map (fun p => p.2._parent)), items0 ++ newItems)
          { w with nextRef := n1,
                   contextSubLists := w.contextSubLists ++ regAdds newItems (subMenu es) } ∧
      w.nextRef ≤ n1 ∧ Shows newItems (subMenu es) ∧
      (∀ e ∈ newItems, w.nextRef ≤ e.ref ∧ e.ref < n1) ∧
      (newItems.map (fun e => e.ref)).Nodup := by
  induction es generalizing button items0 ic w with
  | nil =>
    refine ⟨[], w.nextRef, ?_, le_refl _, List.Forall₂.nil, by simp, List.nodup_nil⟩
    cases button <;> simp [subListLoop, regAdds, subMenu]
  | cons q es ih =>
    obtain ⟨t, en⟩ := q
    have hsm : subMenu ((t, en) :: es) = (t, en._item) :: subMenu es := rfl
    obtain ⟨r, n1, hr, hle, hnull, hel⟩ := mcmi_step cfg t en._item w
      (hb (t, en) (List.mem_cons_self _ _)).1 (hb (t, en) (List.mem_cons_self _ _)).2
      (hfresh (t, en) (List.mem_cons_self _ _))
    have hnd' : (es.map (fun p => p.1)).Nodup := (List.nodup_cons.1 hnd).2
    have htn : ∀ p ∈ es, p.1 ≠ t := by
      intro p hp he
      exact (List.nodup_cons.1 hnd).1 (List.mem_map.2 ⟨p, hp, he⟩)
    have hpe : pendingEntry w name t = some en :=
      pendingEntry_of_lookup w name t sub en hlook (hes (t, en) (List.mem_cons_self _ _))
    have hlook1 : Obj.lookup (w.contextSubLists ++ stepAdds r t en._item) name = some sub :=
      obj_lookup_append_left _ _ _ _ hlook
    have hpe1 : pendingEntry
        { w with nextRef := n1, contextSubLists := w.contextSubLists ++ stepAdds r t en._item }
        name t = some en :=
      pendingEntry_of_lookup _ name t sub en hlook1 (hes (t, en) (List.mem_cons_self _ _))
    have hfresh1 : ∀ p ∈ es, p.2._item.pendingChildren ≠ none →
        Obj.has (w.contextSubLists ++ stepAdds r t en._item) p.1 = false := by
      intro p hp hpc
      simp only [obj_has_append, Bool.or_eq_false_iff]
      refine ⟨hfresh p (List.mem_cons_of_mem _ hp) hpc, ?_⟩
      rw [obj_has_false_iff]
      intro x hx
      rw [stepAdds_keys r t en._item x hx]
      exact fun he => htn p hp he.symm
    obtain ⟨newItems, n2, hr2, hle2, hshow, hrefs, hnd2⟩ := ih
      (button.or (some en._parent))
      (appendItem items0 divId ic r) (ic + 1)
      { w with nextRef := n1, contextSubLists := w.contextSubLists ++ stepAdds r t en._item }
      hlook1 (fun p hp => hes p (List.mem_cons_of_mem _ hp))
      (fun p hp => hb p (List.mem_cons_of_mem _ hp)) hnd' hfresh1
    have hloop : subListLoop cfg name divId (((t, en) :: es).map (fun p => p.1)) button items0
        ic w = subListLoop cfg name divId (es.map (fun p => p.1))
          (button.or (some en._parent))
          (appendItem items0 divId ic r) (ic + 1)
          { w with nextRef := n1,
                   contextSubLists := w.contextSubLists ++ stepAdds r t en._item } := by
      simp only [List.map_cons]
      rw [subListLoop]
      rw [hpe]
      simp only
      rw [hr]
      simp only
      cases button with
      | some b => rfl
      | none =>
        simp only
        rw [hpe1]
        rfl
    have hbut : (button.or (some en._parent)).or
          (es.head?.map (fun p : String × Entry => p.2._parent)) =
        button.or (((t, en) :: es).head?.map (fun p : String × Entry => p.2._parent)) := by
      cases button <;> rfl
    cases r with
    | none =>
      have hsn : specNull en._item := hnull.1 rfl
      refine ⟨newItems, n2, ?_, le_trans hle hle2, ?_, ?_, hnd2⟩
      · rw [hloop, hr2, hbut, hsm]
        simp [appendItem, stepAdds_none, regAdds_cons_null _ _ _ _ hsn]
      · unfold Shows; rw [hsm, validEntries_cons_null t en._item _ hsn]; exact hshow
      · intro e he
        have := hrefs e he
        simp only at this
        exact ⟨le_trans hle this.1, this.2⟩
    | some el =>
      have hsn : ¬ specNull en._item := fun h => by
        have := hnull.2 h; cases this
      obtain ⟨href, hn1, hren⟩ := hel el rfl
      refine ⟨{ el with id := itemId divId ic } :: newItems, n2, ?_,
        le_trans hle hle2, ?_, ?_, ?_⟩
      · rw [hloop, hr2, hbut, hsm]
        simp [appendItem, regAdds_cons_valid _ _ _ _ _ hsn, stepAdds_withId]
      · unfold Shows
        rw [hsm, validEntries_cons_valid t en._item _ hsn]
        exact List.Forall₂.cons (renders_withId el _ t en._item hren) hshow
      · intro e he
        rcases List.mem_cons.1 he with he | he
        · subst he
          simp only
          simp only at hle2
          omega
        · have := hrefs e he
          simp only at this
          omega
      · simp only [List.map_cons, List.nodup_cons]
        refine ⟨?_, hnd2⟩
        intro hmem
        obtain ⟨e, he, hee⟩ := List.mem_map.1 hmem
        have := hrefs e he
        simp only at this hee
        omega

/-! ## The categories of a tree and the pending sublists -/

theorem itemCats_eq (name : String) (item : Item) :
    itemCats name item =
      match item.pendingChildren with
      | some ch => (name, ch) :: menuCats ch
      | none => [] := by
  obtain ⟨ty, ic, il, icl, cond, run, tg, ch⟩ := item
  cases ch with
  | none => simp [itemCats, Item.pendingChildren, Item.children]
  | some ch =>
    by_cases h : ty = some "category" ∧ cond.getD true = true
    · simp [itemCats, Item.pendingChildren, Item.children, Item.type, Item.condition, h]
    · simp only [itemCats, Item.pendingChildren, Item.children, Item.type, Item.condition]
      rw [if_neg h, if_neg h]

theorem menuCats_cons (t : String) (item : Item) (m : Menu) :
    menuCats ((t, item) :: m) = itemCats t item ++ menuCats m := by
  simp [menuCats]

theorem mem_menuCats_of_pending (m : Menu) (t : String) (item : Item) (ch : Menu)
    (hm : (t, item) ∈ m) (hp : item.pendingChildren = some ch) :
    (t, ch) ∈ menuCats m ∧ ∀ x ∈ menuCats ch, x ∈ menuCats m := by
  induction m with
  | nil => cases hm
  | cons q m ih =>
    obtain ⟨t1, item1⟩ := q
    rw [menuCats_cons]
    rcases List.mem_cons.1 hm with h | h
    · simp only [Prod.mk.injEq] at h
      obtain ⟨rfl, rfl⟩ := h
      rw [itemCats_eq, hp]
      exact ⟨by simp, fun x hx => by simp [hx]⟩
    · obtain ⟨h1, h2⟩ := ih h
      exact ⟨List.mem_append_right _ h1, fun x hx => List.mem_append_right _ (h2 x hx)⟩

theorem subMenu_makeSublist (ref : Nat) (ch : Menu) :
    subMenu (makeSublist ref ch) = forInOrder ch := by
  unfold subMenu makeSublist
  rw [List.map_map]
  conv_rhs => rw [← List.map_id (forInOrder ch)]
  rfl

theorem subMenu_keys (sub : Obj Entry) :
    (subMenu sub).map (fun p => p.1) = sub.map (fun p => p.1) := by
  unfold subMenu
  simp [List.map_map, Function.comp]

theorem makeSublist_parent (ref : Nat) (ch : Menu) :
    ∀ q ∈ makeSublist ref ch, q.2._parent = ref := by
  intro q hq
  unfold makeSublist at hq
  obtain ⟨x, _, rfl⟩ := List.mem_map.1 hq
  rfl

theorem mem_validEntries (m : Menu) (p : String × Item) (h : p ∈ validEntries m) : p ∈ m :=
  (List.mem_filter.1 h).1

theorem mem_regAdds (items : List Element) (m : Menu) (p : String × Obj Entry)
    (h : p ∈ regAdds items m) :
    ∃ e item ch, (e, (p.1, item)) ∈ List.zip items (validEntries m) ∧
      item.pendingChildren = some ch ∧ p.2 = makeSublist e.ref ch := by
  unfold regAdds at h
  obtain ⟨x, hx, hxp⟩ := List.mem_filterMap.1 h
  obtain ⟨e, t, item⟩ := x
  cases hpc : item.pendingChildren with
  | none => simp [hpc] at hxp
  | some ch =>
    simp only [hpc, Option.map_some', Option.some.injEq] at hxp
    subst hxp
    exact ⟨e, item, ch, hx, hpc, rfl⟩

/-- The sublists registered while a level was built stand for exactly the
categories of that level's menu. -/
theorem regAdds_cats (items : List Element) (m : Menu) (hs : Shows items m)
    (hidx : ∀ p ∈ m, ∀ ch, p.2.pendingChildren = some ch → forInOrder ch = ch) :
    (regAdds items m).flatMap pendingCats = menuCats m := by
  induction m generalizing items with
  | nil => simp [regAdds, validEntries, menuCats]
  | cons q m ih =>
    obtain ⟨t, item⟩ := q
    rw [menuCats_cons, itemCats_eq]
    have hidx' : ∀ p ∈ m, ∀ ch, p.2.pendingChildren = some ch → forInOrder ch = ch :=
      fun p hp => hidx p (List.mem_cons_of_mem _ hp)
    by_cases hsn : specNull item
    · have hpc : item.pendingChildren = none := by
        cases h : item.pendingChildren with
        | none => rfl
        | some ch => exact absurd hsn (pendingChildren_not_null item ch h)
      rw [regAdds_cons_null _ _ _ _ hsn, hpc]
      unfold Shows at hs
      rw [validEntries_cons_null t item m hsn] at hs
      simpa using ih items hs hidx'
    · unfold Shows at hs
      rw [validEntries_cons_valid t item m hsn] at hs
      cases hs with
      | cons hren hrest =>
        rename_i e items'
        rw [regAdds_cons_valid _ _ _ _ _ hsn, List.flatMap_append, ih items' hrest hidx']
        unfold stepAdds
        cases hpc : item.pendingChildren with
        | none => simp
        | some ch =>
          simp only [List.flatMap_cons, List.flatMap_nil, List.append_nil, pendingCats]
          rw [subMenu_makeSublist, hidx (t, item) (List.mem_cons_self _ _) ch hpc]

theorem obj_lookup_of_mem_nodup {α : Type} (o : Obj α) (p : String × α)
    (hnd : (o.map (fun p => p.1)).Nodup) (hp : p ∈ o) : Obj.lookup o p.1 = some p.2 := by
  induction o with
  | nil => cases hp
  | cons q o ih =>
    unfold Obj.lookup
    simp only [List.map_cons, List.nodup_cons] at hnd
    rcases List.mem_cons.1 hp with h | h
    · subst h
      simp [List.find?_cons]
    · have hne : q.1 ≠ p.1 := by
        intro he
        apply hnd.1
        rw [he]
        exact List.mem_map.2 ⟨p, h, rfl⟩
      simp only [List.find?_cons, hne, decide_False]
      exact ih hnd.2 h

theorem obj_lookup_head {α : Type} (k : String) (v : α) (o : Obj α) :
    Obj.lookup ((k, v) :: o) k = some v := by
  unfold Obj.lookup
  simp [List.find?_cons]

theorem obj_delete_head {α : Type} (k : String) (v : α) (o : Obj α)
    (h : ∀ p ∈ o, p.1 ≠ k) : Obj.delete ((k, v) :: o) k = o := by
  unfold Obj.delete
  have : o.filter (fun p => decide (p.1 ≠ k)) = o := by
    rw [List.filter_eq_self]
    intro p hp
    simpa using h p hp
  simp only [List.filter_cons, ne_eq, not_true_eq_false, decide_False]
  simpa using fun a b hab => h (a, b) hab

theorem forInKeys_eq_keys {α : Type} (o : Obj α) (h : ∀ p ∈ o, arrayIndex? p.1 = none) :
    forInKeys o = o.map (fun p => p.1) := by
  unfold forInKeys
  rw [forInOrder_eq_self o h]

/-! ## `for ... in` and the values of an object -/

theorem perm_eq_of_keys {α : Type} (l1 l2 : Obj α) (hp : l1.Perm l2)
    (hk : l1.map (fun p => p.1) = l2.map (fun p => p.1))
    (hnd : (l2.map (fun p => p.1)).Nodup) : l1 = l2 := by
  induction l2 generalizing l1 with
  | nil => exact hp.eq_nil
  | cons b l2 ih =>
    cases l1 with
    | nil => cases hk
    | cons a l1 =>
      simp only [List.map_cons, List.cons.injEq] at hk
      simp only [List.map_cons, List.nodup_cons] at hnd
      have hab : a = b := by
        have ha : a ∈ b :: l2 := hp.subset (List.mem_cons_self _ _)
        rcases List.mem_cons.1 ha with h | h
        · exact h
        · exfalso
          apply hnd.1
          rw [← hk.1]
          exact List.mem_map.2 ⟨a, h, rfl⟩
      subst hab
      rw [ih l1 (List.Perm.cons_inv hp) hk.2 hnd.2]

/-- When `for ... in` visits the keys in creation order, it visits the
properties in creation order. -/
theorem forInOrder_eq_of_keys {α : Type} (o : Obj α) (hnd : (o.map (fun p => p.1)).Nodup)
    (hk : forInKeys o = o.map (fun p => p.1)) : forInOrder o = o :=
  perm_eq_of_keys _ _ (forInOrder_perm o) hk hnd

/-- The order of `for ... in` depends on the keys alone. -/
theorem forInOrder_map_values {α β : Type} (f : α → β) (o : Obj α) :
    forInOrder (o.map (fun p => (p.1, f p.2)))
      = (forInOrder o).map (fun p => (p.1, f p.2)) := by
  have h1 : (o.map (fun p => (p.1, f p.2))).filterMap
        (fun p : String × β => (arrayIndex? p.1).map (fun n => (n, p)))
      = (o.filterMap (fun p : String × α => (arrayIndex? p.1).map (fun n => (n, p)))).map
          (fun a => (a.1, (a.2.1, f a.2.2))) := by
    induction o with
    | nil => rfl
    | cons p o ih =>
      cases h : arrayIndex? p.1 with
      | none => simp [List.filterMap_cons, h, ih]
      | some n => simp [List.filterMap_cons, h, ih]
  have h2 : (o.map (fun p => (p.1, f p.2))).filter
        (fun p : String × β => (arrayIndex? p.1).isNone)
      = (o.filter (fun p : String × α => (arrayIndex? p.1).isNone)).map
          (fun p => (p.1, f p.2)) := by
    rw [List.filter_map]
    rfl
  have h3 := List.map_insertionSort (fun a b : Nat × String × α => a.1 ≤ b.1)
    (fun a b : Nat × String × β => a.1 ≤ b.1)
    (fun a : Nat × String × α => (a.1, (a.2.1, f a.2.2)))
    (o.filterMap (fun p : String × α => (arrayIndex? p.1).map (fun n => (n, p))))
    (fun a _ b _ => Iff.rfl)
  unfold forInOrder
  rw [h1, h2, ← h3, List.map_append, List.map_map, List.map_map]
  rfl

theorem forInKeys_map_values {α β : Type} (f : α → β) (o : Obj α) :
    forInKeys (o.map (fun p => (p.1, f p.2))) = forInKeys o := by
  unfold forInKeys
  rw [forInOrder_map_values, List.map_map]
  rfl

theorem forInOrder_subMenu (sub : Obj Entry) :
    forInOrder (subMenu sub) = subMenu (forInOrder sub) :=
  forInOrder_map_values (fun e : Entry => e._item) sub

theorem forInOrder_regCats (reg : Obj (Obj Entry)) :
    forInOrder (regCats reg) = regCats (forInOrder reg) :=
  forInOrder_map_values subMenu reg

theorem regCats_keys (reg : Obj (Obj Entry)) :
    (regCats reg).map (fun p => p.1) = reg.map (fun p => p.1) := by
  unfold regCats
  rw [List.map_map]
  rfl

theorem regCats_append (a b : Obj (Obj Entry)) : regCats (a ++ b) = regCats a ++ regCats b := by
  simp [regCats]

theorem regCats_delete (reg : Obj (Obj Entry)) (k : String) :
    regCats (Obj.delete reg k) = (regCats reg).filter (fun p => p.1 ≠ k) := by
  unfold regCats Obj.delete
  rw [List.filter_map]
  rfl

/-! ## The levels of a well-formed tree -/

theorem levelsOf_append (menu : Menu) (main : MenuDiv) (built : List (MenuDiv × String × Menu))
    (b : MenuDiv × String × Menu) :
    levelsOf menu main (built ++ [b]) = levelsOf menu main built ++ [(b.1, b.2.2)] := by
  simp [levelsOf]

theorem anchored_mono (lv lv1 : List (MenuDiv × Menu)) (d : MenuDiv) (name : String)
    (ch : Menu) (hsub : ∀ l ∈ lv, l ∈ lv1) (h : Anchored lv d name ch) :
    Anchored lv1 d name ch := by
  refine ⟨h.1, fun hne => ?_⟩
  obtain ⟨l, hl, e, item, hz, hp, ha⟩ := h.2 hne
  exact ⟨l, hsub l hl, e, item, hz, hp, ha⟩

theorem mem_effective (prev : Option String) (reg : Obj (Obj Entry)) (p : String × Obj Entry)
    (h : p ∈ effective prev reg) : p ∈ reg := by
  unfold effective at h
  cases prev with
  | none => exact h
  | some q => exact ((obj_mem_delete _ _ _).1 h).1

theorem beginSubmenu_registry (prev : Option String) (w : World) :
    (beginSubmenu prev w).contextSubLists = effective prev w.contextSubLists ∧
    (beginSubmenu prev w).nextRef = w.nextRef + 1 ∧
    (beginSubmenu prev w).document = w.document := by
  unfold beginSubmenu effective
  cases prev <;> exact ⟨rfl, rfl, rfl⟩

/-- Every category a pending sublist stands for is a category of the tree. -/
theorem pendingCats_sub (menu : Menu) (main : MenuDiv)
    (built : List (MenuDiv × String × Menu)) (reg : Obj (Obj Entry)) (n : Nat)
    (inv : BuildInv menu main built reg n) (p : String × Obj Entry) (hp : p ∈ reg) :
    ∀ x ∈ pendingCats p, x ∈ menuCats menu := by
  intro x hx
  apply inv.account.mem_iff.1
  apply List.mem_append_right
  exact List.mem_flatMap.2 ⟨p, hp, hx⟩

theorem levelOk_of_cat (cfg : Config) (menu : Menu) (hwf : WellFormed cfg menu)
    (x : String × Menu) (hx : x ∈ menuCats menu) : LevelOk cfg x.2 := by
  apply hwf.1
  unfold levels
  exact List.mem_cons_of_mem _ (List.mem_map.2 ⟨x, hx, rfl⟩)

theorem levelOk_forIn (cfg : Config) (m : Menu) (h : LevelOk cfg m) : forInOrder m = m :=
  forInOrder_eq_of_keys m h.1 h.2.1

theorem level_of_pending (cfg : Config) (menu : Menu) (main : MenuDiv)
    (built : List (MenuDiv × String × Menu)) (reg : Obj (Obj Entry)) (n : Nat)
    (hwf : WellFormed cfg menu) (inv : BuildInv menu main built reg n)
    (p : String × Obj Entry) (hp : p ∈ reg) : LevelOk cfg (subMenu p.2) :=
  levelOk_of_cat cfg menu hwf (p.1, subMenu p.2)
    (pendingCats_sub menu main built reg n inv p hp _ (by simp [pendingCats]))

theorem forIn_of_cat (cfg : Config) (menu : Menu) (hwf : WellFormed cfg menu)
    (x : String × Menu) (hx : x ∈ menuCats menu) : forInOrder x.2 = x.2 :=
  levelOk_forIn cfg x.2 (levelOk_of_cat cfg menu hwf x hx)

/-! ## The categories of a level -/

theorem mem_childCats (m : Menu) (x : String × Menu) :
    x ∈ childCats m ↔ ∃ item, (x.1, item) ∈ m ∧ item.pendingChildren = some x.2 := by
  unfold childCats
  rw [List.mem_filterMap]
  constructor
  · rintro ⟨p, hp, h⟩
    cases hpc : p.2.pendingChildren with
    | none => rw [hpc] at h; cases h
    | some ch =>
      rw [hpc] at h
      simp only [Option.map_some', Option.some.injEq] at h
      subst h
      exact ⟨p.2, hp, hpc⟩
  · rintro ⟨item, hm, hpc⟩
    exact ⟨(x.1, item), hm, by simp [hpc]⟩

theorem childCats_keys_sublist (m : Menu) :
    List.Sublist ((childCats m).map (fun p => p.1)) (m.map (fun p => p.1)) := by
  induction m with
  | nil => exact List.Sublist.slnil
  | cons q m ih =>
    unfold childCats at ih ⊢
    rw [List.filterMap_cons]
    cases hpc : q.2.pendingChildren with
    | none => simpa using List.Sublist.cons q.1 ih
    | some ch => simpa using List.Sublist.cons₂ q.1 ih

theorem childCats_nodup (m : Menu) (h : (m.map (fun p => p.1)).Nodup) :
    ((childCats m).map (fun p => p.1)).Nodup :=
  h.sublist (childCats_keys_sublist m)

/-- The sublists registered while a level was built stand for the categories
of the level, in order. -/
theorem regCats_regAdds (items : List Element) (m : Menu) (hs : Shows items m)
    (hidx : ∀ p ∈ m, ∀ ch, p.2.pendingChildren = some ch → forInOrder ch = ch) :
    regCats (regAdds items m) = childCats m := by
  induction m generalizing items with
  | nil => simp [regAdds, validEntries, childCats, regCats]
  | cons q m ih =>
    obtain ⟨t, item⟩ := q
    have hidx' : ∀ p ∈ m, ∀ ch, p.2.pendingChildren = some ch → forInOrder ch = ch :=
      fun p hp => hidx p (List.mem_cons_of_mem _ hp)
    have hcc : childCats ((t, item) :: m)
        = (item.pendingChildren.map (fun ch => (t, ch))).toList ++ childCats m := by
      unfold childCats
      rw [List.filterMap_cons]
      cases item.pendingChildren <;> rfl
    rw [hcc]
    by_cases hsn : specNull item
    · have hpc : item.pendingChildren = none := by
        cases h : item.pendingChildren with
        | none => rfl
        | some ch => exact absurd hsn (pendingChildren_not_null item ch h)
      rw [regAdds_cons_null _ _ _ _ hsn, hpc]
      unfold Shows at hs
      rw [validEntries_cons_null t item m hsn] at hs
      simpa using ih items hs hidx'
    · unfold Shows at hs
      rw [validEntries_cons_valid t item m hsn] at hs
      cases hs with
      | cons hren hrest =>
        rename_i e items'
        rw [regAdds_cons_valid _ _ _ _ _ hsn, regCats_append, ih items' hrest hidx']
        unfold stepAdds
        cases hpc : item.pendingChildren with
        | none => simp [regCats]
        | some ch =>
          simp only [regCats, List.map_cons, List.map_nil, Option.map_some', Option.toList]
          rw [subMenu_makeSublist, hidx (t, item) (List.mem_cons_self _ _) ch hpc]

theorem regAdds_keys_nodup (items : List Element) (m : Menu) (hs : Shows items m)
    (hidx : ∀ p ∈ m, ∀ ch, p.2.pendingChildren = some ch → forInOrder ch = ch)
    (hnd : (m.map (fun p => p.1)).Nodup) :
    ((regAdds items m).map (fun p => p.1)).Nodup := by
  rw [← regCats_keys, regCats_regAdds items m hs hidx]
  exact childCats_nodup m hnd

/-! ## Deleting a pending sublist -/

theorem perm_cons_delete {α : Type} (o : Obj α) (p : String × α)
    (hnd : (o.map (fun q => q.1)).Nodup) (hp : p ∈ o) :
    o.Perm (p :: Obj.delete o p.1) := by
  induction o with
  | nil => cases hp
  | cons q o ih =>
    simp only [List.map_cons, List.nodup_cons] at hnd
    rcases List.mem_cons.1 hp with h | h
    · subst h
      rw [obj_delete_head p.1 p.2 o]
      intro x hx he
      exact hnd.1 (by rw [← he]; exact List.mem_map.2 ⟨x, hx, rfl⟩)
    · have hne : q.1 ≠ p.1 := by
        intro he
        apply hnd.1
        rw [he]
        exact List.mem_map.2 ⟨p, h, rfl⟩
      have hd : Obj.delete (q :: o) p.1 = q :: Obj.delete o p.1 := by
        unfold Obj.delete
        simp [List.filter_cons, hne]
      rw [hd]
      exact ((ih hnd.2 h).cons q).trans (List.Perm.swap _ _ _)

theorem delete_keys_sublist {α : Type} (o : Obj α) (k : String) :
    List.Sublist ((Obj.delete o k).map (fun p => p.1)) (o.map (fun p => p.1)) := by
  unfold Obj.delete
  exact (List.filter_sublist o).map _

theorem delete_append {α : Type} (a b : Obj α) (k : String) (h : ∀ p ∈ b, p.1 ≠ k) :
    Obj.delete (a ++ b) k = Obj.delete a k ++ b := by
  unfold Obj.delete
  rw [List.filter_append]
  congr 1
  rw [List.filter_eq_self]
  intro p hp
  simpa using h p hp

/-! ## One iteration of the outer loop on a well-formed tree -/

/-- One iteration of the outer loop of `resolveContextSubLists` on a
well-formed tree, for the pending sublist `(name, sub)` among the pending
sublists `reg`, when none of the categories of the level has the label of a
pending sublist: the inner loop returns, and after `finishSubmenu` the
container holds one more level, built from `sub`; once `name` is deleted the
pending sublists are the others followed by those of that level's categories,
and the build invariant holds again. -/
theorem submenu_step (cfg : Config) (menu : Menu) (container : Nat) (main : MenuDiv)
    (built : List (MenuDiv × String × Menu)) (name : String) (sub : Obj Entry)
    (reg : Obj (Obj Entry)) (prev : Option String) (w : World) (c : Container)
    (hwf : WellFormed cfg menu)
    (heff : effective prev w.contextSubLists = reg)
    (hmem : (name, sub) ∈ reg)
    (hnd : (reg.map (fun p => p.1)).Nodup)
    (hclear : ∀ x ∈ childCats (subMenu sub), x.1 ∉ reg.map (fun p => p.1))
    (hdoc : w.document = [c]) (hcref : c.ref = container)
    (hch : c.children = main :: built.map (fun b => b.1))
    (inv : BuildInv menu main built reg w.nextRef) :
    Obj.has w.contextSubLists name = true ∧
    ∃ r w2 d adds c1,
      subListLoop cfg name (submenuDivId (beginSubmenu prev w))
        (sublistKeys (beginSubmenu prev w) name) none [] 1 (beginSubmenu prev w) = .ok r w2 ∧
      effective (some name)
        (finishSubmenu container w.nextRef (submenuDivId (beginSubmenu prev w)) r.1 r.2
          w2).contextSubLists = Obj.delete reg name ++ adds ∧
      regCats adds = childCats (subMenu sub) ∧
      ((Obj.delete reg name ++ adds).map (fun p => p.1)).Nodup ∧
      (finishSubmenu container w.nextRef (submenuDivId (beginSubmenu prev w)) r.1 r.2
          w2).document = [c1] ∧
      c1.ref = container ∧
      c1.children = main :: (built ++ [(d, name, subMenu sub)]).map (fun b => b.1) ∧
      BuildInv menu main (built ++ [(d, name, subMenu sub)]) (Obj.delete reg name ++ adds)
        (finishSubmenu container w.nextRef (submenuDivId (beginSubmenu prev w)) r.1 r.2
          w2).nextRef := by
  have hhas : Obj.has w.contextSubLists name = true := by
    rw [obj_has_iff]
    exact ⟨sub, mem_effective prev _ _ (by rw [heff]; exact hmem)⟩
  refine ⟨hhas, ?_⟩
  obtain ⟨hb1, hb2, hb3⟩ := beginSubmenu_registry prev w
  rw [heff] at hb1
  -- facts on the level being built
  obtain ⟨hndm, hfk, hlevel⟩ := level_of_pending cfg menu main built _ _ hwf inv (name, sub) hmem
  simp only at hndm hfk hlevel
  have hnds : (sub.map (fun p => p.1)).Nodup := by rw [← subMenu_keys]; exact hndm
  have hsubm : ∀ q ∈ sub, (q.1, q.2._item) ∈ subMenu sub := by
    intro q hq
    unfold subMenu
    exact List.mem_map.2 ⟨q, hq, rfl⟩
  have hbf : ∀ q ∈ sub, ¬ buttonFails cfg q.1 q.2._item ∧ ¬ setsPrototype q.1 q.2._item :=
    fun q hq => hlevel _ (hsubm q hq)
  have hcats : ∀ x ∈ menuCats (subMenu sub), x ∈ menuCats menu := by
    intro x hx
    exact pendingCats_sub menu main built _ _ inv (name, sub) hmem x
      (by simp [pendingCats, hx])
  have horder : ∀ p ∈ subMenu sub, ∀ ch, p.2.pendingChildren = some ch →
      forInOrder ch = ch := by
    intro p hp ch hpc
    exact forIn_of_cat cfg menu hwf (p.1, ch)
      (hcats _ (mem_menuCats_of_pending _ _ _ _ hp hpc).1)
  -- the labels registered are new
  have hfresh : ∀ q ∈ sub, q.2._item.pendingChildren ≠ none →
      Obj.has (beginSubmenu prev w).contextSubLists q.1 = false := by
    intro q hq hpc
    obtain ⟨ch, hch'⟩ := Option.ne_none_iff_exists'.1 hpc
    have hq1 : (q.1, ch) ∈ childCats (subMenu sub) :=
      (mem_childCats _ _).2 ⟨q.2._item, hsubm q hq, hch'⟩
    have := hclear _ hq1
    rw [hb1]
    cases hh : Obj.has reg q.1 with
    | false => rfl
    | true => exact absurd ((obj_has_iff_keys reg q.1).1 hh) this
  have hname : name ∈ reg.map (fun p => p.1) := List.mem_map.2 ⟨(name, sub), hmem, rfl⟩
  have hlook : Obj.lookup (beginSubmenu prev w).contextSubLists name = some sub := by
    rw [hb1]; exact obj_lookup_of_mem_nodup reg (name, sub) hnd hmem
  have hkeys : sublistKeys (beginSubmenu prev w) name = sub.map (fun p => p.1) := by
    unfold sublistKeys
    rw [hlook]
    simp only
    have h1 : forInKeys sub = forInKeys (subMenu sub) :=
      (forInKeys_map_values (fun e : Entry => e._item) sub).symm
    rw [h1, hfk, subMenu_keys]
  obtain ⟨newItems, n1, hr, hle, hshow, hrefs, hndi⟩ := subListLoop_spec cfg name
    (submenuDivId (beginSubmenu prev w)) sub sub none [] 1 (beginSubmenu prev w) hlook
    (fun p hp => obj_lookup_of_mem_nodup sub p hnds hp) hbf hnds hfresh
  rw [← hkeys] at hr
  rw [hb2] at hle hrefs
  simp only [List.nil_append, Option.none_or] at hr
  have hadds : regCats (regAdds newItems (subMenu sub)) = childCats (subMenu sub) :=
    regCats_regAdds _ _ hshow horder
  have haddk : ∀ p ∈ regAdds newItems (subMenu sub), p.1 ∉ reg.map (fun p => p.1) := by
    intro p hp
    have : (p.1, subMenu p.2) ∈ regCats (regAdds newItems (subMenu sub)) :=
      List.mem_map.2 ⟨p, hp, rfl⟩
    rw [hadds] at this
    exact hclear _ this
  -- the new level
  refine ⟨_, _, submenuDiv w.nextRef (submenuDivId (beginSubmenu prev w))
      (sub.head?.map (fun p => p.2._parent)) newItems,
    regAdds newItems (subMenu sub), { c with children := c.children ++
      [submenuDiv w.nextRef (submenuDivId (beginSubmenu prev w))
        (sub.head?.map (fun p => p.2._parent)) newItems] },
    hr, ?_, hadds, ?_, ?_, hcref, ?_, ?_⟩
  · rw [(finishSubmenu_registry _ _ _ _ _ _).1]
    simp only [hb1, effective]
    apply delete_append
    intro p hp he
    exact haddk p hp (by rw [he]; exact hname)
  · rw [List.map_append]
    apply List.Nodup.append (hnd.sublist (delete_keys_sublist reg name))
    · rw [← regCats_keys, hadds]
      exact childCats_nodup _ hndm
    · intro k hk1 hk2
      obtain ⟨p, hp, rfl⟩ := List.mem_map.1 hk2
      exact haddk p hp ((delete_keys_sublist reg name).subset hk1)
  · unfold finishSubmenu appendDiv
    cases sub.head?.map (fun p => p.2._parent) <;> simp [hb3, hdoc, hcref]
  · simp [hch]
  · rw [(finishSubmenu_registry _ _ _ _ _ _).2.2]
    simp only
    have hlv := levelsOf_append menu main built
      (submenuDiv w.nextRef (submenuDivId (beginSubmenu prev w))
        (sub.head?.map (fun p => p.2._parent)) newItems, name, subMenu sub)
    simp only at hlv
    constructor
    · -- shows
      intro l hl
      rw [hlv] at hl
      rcases List.mem_append.1 hl with hl | hl
      · exact inv.shows l hl
      · simp only [List.mem_singleton] at hl
        subst hl
        exact hshow
    · -- anchored
      intro b hb
      rw [hlv]
      rcases List.mem_append.1 hb with hb | hb
      · exact anchored_mono _ _ _ _ _ (fun l hl => List.mem_append_left _ hl)
          (inv.anchored b hb)
      · simp only [List.mem_singleton] at hb
        subst hb
        simp only
        obtain ⟨l, hl, e, item, hz, hpc, hpar⟩ := inv.pending (name, sub) hmem
        constructor
        · intro hemp
          have : sub = [] := by
            unfold subMenu at hemp
            simpa using hemp
          simp [this, submenuDiv]
        · intro hne
          refine ⟨l, List.mem_append_left _ hl, e, item, hz, hpc, ?_⟩
          cases hsub : sub with
          | nil => rw [hsub] at hne; exact absurd rfl hne
          | cons q sub' =>
            simp only [List.head?_cons, Option.map_some', submenuDiv, Option.some.injEq]
            exact hpar q (by simp only; rw [hsub]; exact List.mem_cons_self _ _)
    · -- pending
      intro p hp
      rw [hlv]
      rcases List.mem_append.1 hp with hp | hp
      · obtain ⟨l, hl, e, item, hz, hpc, hpar⟩ :=
          inv.pending p ((obj_mem_delete _ _ _).1 hp).1
        exact ⟨l, List.mem_append_left _ hl, e, item, hz, hpc, hpar⟩
      · obtain ⟨e, item, ch, hz, hpc, hp2⟩ := mem_regAdds _ _ _ hp
        refine ⟨_, List.mem_append_right _ (List.mem_singleton.2 rfl), e, item, hz, ?_, ?_⟩
        · rw [hpc, hp2, subMenu_makeSublist]
          have hv := mem_validEntries _ _ (List.of_mem_zip hz).2
          rw [horder _ hv ch hpc]
        · rw [hp2]
          exact makeSublist_parent e.ref ch
    · -- account
      have hacc := inv.account
      have haddc : (regAdds newItems (subMenu sub)).flatMap pendingCats
          = menuCats (subMenu sub) := regAdds_cats _ _ hshow horder
      have hperm := perm_cons_delete reg (name, sub) hnd hmem
      simp only [List.map_append, List.map_cons, List.map_nil, List.flatMap_append, haddc]
      refine List.Perm.trans ?_ hacc
      refine List.Perm.trans ?_
        (List.Perm.append_left _ (List.Perm.flatMap_right pendingCats hperm.symm))
      simp only [List.flatMap_cons, pendingCats, List.append_assoc, List.singleton_append,
        List.cons_append]
      refine List.Perm.append_left _ (List.Perm.cons _ ?_)
      simpa using (List.perm_append_comm : (List.flatMap (Obj.delete reg name) pendingCats ++
        menuCats (subMenu sub)).Perm _)
    · -- refs
      intro l hl e he
      rw [hlv] at hl
      rcases List.mem_append.1 hl with hl | hl
      · have := inv.refs l hl e he
        omega
      · simp only [List.mem_singleton] at hl
        subst hl
        exact (hrefs e he).2
    · -- nodup
      rw [hlv, List.flatMap_append, List.map_append]
      simp only [List.flatMap_cons, List.flatMap_nil, List.append_nil]
      apply List.Nodup.append inv.nodup hndi
      intro x hx1 hx2
      obtain ⟨e1, he1, rfl⟩ := List.mem_map.1 hx1
      obtain ⟨l, hl, hel⟩ := List.mem_flatMap.1 he1
      have h1 := inv.refs l hl e1 hel
      obtain ⟨e2, he2, hee⟩ := List.mem_map.1 hx2
      have h2 := (hrefs e2 he2).1
      omega

/-! ## The loops of `resolveContextSubLists` on a well-formed tree -/

theorem filter_filter_keys (q : List (String × Menu)) (name : String) (ks : List String) :
    (q.filter (fun p => p.1 ≠ name)).filter (fun p => p.1 ∉ ks)
      = q.filter (fun p => p.1 ∉ name :: ks) := by
  rw [List.filter_filter]
  congr 1
  funext p
  by_cases h1 : p.1 = name <;> by_cases h2 : p.1 ∈ ks <;> simp [h1, h2]

/-- The outer loop over the pending sublists `todo`, taken among the pending
sublists `reg`, on a well-formed tree, when the pass registers no label of a
pending sublist: it returns, having appended one level for each sublist of
`todo`; once `prev` is deleted the pending sublists are those of `reg` not in
`todo`, followed by those of the categories of the levels built, and the build
invariant holds for them. -/
theorem registryLoop_spec (cfg : Config) (menu : Menu) (container : Nat) (main : MenuDiv)
    (hwf : WellFormed cfg menu) (todo reg : Obj (Obj Entry))
    (built : List (MenuDiv × String × Menu)) (prev : Option String) (w : World)
    (c : Container)
    (heff : effective prev w.contextSubLists = reg)
    (htodo : ∀ p ∈ todo, p ∈ reg) (htnd : (todo.map (fun p => p.1)).Nodup)
    (hnd : (reg.map (fun p => p.1)).Nodup)
    (hclear : passClear (regCats todo) (regCats reg))
    (hdoc : w.document = [c]) (hcref : c.ref = container)
    (hch : c.children = main :: built.map (fun b => b.1))
    (inv : BuildInv menu main built reg w.nextRef) :
    ∃ prev1 w1 built1 c1,
      registryLoop cfg container (todo.map (fun p => p.1)) prev w = .ok prev1 w1 ∧
      w1.document = [c1] ∧ c1.ref = container ∧
      c1.children = main :: built1.map (fun b => b.1) ∧
      ((effective prev1 w1.contextSubLists).map (fun p => p.1)).Nodup ∧
      regCats (effective prev1 w1.contextSubLists)
        = (regCats reg).filter (fun p => p.1 ∉ todo.map (fun q => q.1)) ++
          (regCats todo).flatMap (fun x => childCats x.2) ∧
      BuildInv menu main built1 (effective prev1 w1.contextSubLists) w1.nextRef := by
  induction todo generalizing reg built prev w c with
  | nil =>
    refine ⟨prev, w, built, c, by simp [registryLoop], hdoc, hcref, hch, ?_, ?_, ?_⟩
    · rw [heff]; exact hnd
    · rw [heff]; simp [regCats]
    · rw [heff]; exact inv
  | cons q todo ih =>
    obtain ⟨name, sub⟩ := q
    have hmem : (name, sub) ∈ reg := htodo _ (List.mem_cons_self _ _)
    simp only [regCats, List.map_cons, passClear] at hclear
    obtain ⟨hcl1, hcl2⟩ := hclear
    have hcl1' : ∀ x ∈ childCats (subMenu sub), x.1 ∉ reg.map (fun p => p.1) := by
      intro x hx
      have := hcl1 x hx
      rwa [List.map_map] at this
    obtain ⟨hhas, r, w2, d, adds, c1, hr, heff1, hadds, hnd1, hdoc1, hcref1, hch1, inv1⟩ :=
      submenu_step cfg menu container main built name sub reg prev w c hwf heff hmem hnd
        hcl1' hdoc hcref hch inv
    simp only [List.map_cons, List.nodup_cons] at htnd
    have htodo1 : ∀ p ∈ todo, p ∈ Obj.delete reg name ++ adds := by
      intro p hp
      apply List.mem_append_left
      rw [obj_mem_delete]
      refine ⟨htodo p (List.mem_cons_of_mem _ hp), fun he => htnd.1 ?_⟩
      rw [← he]
      exact List.mem_map.2 ⟨p, hp, rfl⟩
    have hreg1 : regCats (Obj.delete reg name ++ adds)
        = (regCats reg).filter (fun p => p.1 ≠ name) ++ childCats (subMenu sub) := by
      rw [regCats_append, regCats_delete, hadds]
    obtain ⟨prev1, w1, built1, c2, hloop, hd2, hc2, hch2, hnd2, hreg2, inv2⟩ :=
      ih (Obj.delete reg name ++ adds) (built ++ [(d, name, subMenu sub)]) (some name) _ c1
        heff1 htodo1 htnd.2 hnd1 (by rw [hreg1]; exact hcl2) hdoc1 hcref1 hch1 inv1
    refine ⟨prev1, w1, built1, c2, ?_, hd2, hc2, hch2, hnd2, ?_, inv2⟩
    · simp only [List.map_cons]
      rw [registryLoop, if_pos hhas]
      simp only
      rw [hr]
      exact hloop
    · rw [hreg2, hreg1, List.filter_append, filter_filter_keys]
      simp only [regCats, List.map_cons, List.flatMap_cons, List.append_assoc]
      congr 2
      rw [List.filter_eq_self]
      intro x hx
      have h1 := hcl1' x hx
      simp only [decide_eq_true_eq]
      intro h2
      apply h1
      obtain ⟨p, hp, hpe⟩ := List.mem_map.1 h2
      rw [← hpe]
      exact List.mem_map.2 ⟨p, htodo p (List.mem_cons_of_mem _ hp), rfl⟩

/-- A call of the outer loop that has visited a key leaves, once `prev` is
deleted, pending sublists of a smaller rank. -/
theorem registryLoop_rank (cfg : Config) (container : Nat) (w : World) (p : String)
    (w1 : World)
    (hr : registryLoop cfg container (forInKeys w.contextSubLists) none w = .ok (some p) w1) :
    registryRank (Obj.delete w1.contextSubLists p) < registryRank w.contextSubLists := by
  have hinv : RankInv (registryRank w.contextSubLists)
      (forInKeys w.contextSubLists ++ (none : Option String).toList) w.contextSubLists := by
    intro q hq
    refine ⟨subRank_le_registryRank _ _ hq, fun _ => ?_⟩
    simp only [Option.toList, List.append_nil]
    rw [mem_forInKeys]
    exact List.mem_map.2 ⟨q, hq, rfl⟩
  have hinv1 := rankInv_registryLoop cfg container _ _ none w hinv (some p) w1 hr
  have hpos : 0 < registryRank w.contextSubLists := by
    by_contra hz
    have hz : registryRank w.contextSubLists = 0 := by omega
    have hnil : w.contextSubLists = [] := by
      cases hreg : w.contextSubLists with
      | nil => rfl
      | cons q reg =>
        rw [hreg] at hz
        simp only [registryRank, subRank] at hz
        omega
    rw [hnil] at hr
    simp [forInKeys, forInOrder, registryLoop] at hr
  apply registryRank_lt _ _ hpos
  intro q hq
  obtain ⟨hq1, hq2⟩ := (obj_mem_delete _ _ _).1 hq
  refine ⟨(hinv1 q hq1).1, fun he => ?_⟩
  have := (hinv1 q hq1).2 he
  simp only [Option.toList, List.mem_singleton] at this
  exact absurd this hq2

theorem clearFrom_next (q : List (String × Menu)) (h : ClearFrom q) : ClearFrom (passNext q) := by
  intro k
  have := h (k + 1)
  rwa [Function.iterate_succ_apply] at this

/-- `resolveContextSubLists` on a well-formed tree, when no registration
overwrites a pending sublist: with a recursion bound above the rank of the
pending sublists it returns, no sublist is pending any more, `submenuCount` is
0, and the build invariant holds. -/
theorem resolve_spec (cfg : Config) (menu : Menu) (container : Nat) (main : MenuDiv)
    (hwf : WellFormed cfg menu) (n : Nat) (w : World)
    (built : List (MenuDiv × String × Menu)) (c : Container)
    (hn : registryRank w.contextSubLists < n)
    (hnd : (w.contextSubLists.map (fun p => p.1)).Nodup)
    (hcf : ClearFrom (regCats w.contextSubLists))
    (hdoc : w.document = [c]) (hcref : c.ref = container)
    (hch : c.children = main :: built.map (fun b => b.1))
    (inv : BuildInv menu main built w.contextSubLists w.nextRef) :
    ∃ w1 built1 c1,
      resolveContextSubLists cfg container n w = some (.ok () w1) ∧
      w1.document = [c1] ∧ c1.ref = container ∧ c1.classes = c.classes ∧
      c1.children = main :: built1.map (fun b => b.1) ∧
      BuildInv menu main built1 [] w1.nextRef ∧
      w1.contextSubLists = [] ∧ w1.submenuCount = 0 := by
  induction n generalizing w built c with
  | zero => omega
  | succ n ih =>
    have hkeys : forInKeys w.contextSubLists
        = (forInOrder w.contextSubLists).map (fun p => p.1) := rfl
    have hcl0 : passClear (regCats (forInOrder w.contextSubLists))
        (regCats w.contextSubLists) := by
      rw [← forInOrder_regCats]
      exact hcf 0
    obtain ⟨prev1, w1, built1, c1, hloop, hd1, hc1, hch1, hnd1, hreg1, inv1⟩ :=
      registryLoop_spec cfg menu container main hwf (forInOrder w.contextSubLists)
        w.contextSubLists built none w c (by simp [effective])
        (fun p hp => (mem_forInOrder _ p).1 hp)
        (((forInOrder_perm w.contextSubLists).map _).nodup_iff.2 hnd) hnd hcl0
        hdoc hcref hch inv
    rw [← hkeys] at hloop
    have hnext : regCats (effective prev1 w1.contextSubLists)
        = passNext (regCats w.contextSubLists) := by
      rw [hreg1]
      have hnil : (regCats w.contextSubLists).filter
          (fun p => p.1 ∉ (forInOrder w.contextSubLists).map (fun q => q.1)) = [] := by
        rw [List.filter_eq_nil_iff]
        intro p hp
        simp only [decide_eq_true_eq, not_not]
        have : p.1 ∈ (regCats w.contextSubLists).map (fun q => q.1) :=
          List.mem_map.2 ⟨p, hp, rfl⟩
        rw [regCats_keys] at this
        exact (mem_forInKeys _ _).2 this
      rw [hnil, List.nil_append, ← forInOrder_regCats]
      rfl
    have hbuilds := builds_registryLoop cfg container (forInKeys w.contextSubLists) none w
    rw [hloop] at hbuilds
    have hcls : c1.classes = c.classes := by
      have := hbuilds.2.2.2.2.2.1
      simp only [Res.world] at this
      rw [hdoc, hd1] at this
      obtain ⟨x, y, hxy, _, he⟩ := List.forall₂_cons_left_iff.1 this
      simp only [List.cons.injEq] at he
      rw [he.1]
      exact hxy.2.2.1
    unfold resolveContextSubLists
    rw [hloop]
    cases prev1 with
    | none =>
      obtain ⟨hw, hk⟩ := registryLoop_prev_none cfg container _ w w1 hloop
      subst hw
      have hnil : w1.contextSubLists = [] := by
        cases hreg : w1.contextSubLists with
        | nil => rfl
        | cons p reg =>
          exfalso
          have hmem : p.1 ∈ forInKeys w1.contextSubLists := by
            rw [mem_forInKeys, hreg]; simp
          have := hk p.1 hmem
          have hhas : Obj.has w1.contextSubLists p.1 = true := by
            rw [obj_has_iff, hreg]; exact ⟨p.2, by simp⟩
          rw [hhas] at this; cases this
      refine ⟨_, built1, c1, rfl, hd1, hc1, hcls, hch1, ?_, hnil, rfl⟩
      simp only [effective] at inv1
      rw [hnil] at inv1
      exact inv1
    | some p =>
      simp only
      have hrank := registryLoop_rank cfg container w p w1 hloop
      simp only [effective] at hnd1 hnext inv1
      obtain ⟨w2, built2, c2, hres, hd2, hc2, hcls2, hch2, inv2, hreg2, hcnt2⟩ :=
        ih { w1 with contextSubLists := Obj.delete w1.contextSubLists p } built1 c1
          (by simp only; omega) hnd1 (by simp only; rw [hnext]; exact clearFrom_next _ hcf)
          hd1 hc1 hch1 inv1
      exact ⟨w2, built2, c2, hres, hd2, hc2, hcls2.trans hcls, hch2, inv2, hreg2, hcnt2⟩

/-! ## Building a whole menu -/

theorem registryRank_regAdds (items : List Element) (m : Menu) :
    registryRank (regAdds items m) ≤ menuDepth m := by
  apply registryRank_le
  intro p hp
  obtain ⟨e, item, ch, hz, hpc, hp2⟩ := mem_regAdds _ _ _ hp
  have hv := mem_validEntries _ _ (List.of_mem_zip hz).2
  rw [hp2]
  exact le_trans (subRank_makeSublist e.ref item ch (pendingChildren_children item ch hpc))
    (depth_le_menuDepth m _ hv)

/-- The state after the root loop on a well-formed tree satisfies the build
invariant, with the root level alone built. -/
theorem buildInv_root (cfg : Config) (env : Env) (menu : Menu) (hwf : WellFormed cfg menu)
    (divRef : Nat) (items : List Element) (n1 : Nat) (hshow : Shows items menu)
    (hrefs : ∀ e ∈ items, e.ref < n1) (hnd : (items.map (fun e => e.ref)).Nodup) :
    BuildInv menu (mainDiv env divRef items) [] (regAdds items menu) n1 := by
  have hcat : ∀ t item ch, (t, item) ∈ menu → item.pendingChildren = some ch →
      forInOrder ch = ch := by
    intro t item ch hm hpc
    exact forIn_of_cat cfg menu hwf (t, ch) (mem_menuCats_of_pending _ _ _ _ hm hpc).1
  constructor
  · intro l hl
    simp only [levelsOf, List.map_nil, List.mem_singleton] at hl
    subst hl
    exact hshow
  · intro b hb; cases hb
  · intro p hp
    obtain ⟨e, item, ch, hz, hpc, hp2⟩ := mem_regAdds _ _ _ hp
    have hv := mem_validEntries _ _ (List.of_mem_zip hz).2
    refine ⟨(mainDiv env divRef items, menu), by simp [levelsOf], e, item, hz, ?_, ?_⟩
    · rw [hpc, hp2, subMenu_makeSublist, hcat _ _ _ hv hpc]
    · rw [hp2]; exact makeSublist_parent e.ref ch
  · simp only [List.map_nil, List.nil_append]
    rw [regAdds_cats items menu hshow (fun p hp ch hpc => hcat p.1 p.2 ch hp hpc)]
  · intro l hl e he
    simp only [levelsOf, List.map_nil, List.mem_singleton] at hl
    subst hl
    exact hrefs e he
  · simpa [levelsOf, mainDiv] using hnd

/-- With no sublist pending, the build invariant says the levels realise the
tree. -/
theorem realises_of_buildInv (env : Env) (menu : Menu) (divRef : Nat) (items : List Element)
    (built : List (MenuDiv × String × Menu)) (n : Nat)
    (inv : BuildInv menu (mainDiv env divRef items) built [] n) :
    Realises menu (mainDiv env divRef items) (built.map (fun b => b.1)) := by
  have hlv : levelsOf menu (mainDiv env divRef items) built =
      (mainDiv env divRef items, menu) ::
        List.zip (built.map (fun b => b.1)) ((built.map (fun b => b.2)).map (fun p => p.2)) := by
    unfold levelsOf
    congr 1
    rw [List.map_map, List.zip_map']
    rfl
  refine ⟨rfl, inv.shows (mainDiv env divRef items, menu) (by simp [levelsOf]), ?_, built.map (fun b => b.2), ?_, ?_⟩
  · have := inv.nodup
    unfold levelsOf at this
    simpa [List.flatMap_cons, List.flatMap_map] using this
  · simpa using inv.account
  · rw [List.forall₂_map_left_iff, List.forall₂_map_right_iff, List.forall₂_same]
    intro b hb
    refine ⟨inv.shows (b.1, b.2.2) ?_, ?_⟩
    · unfold levelsOf
      exact List.mem_cons_of_mem _ (List.mem_map.2 ⟨b, hb, rfl⟩)
    · rw [← hlv]
      exact inv.anchored b hb

theorem showMenu_frame (cfg : Config) (env : Env) (a cref : Nat) (w : World) :
    (showMenu cfg env a cref w).document = w.document.map (fun c =>
      if c.ref = cref then { c with classes := showClasses c.classes } else c) ∧
    (showMenu cfg env a cref w).contextSubLists = w.contextSubLists ∧
    (showMenu cfg env a cref w).submenuCount = w.submenuCount := by
  unfold showMenu tooltipTimerWait
  simp only
  cases (BreveTimer.wait w.tooltipTimer w.timers).2.2 with
  | none => exact ⟨rfl, rfl, rfl⟩
  | some cb => cases cb <;> exact ⟨rfl, rfl, rfl⟩

/-- On a well-formed tree, from a state with no sublist pending, the root loop
of `makeContextMenu` returns, and `resolveContextSubLists`, called on the
state it leaves once the container is in the document, returns for every
recursion bound above the depth of the tree, with no sublist pending,
`submenuCount` 0 and the build invariant. -/
theorem resolve_after_root (cfg : Config) (env : Env) (a : Nat) (menu : Menu) (w : World)
    (hwf : WellFormed cfg menu) (hreg : w.contextSubLists = []) :
    ∃ items n1 w1 built1 c1,
      rootLoop cfg menu [] 1 { w with contextMenuParent := some a, nextRef := w.nextRef + 2 }
        = .ok ([] ++ items)
            { w with contextMenuParent := some a, nextRef := n1,
                     contextSubLists := w.contextSubLists ++ regAdds items menu } ∧
      (∀ fuel, menuDepth menu < fuel →
        resolveContextSubLists cfg w.nextRef fuel
          { w with contextMenuParent := some a, nextRef := n1,
                   contextSubLists := regAdds items menu,
                   document := [newContainer w.nextRef (mainDiv env (w.nextRef + 1) items)] }
          = some (.ok () w1)) ∧
      w1.document = [c1] ∧ c1.ref = w.nextRef ∧ c1.id = "BreveContextMenu" ∧
      c1.children = mainDiv env (w.nextRef + 1) items :: built1.map (fun b => b.1) ∧
      BuildInv menu (mainDiv env (w.nextRef + 1) items) built1 [] w1.nextRef ∧
      w1.contextSubLists = [] ∧ w1.submenuCount = 0 := by
  have hroot : LevelOk cfg menu := hwf.1 menu (by simp [levels])
  obtain ⟨items, n1, hr, hle, hshow, hrefs, hnd⟩ := rootLoop_spec cfg menu [] 1
    { w with contextMenuParent := some a, nextRef := w.nextRef + 2 }
    hroot.2.2 hroot.1
    (by intro p _ _; simp [hreg, Obj.has])
  have horder : ∀ p ∈ menu, ∀ ch, p.2.pendingChildren = some ch → forInOrder ch = ch :=
    fun p hp ch hpc => forIn_of_cat cfg menu hwf (p.1, ch)
      (mem_menuCats_of_pending _ _ _ _ hp hpc).1
  obtain ⟨w1, built1, c1, hres, hd1, hc1, hcls1, hch1, inv1, hreg1, hcnt1⟩ :=
    resolve_spec cfg menu w.nextRef (mainDiv env (w.nextRef + 1) items) hwf
      (menuDepth menu + 1)
      { w with contextMenuParent := some a, nextRef := n1,
               contextSubLists := regAdds items menu,
               document := [newContainer w.nextRef (mainDiv env (w.nextRef + 1) items)] }
      [] (newContainer w.nextRef (mainDiv env (w.nextRef + 1) items))
      (Nat.lt_succ_of_le (registryRank_regAdds items menu))
      (regAdds_keys_nodup items menu hshow horder hroot.1)
      (by simp only; rw [regCats_regAdds items menu hshow horder]; exact hwf.2)
      rfl rfl rfl
      (buildInv_root cfg env menu hwf (w.nextRef + 1) items n1 hshow
        (fun e he => (hrefs e he).2) hnd)
  refine ⟨items, n1, w1, built1, c1, hr,
    fun fuel hf => resolve_fuel_le cfg w.nextRef _ fuel _ _ hres hf, hd1, hc1, ?_, hch1,
    inv1, hreg1, hcnt1⟩
  have hb := builds_resolve cfg w.nextRef _ _ _ hres
  have := hb.2.2.2.2.2.1
  simp only [Res.world] at this
  rw [hd1] at this
  obtain ⟨x, y, hxy, _, he⟩ := List.forall₂_cons_left_iff.1 this
  simp only [List.cons.injEq] at he
  rw [he.1]
  exact hxy.2.1

/-- C1, amended: on a well-formed tree (at every level that gets built the
labels are pairwise distinct, `for ... in` visits them in insertion order, no
item makes `makeButton` fail and no registration assigns to the key
`__proto__`; and no category registers its sublist under a label whose sublist
is pending at that time), starting with no sublist pending, the deferred body
of `makeContextMenu` completes without error for every recursion bound above
the depth of the tree; the document then holds one container whose first level
holds the elements built for the root's valid items, in order, and whose other
levels are, one for one, the categories of the tree that have children and a
true or absent condition, each holding the elements built for the category's
valid children, in order, and wired to the category's own button (to none
when `children` is empty); no sublist is left pending and `submenuCount` is
0. -/
theorem build_menu_correct (cfg : Config) (env : Env) (a : Nat) (menu : Menu) (w : World)
    (hwf : WellFormed cfg menu) (hreg : w.contextSubLists = [])
    (hdoc : w.document.length ≤ 1) :
    ∃ w1 c main subs,
      (∀ fuel, menuDepth menu < fuel → openMenu cfg env fuel a menu w = some (.ok () w1)) ∧
      w1.document = [c] ∧ c.id = "BreveContextMenu" ∧ c.children = main :: subs ∧
      Realises menu main subs ∧ w1.contextSubLists = [] ∧ w1.submenuCount = 0 := by
  have hmenu : forInOrder menu = menu :=
    levelOk_forIn cfg menu (hwf.1 menu (by simp [levels]))
  have htail : w.document.tail = [] := tail_of_length_le_one _ hdoc
  obtain ⟨items, n1, w1, built1, c1, hr, hres, hd1, hc1, hid1, hch1, inv1, hreg1, hcnt1⟩ :=
    resolve_after_root cfg env a menu w hwf hreg
  obtain ⟨s1, s2, s3⟩ := showMenu_frame cfg env a w.nextRef w1
  refine ⟨showMenu cfg env a w.nextRef w1, { c1 with classes := showClasses c1.classes },
    mainDiv env (w.nextRef + 1) items, built1.map (fun b => b.1), ?_, ?_, hid1, hch1,
    realises_of_buildInv env menu _ items built1 _ inv1, by rw [s2, hreg1],
    by rw [s3, hcnt1]⟩
  · intro fuel hf
    unfold openMenu
    simp only
    rw [hmenu, hr]
    simp only [hreg, htail, List.nil_append]
    rw [hres fuel hf]
  · rw [s1, hd1]
    simp [hc1]

/-! ## Trees that are well formed -/

theorem passNext_nil : passNext [] = [] := rfl

theorem iterate_passNext_nil (k : Nat) : passNext^[k] [] = [] := by
  induction k with
  | zero => rfl
  | succ k ih => rw [Function.iterate_succ_apply, passNext_nil, ih]

/-- To see that no registration overwrites a pending sublist it is enough to
look at the passes up to one that leaves nothing pending. -/
theorem clearFrom_of_stable (q : List (String × Menu)) (n : Nat)
    (hn : passNext^[n] q = [])
    (h : ∀ k < n, passClear (forInOrder (passNext^[k] q)) (passNext^[k] q)) : ClearFrom q := by
  intro k
  by_cases hk : k < n
  · exact h k hk
  · have hk2 : k = (k - n) + n := by omega
    rw [hk2, Function.iterate_add_apply, hn, iterate_passNext_nil]
    trivial

/-- The example menu of the specification is well formed. -/
theorem wellFormed_example : WellFormed Config.default Menu.example :=
  ⟨by decide, clearFrom_of_stable _ 2 rfl (by decide)⟩

/-- A label may be used by two categories when the sublist of the first is no
longer pending at the time the second registers: `Menu.reusedLabel` is well
formed, although "A" names two categories with children. -/
theorem wellFormed_reusedLabel : WellFormed Config.default Menu.reusedLabel :=
  ⟨by decide, clearFrom_of_stable _ 3 rfl (by decide)⟩

/-- Ascending array-index labels are visited in insertion order, so such a
level is accepted; `Menu.indexLabel`, `Menu.sharedLabel`,
`Menu.nestedSameLabel` and `Menu.protoLabel` are not well formed. -/
theorem wellFormed_rejects :
    LevelOk Config.default [("8", Item.function 1), ("10", Item.function 1)] ∧
    ¬ WellFormed Config.default Menu.indexLabel ∧
    ¬ WellFormed Config.default Menu.sharedLabel ∧
    ¬ WellFormed Config.default Menu.nestedSameLabel ∧
    ¬ WellFormed Config.default Menu.protoLabel := by
  refine ⟨by decide, ?_, ?_, ?_, ?_⟩
  · exact fun h => absurd (h.1 Menu.indexLabel (by simp [levels])) (by decide)
  · exact fun h => absurd (h.2 0) (by decide)
  · exact fun h => absurd (h.2 0) (by decide)
  · exact fun h => absurd (h.1 Menu.protoLabel (by simp [levels])) (by decide)

/-! ## Claim C1: what a build yields -/

/-- The example of the specification, evaluated: building
`{"Copy": function, "More": category{children: {"Delete": function}}}`
succeeds and gives the root level ["Copy", "More"] (no anchor) and one submenu
["Delete"] anchored to the button "More" (identity 4). -/
theorem example_menu_build :
    (openMenu Config.default Env.sample 2 7 Menu.example World.init).map Res.isOk = some true ∧
    builtLevels (openMenu Config.default Env.sample 2 7 Menu.example World.init)
      = [(none, [(3, "Copy"), (4, "More")]), (some 4, [(6, "Delete")])] := by
  refine ⟨?_, ?_⟩ <;> decide

/-- `Menu.reusedLabel`, evaluated: the build succeeds and each of the three
categories gets its own submenu, anchored to its own button (the two "A"
buttons have identities 3 and 8). -/
theorem reused_label_build :
    (openMenu Config.default Env.sample 4 7 Menu.reusedLabel World.init).map Res.isOk
      = some true ∧
    builtLevels (openMenu Config.default Env.sample 4 7 Menu.reusedLabel World.init)
      = [(none, [(3, "A"), (4, "B")]), (some 3, [(6, "X")]), (some 4, [(8, "A")]),
         (some 8, [(10, "Y")])] := by
  refine ⟨?_, ?_⟩ <;> decide

/-- Where the outcome depends on the prototype of a plain object the model
stops and says so: on `Menu.protoLabel` (the sublist is assigned to
`contextSubLists['__proto__']`) and on `{"toString": category{"toString":
category{"X"}}}` (the second read of the inner loop finds the inherited
`toString`). Neither tree is well formed. -/
theorem prototype_cases_not_modelled :
    (openMenu Config.default Env.sample 3 7 Menu.protoLabel World.init).map Res.thrown
      = some (some (JSError.notModelled "assignment to the key __proto__")) ∧
    (openMenu Config.default Env.sample 3 7
        [("toString", Item.category [("toString", Item.category [("X", Item.function 1)])])]
        World.init).map Res.thrown
      = some (some (JSError.notModelled "an inherited property is read as the button")) := by
  refine ⟨?_, ?_⟩ <;> decide

/-- C1 as stated fails on trees whose labels are unique within each level.
(a) In `Menu.sharedLabel` four categories register a submenu (Edit, Edit/More,
View, View/More) but the build yields three submenus: the pending sublist of
Edit/More is overwritten by that of View/More, so the children ["X"] of
Edit/More are shown nowhere and its button (identity 6) anchors nothing.
(b) On `Menu.nestedSameLabel` the build ends with an error for every
recursion bound. (c) In `Menu.indexLabel`, inserted as "b" then "1", the root
level shows "1" before "b". -/
theorem build_fails_on_shared_labels :
    (∀ m ∈ levels Menu.sharedLabel, (m.map (fun p => p.1)).Nodup) ∧
    (menuCats Menu.sharedLabel).map (fun p => (p.1, p.2.map (fun q => q.1)))
      = [("Edit", ["More"]), ("More", ["X"]), ("View", ["More"]), ("More", ["Y"])] ∧
    (openMenu Config.default Env.sample 5 7 Menu.sharedLabel World.init).map Res.isOk
      = some true ∧
    builtLevels (openMenu Config.default Env.sample 5 7 Menu.sharedLabel World.init)
      = [(none, [(3, "Edit"), (4, "View")]), (some 3, [(6, "More")]),
         (some 4, [(8, "More")]), (some 8, [(10, "Y")])] ∧
    (∀ m ∈ levels Menu.nestedSameLabel, (m.map (fun p => p.1)).Nodup) ∧
    (∀ fuel, (openMenu Config.default Env.sample (fuel + 1) 7 Menu.nestedSameLabel
        World.init).map Res.isOk = some false) ∧
    (∀ m ∈ levels Menu.indexLabel, (m.map (fun p => p.1)).Nodup) ∧
    Menu.indexLabel.map (fun p => p.1) = ["b", "1"] ∧
    builtLevels (openMenu Config.default Env.sample 5 7 Menu.indexLabel World.init)
      = [(none, [(3, "1"), (4, "b")])] := by
  refine ⟨?_, ?_, ?_, ?_, ?_, ?_, ?_, ?_, ?_⟩
  · decide
  · decide
  · decide
  · decide
  · decide
  · intro fuel
    rfl
  · decide
  · decide
  · decide

/-- C1, amended, at `Menu.reusedLabel`, a tree in which two categories share
the label "A". -/
theorem build_menu_correct_witness :
    ∃ w1 c main subs,
      (∀ fuel, menuDepth Menu.reusedLabel < fuel →
        openMenu Config.default Env.sample fuel 7 Menu.reusedLabel World.init
          = some (.ok () w1)) ∧
      w1.document = [c] ∧ c.id = "BreveContextMenu" ∧ c.children = main :: subs ∧
      Realises Menu.reusedLabel main subs ∧ w1.contextSubLists = [] ∧ w1.submenuCount = 0 :=
  build_menu_correct Config.default Env.sample 7 Menu.reusedLabel World.init
    wellFormed_reusedLabel rfl (by decide)

/-! ## Claim C9: the pending sublists are drained -/

/-- C9, amended: for every well-formed tree, built from a state with no
sublist pending and at most one container in the document, the root loop of
`makeContextMenu` returns, and `resolveContextSubLists`, called on the state
it leaves (the pending sublists are those registered by the root items),
returns normally for every recursion bound above the depth of the tree, with
`contextSubLists` empty and `submenuCount` 0. On every state whatever, built
from a well-formed tree or not, `resolveContextSubLists` ends for every
recursion bound above the rank of the pending sublists, with a normal return,
with an exception, or at a point the model does not follow further
(`JSError.notModelled`), and after a normal return `contextSubLists` is empty
and `submenuCount` is 0. -/
theorem resolve_drains_registry (cfg : Config) (env : Env) (a : Nat) (menu : Menu) (w : World)
    (hwf : WellFormed cfg menu) (hreg : w.contextSubLists = [])
    (hdoc : w.document.length ≤ 1) :
    (∃ w2 w1, beforeResolve cfg env a menu w = some w2 ∧
      (∀ fuel, menuDepth menu < fuel →
        resolveContextSubLists cfg w.nextRef fuel w2 = some (.ok () w1)) ∧
      w1.contextSubLists = [] ∧ w1.submenuCount = 0) ∧
    ∀ container w0, ∃ r,
      (∀ fuel, registryRank w0.contextSubLists < fuel →
        resolveContextSubLists cfg container fuel w0 = some r) ∧
      ∀ u w1, r = .ok u w1 → w1.contextSubLists = [] ∧ w1.submenuCount = 0 := by
  refine ⟨?_, fun container w0 => resolveContextSubLists_terminates cfg container w0⟩
  have hmenu : forInOrder menu = menu :=
    levelOk_forIn cfg menu (hwf.1 menu (by simp [levels]))
  have htail : w.document.tail = [] := tail_of_length_le_one _ hdoc
  obtain ⟨items, n1, w1, built1, c1, hr, hres, hd1, hc1, hid1, hch1, inv1, hreg1, hcnt1⟩ :=
    resolve_after_root cfg env a menu w hwf hreg
  refine ⟨{ w with contextMenuParent := some a, nextRef := n1,
                    contextSubLists := regAdds items menu,
                    document := [newContainer w.nextRef (mainDiv env (w.nextRef + 1) items)] },
    w1, ?_, hres, hreg1, hcnt1⟩
  unfold beforeResolve
  rw [hmenu, hr]
  simp only [hreg, htail, List.nil_append]

/-- C9, amended, at the example menu: `World.rootBuilt` is the state the root
loop leaves, with the sublist of "More" pending. -/
theorem resolve_drains_registry_witness :
    (∃ w2 w1, beforeResolve Config.default Env.sample 7 Menu.example World.init = some w2 ∧
      (∀ fuel, menuDepth Menu.example < fuel →
        resolveContextSubLists Config.default World.init.nextRef fuel w2 = some (.ok () w1)) ∧
      w1.contextSubLists = [] ∧ w1.submenuCount = 0) ∧
    ∀ container w0, ∃ r,
      (∀ fuel, registryRank w0.contextSubLists < fuel →
        resolveContextSubLists Config.default container fuel w0 = some r) ∧
      ∀ u w1, r = .ok u w1 → w1.contextSubLists = [] ∧ w1.submenuCount = 0 :=
  resolve_drains_registry Config.default Env.sample 7 Menu.example World.init
    wellFormed_example rfl (by decide)

/-- The pending sublists of the example: one, for "More"; resolving it returns
normally with two levels in the container. -/
theorem example_resolve :
    beforeResolve Config.default Env.sample 7 Menu.example World.init = some World.rootBuilt ∧
    World.rootBuilt.contextSubLists.map (fun p => p.1) = ["More"] ∧
    (resolveContextSubLists Config.default 1 2 World.rootBuilt).map
      (fun r => (r.isOk, r.world.contextSubLists.length, r.world.submenuCount))
      = some (true, 0, 0) := by
  refine ⟨?_, ?_, ?_⟩
  · rfl
  · decide
  · decide

/-- C9 as stated fails: `Menu.nestedSameLabel` is a finite tree with labels
unique within each level; building its root items returns and leaves the
sublist "A" pending (`World.nestedRoot`); `resolveContextSubLists`, called on
that state, ends with a `TypeError` for every recursion bound, so it does not
return, and the sublist "A" is still pending, with `submenuCount` 1, when the
next build begins. -/
theorem resolve_throws_on_nested_label :
    (∀ m ∈ levels Menu.nestedSameLabel, (m.map (fun p => p.1)).Nodup) ∧
    beforeResolve Config.default Env.sample 7 Menu.nestedSameLabel World.init
      = some World.nestedRoot ∧
    World.nestedRoot.contextSubLists.map (fun p => p.1) = ["A"] ∧
    ∀ fuel, (resolveContextSubLists Config.default World.init.nextRef (fuel + 1)
        World.nestedRoot).map
      (fun r => (r.thrown, r.world.contextSubLists.map (fun p => p.1), r.world.submenuCount))
      = some (some (JSError.typeError "contextSubLists[name][text] is undefined"), ["A"], 1) := by
  refine ⟨by decide, rfl, by decide, ?_⟩
  intro fuel
  rfl

/-! ## The close cascade: class lists -/

theorem calmer_refl (cs : List String) : Calmer cs cs := ⟨id, id, id⟩

theorem calmer_trans {a b c : List String} (h1 : Calmer a b) (h2 : Calmer b c) : Calmer a c :=
  ⟨fun h => h2.1 (h1.1 h), fun h => h2.2.1 (h1.2.1 h), fun h => h2.2.2 (h1.2.2 h)⟩

theorem mem_classRemove (cs : List String) (c x : String) :
    x ∈ classRemove cs c ↔ x ∈ cs ∧ x ≠ c := by
  simp [classRemove]

theorem mem_classAdd (cs : List String) (c x : String) :
    x ∈ classAdd cs c ↔ x ∈ cs ∨ x = c := by
  unfold classAdd
  split
  · constructor
    · exact Or.inl
    · rintro (h | rfl)
      · exact h
      · assumption
  · simp

theorem calmer_hideClasses (cs : List String) : Calmer cs (hideClasses cs) := by
  unfold hideClasses
  split
  · exact calmer_refl cs
  · refine ⟨?_, ?_, ?_⟩
    · intro h
      rw [mem_classRemove, mem_classAdd]
      exact ⟨Or.inl h, by decide⟩
    · intro _ h
      rw [mem_classRemove] at h
      exact h.2 rfl
    · intro h h1
      rw [mem_classRemove, mem_classAdd] at h1
      rcases h1.1 with h2 | h2
      · exact h h2
      · exact absurd h2 (by decide)

theorem calmer_deselect (cs : List String) : Calmer cs (classRemove cs "selected") := by
  refine ⟨?_, ?_, ?_⟩
  · intro h
    rw [mem_classRemove]
    exact ⟨h, by decide⟩
  · intro h h1
    rw [mem_classRemove] at h1
    exact h h1.1
  · intro _ h1
    rw [mem_classRemove] at h1
    exact h1.2 rfl

theorem hideClasses_hidden (cs : List String) (h : "hiddenByDefault" ∉ cs) :
    "hidden" ∈ hideClasses cs ∧ "shown" ∉ hideClasses cs := by
  unfold hideClasses
  rw [if_neg h]
  constructor
  · rw [mem_classRemove, mem_classAdd]
    exact ⟨Or.inr rfl, by decide⟩
  · intro h1
    rw [mem_classRemove] at h1
    exact h1.2 rfl

theorem not_mem_deselect (cs : List String) : "selected" ∉ classRemove cs "selected" := by
  intro h
  rw [mem_classRemove] at h
  exact h.2 rfl

/-! ## The close cascade: nodes -/

theorem mapClasses_ref (ref : Nat) (f : List String → List String) (n : DomNode) :
    (n.mapClasses ref f).ref = n.ref := by
  cases n with
  | container c => rfl
  | level d => rfl
  | item e =>
    simp only [DomNode.mapClasses, DomNode.ref, Element.mapClasses]
    split <;> rfl

theorem mapClasses_id (ref : Nat) (f : List String → List String) (n : DomNode) :
    (n.mapClasses ref f).id = n.id := by
  cases n with
  | container c => rfl
  | level d => rfl
  | item e =>
    simp only [DomNode.mapClasses, DomNode.id, Element.mapClasses]
    split <;> rfl

theorem mapClasses_classes (ref : Nat) (f : List String → List String) (n : DomNode) :
    (n.mapClasses ref f).classes = if n.ref = ref then f n.classes else n.classes := by
  cases n with
  | container c => rfl
  | level d => rfl
  | item e =>
    simp only [DomNode.mapClasses, DomNode.classes, DomNode.ref, Element.mapClasses]
    split <;> rfl

theorem nodes_mapClasses (ref : Nat) (f : List String → List String) (w : World) :
    (w.mapClasses ref f).nodes = w.nodes.map (DomNode.mapClasses ref f) := by
  unfold World.nodes World.mapClasses
  simp only [List.flatMap_map, List.map_flatMap]
  congr 1
  funext c
  simp only [Container.nodes, List.map_cons, DomNode.mapClasses, List.map_flatMap,
    Container.mapClasses, List.flatMap_map]
  congr 2
  funext d
  simp only [MenuDiv.mapClasses, List.map_cons, DomNode.mapClasses, List.map_map]
  congr 1

theorem find_mapClasses (ref : Nat) (f : List String → List String) (w : World) (r : Nat) :
    (w.mapClasses ref f).find r = (w.find r).map (DomNode.mapClasses ref f) := by
  unfold World.find
  rw [nodes_mapClasses, List.find?_map]
  congr 2
  funext n
  simp [mapClasses_ref]

theorem find_some (w : World) (r : Nat) (n : DomNode) (h : w.find r = some n) :
    n ∈ w.nodes ∧ n.ref = r := by
  unfold World.find at h
  exact ⟨List.mem_of_find?_eq_some h, by simpa using List.find?_some h⟩

theorem classesOf_mapClasses (ref : Nat) (f : List String → List String) (w : World)
    (r : Nat) :
    (w.mapClasses ref f).classesOf r
      = (w.classesOf r).map (fun cs => if r = ref then f cs else cs) := by
  unfold World.classesOf
  rw [find_mapClasses]
  cases h : w.find r with
  | none => rfl
  | some n =>
    simp only [Option.map_some', mapClasses_classes, (find_some w r n h).2]

/-! ## The close cascade: what it leaves alone -/

theorem settles_refl (w : World) : Settles w w :=
  fun _ cs h => ⟨cs, h, calmer_refl cs⟩

theorem settles_trans {w w1 w2 : World} (h1 : Settles w w1) (h2 : Settles w1 w2) :
    Settles w w2 := by
  intro r cs h
  obtain ⟨cs1, hc1, hk1⟩ := h1 r cs h
  obtain ⟨cs2, hc2, hk2⟩ := h2 r cs1 hc1
  exact ⟨cs2, hc2, calmer_trans hk1 hk2⟩

theorem settles_mapClasses (ref : Nat) (f : List String → List String) (w : World)
    (hf : ∀ cs, Calmer cs (f cs)) : Settles w (w.mapClasses ref f) := by
  intro r cs h
  rw [classesOf_mapClasses, h]
  refine ⟨_, rfl, ?_⟩
  split
  · exact hf cs
  · exact calmer_refl cs

theorem settles_hideNode (ref : Nat) (w : World) : Settles w (hideNode ref w) :=
  settles_mapClasses ref _ w calmer_hideClasses

theorem settles_deselect (ref : Nat) (w : World) : Settles w (deselectMenuItem ref w) :=
  settles_mapClasses ref _ w calmer_deselect

theorem settles_closeLevel (div parent : Nat) (w : World) :
    Settles w (closeLevel div parent w) :=
  settles_trans (settles_hideNode div w) (settles_deselect parent _)

/-- Whatever the cascade does, and however it ends, every node stays in the
document, a hidden node stays hidden and no node gets selected. -/
theorem settles_cascade (env : Env) (depth : Nat) :
    ∀ (div : DomNode) (event : Option MouseEvent) (w : World),
      Settles w (contextMenuAlertParent env depth div event w).world := by
  induction depth with
  | zero => intro div event w; exact settles_refl w
  | succ n ih =>
    intro div event w
    unfold contextMenuAlertParent
    split
    · exact settles_refl w
    · split
      · exact settles_refl w
      · split
        · exact settles_refl w
        · exact settles_refl w
        · split
          · exact settles_refl w
          · split
            · exact settles_refl w
            · split
              · exact settles_refl w
              · simp only
                split
                · exact settles_closeLevel _ _ w
                · exact settles_trans (settles_closeLevel _ _ w) (ih _ _ _)

theorem hidden_of_settles {w w1 : World} (h : Settles w w1) (r : Nat) (hr : Hidden w r) :
    Hidden w1 r := by
  obtain ⟨cs, hc, h1, h2⟩ := hr
  obtain ⟨cs1, hc1, hk⟩ := h r cs hc
  exact ⟨cs1, hc1, hk.1 h1, hk.2.1 h2⟩

theorem deselected_of_settles {w w1 : World} (h : Settles w w1) (r : Nat)
    (hr : Deselected w r) : Deselected w1 r := by
  obtain ⟨cs, hc, h1⟩ := hr
  obtain ⟨cs1, hc1, hk⟩ := h r cs hc
  exact ⟨cs1, hc1, hk.2.2 h1⟩

/-! ## The close cascade: one step -/

/-- A level with a selected descendant stops the cascade. -/
theorem cascade_stops_selected (env : Env) (depth : Nat) (div : DomNode)
    (event : Option MouseEvent) (w : World) (h : div.hasSelected = true) :
    contextMenuAlertParent env (depth + 1) div event w = .ok () w := by
  unfold contextMenuAlertParent
  rw [if_pos h]

/-- A level whose class string names no anchor, as the root level, stops the
cascade. -/
theorem cascade_stops_unanchored (env : Env) (depth : Nat) (div : DomNode)
    (event : Option MouseEvent) (w : World) (h : parentSelector div.classes = none) :
    contextMenuAlertParent env (depth + 1) div event w = .ok () w := by
  unfold contextMenuAlertParent
  split
  · rfl
  · rw [h]

/-- The pointer of the event inside the anchor of the level the cascade starts
at stops it. -/
theorem cascade_stops_pointer (env : Env) (depth : Nat) (div parent : DomNode)
    (ev : MouseEvent) (w : World) (h : anchorOf w div = some parent)
    (hin : mouseInside ev (env.rectOf parent.ref) = true) :
    contextMenuAlertParent env (depth + 1) div (some ev) w = .ok () w := by
  unfold anchorOf at h
  unfold contextMenuAlertParent
  split
  · rfl
  · cases hp : parentSelector div.classes with
    | none => rfl
    | some str =>
      rw [hp] at h
      simp only at h ⊢
      cases hq : _qs w ("#" ++ str) with
      | error e => rw [hq] at h; cases h
      | ok r =>
        rw [hq] at h
        simp only at h
        subst h
        simp [hin]

/-- One step of the cascade: a level `div` without selected descendant, whose
class string names the anchor `parent` in the level `bp`, the pointer of the
event (if there is one) outside `parent`: `div` is hidden, `parent` is
deselected, and the cascade goes on from `bp` without the event. -/
theorem cascade_step (env : Env) (depth : Nat) (div parent bp : DomNode)
    (event : Option MouseEvent) (w : World) (hsel : div.hasSelected = false)
    (ha : anchorOf w div = some parent) (hl : levelOf w div = some bp)
    (hout : event.any (fun ev => mouseInside ev (env.rectOf parent.ref)) = false) :
    contextMenuAlertParent env (depth + 1) div event w
      = contextMenuAlertParent env depth
          ((closeLevel div.ref parent.ref w).current bp) none
          (closeLevel div.ref parent.ref w) := by
  unfold anchorOf at ha
  unfold levelOf at hl
  rw [contextMenuAlertParent]
  rw [if_neg (by simp [hsel])]
  cases hp : parentSelector div.classes with
  | none => rw [hp] at ha; cases ha
  | some str =>
    rw [hp] at ha hl
    simp only at ha hl ⊢
    cases hq : _qs w ("#" ++ str) with
    | error e => rw [hq] at ha; cases ha
    | ok r =>
      rw [hq] at ha hl
      simp only at ha
      subst ha
      simp only at hl ⊢
      rw [if_neg (by simp [hout])]
      cases hs : levelSelector str parent.id with
      | none => rw [hs] at hl; cases hl
      | some sel =>
        rw [hs] at hl
        simp only at hl ⊢
        cases hq2 : _qs w ("#" ++ sel) with
        | error e => rw [hq2] at hl; cases hl
        | ok r2 =>
          rw [hq2] at hl
          simp only at hl
          subst hl
          rfl

/-! ## The close cascade: two levels -/

theorem qs_mem (w : World) (q : String) (n : DomNode) (h : _qs w q = .ok (some n)) :
    n ∈ w.nodes := by
  unfold _qs at h
  split at h
  · split at h
    · simp only [Except.ok.injEq] at h
      exact List.mem_of_find?_eq_some h
    · cases h
  · cases h

theorem anchorOf_mem (w : World) (div a : DomNode) (h : anchorOf w div = some a) :
    a ∈ w.nodes := by
  unfold anchorOf at h
  split at h
  · cases h
  · split at h
    · next r hq => subst h; exact qs_mem w _ a hq
    · cases h

theorem levelOf_mem (w : World) (div bp : DomNode) (h : levelOf w div = some bp) :
    bp ∈ w.nodes := by
  unfold levelOf at h
  split at h
  · cases h
  · split at h
    · split at h
      · cases h
      · split at h
        · next r hq => subst h; exact qs_mem w _ bp hq
        · cases h
    · cases h

theorem find_of_mem (w : World) (n : DomNode) (h : n ∈ w.nodes) :
    ∃ m, w.find n.ref = some m := by
  unfold World.find
  cases hf : w.nodes.find? (fun m => m.ref = n.ref) with
  | some m => exact ⟨m, rfl⟩
  | none =>
    have := List.find?_eq_none.1 hf n h
    simp at this

theorem classesOf_of_mem (w : World) (n : DomNode) (h : n ∈ w.nodes) :
    ∃ cs, w.classesOf n.ref = some cs := by
  obtain ⟨m, hm⟩ := find_of_mem w n h
  exact ⟨m.classes, by simp [World.classesOf, hm]⟩

theorem find_closeLevel (div parent : Nat) (w : World) (r : Nat) (n : DomNode)
    (h : w.find r = some n) : ∃ m, (closeLevel div parent w).find r = some m := by
  unfold closeLevel deselectMenuItem hideNode
  rw [find_mapClasses, find_mapClasses, h]
  exact ⟨_, rfl⟩

theorem current_eq_node (w : World) (n m : DomNode) (h : w.find n.ref = some m) :
    w.current n = w.node n.ref := by
  unfold World.current World.node
  rw [h]
  rfl

theorem find_node (w : World) (r : Nat) (h : (w.find r).isSome = true) :
    w.find r = some (w.node r) := by
  unfold World.node
  cases hf : w.find r with
  | none => rw [hf] at h; cases h
  | some n => rfl

theorem node_ref (w : World) (r : Nat) (n : DomNode) (h : w.find r = some n) :
    (w.node r).ref = r := by
  unfold World.node
  rw [h]
  exact (find_some w r n h).2

theorem hidden_closeLevel (div parent : Nat) (w : World) (n : DomNode)
    (h : w.find div = some n) (hs : "hiddenByDefault" ∉ n.classes) :
    Hidden (closeLevel div parent w) div := by
  apply hidden_of_settles (settles_deselect parent (hideNode div w))
  refine ⟨hideClasses n.classes, ?_, hideClasses_hidden _ hs⟩
  unfold hideNode
  rw [classesOf_mapClasses]
  simp [World.classesOf, h]

theorem deselected_closeLevel (div parent : Nat) (w : World) (n : DomNode)
    (h : w.find parent = some n) : Deselected (closeLevel div parent w) parent := by
  obtain ⟨m, hm⟩ : ∃ m, (hideNode div w).find parent = some m := by
    unfold hideNode
    rw [find_mapClasses, h]
    exact ⟨_, rfl⟩
  refine ⟨classRemove m.classes "selected", ?_, not_mem_deselect _⟩
  unfold closeLevel deselectMenuItem
  rw [classesOf_mapClasses]
  simp [World.classesOf, hm]

/-! ## Claim C11: the close cascade above the first level -/

/-- C11 as stated fails. `Menu.nested` is open, the submenus of "File" (level
4, anchor 3) and of "Recent" (level 6, anchor 5, an item of level 4) are shown
and both anchors selected; the pointer leaves level 6 at (150, 116), outside
"Recent" and inside "File". No item of level 6 is selected, so the cascade
hides level 6 and deselects "Recent"; it then hides level 4 as well and
deselects "File", although the pointer of the event is inside "File", the
anchor of level 4: the cascade does not stop there. -/
theorem cascade_hides_shown_parent :
    Shown World.hovered 6 ∧ Selected World.hovered 5 ∧
    Shown World.hovered 4 ∧ Selected World.hovered 3 ∧
    (World.hovered.node 6).hasSelected = false ∧
    (anchorOf World.hovered (World.hovered.node 6)).map DomNode.ref = some 5 ∧
    (levelOf World.hovered (World.hovered.node 6)).map DomNode.ref = some 4 ∧
    (anchorOf World.hovered (World.hovered.node 4)).map DomNode.ref = some 3 ∧
    mouseInside MouseEvent.overFile (Env.nested.rectOf 5) = false ∧
    mouseInside MouseEvent.overFile (Env.nested.rectOf 3) = true ∧
    (contextMenuAlertParent Env.nested 10 (World.hovered.node 6) (some MouseEvent.overFile)
      World.hovered).isOk = true ∧
    Hidden (contextMenuAlertParent Env.nested 10 (World.hovered.node 6)
      (some MouseEvent.overFile) World.hovered).world 6 ∧
    Deselected (contextMenuAlertParent Env.nested 10 (World.hovered.node 6)
      (some MouseEvent.overFile) World.hovered).world 5 ∧
    Hidden (contextMenuAlertParent Env.nested 10 (World.hovered.node 6)
      (some MouseEvent.overFile) World.hovered).world 4 ∧
    Deselected (contextMenuAlertParent Env.nested 10 (World.hovered.node 6)
      (some MouseEvent.overFile) World.hovered).world 3 := by
  refine ⟨⟨["contextMenu", "parent-contextMenuSub1-itemAtPos1-endparent", "shown"],
      by decide, by decide, by decide⟩,
    ⟨["btn", "category", "child-contextMenuSub2-endchild", "selected"], by decide, by decide⟩,
    ⟨["contextMenu", "parent-contextMenuMain-itemAtPos1-endparent", "shown"],
      by decide, by decide, by decide⟩,
    ⟨["btn", "category", "child-contextMenuSub1-endchild", "selected"], by decide, by decide⟩,
    by decide, by decide, by decide, by decide, by decide, by decide, by decide,
    ⟨["contextMenu", "parent-contextMenuSub1-itemAtPos1-endparent", "hidden"],
      by decide, by decide, by decide⟩,
    ⟨["btn", "category", "child-contextMenuSub2-endchild"], by decide, by decide⟩,
    ⟨["contextMenu", "parent-contextMenuMain-itemAtPos1-endparent", "hidden"],
      by decide, by decide, by decide⟩,
    ⟨["btn", "category", "child-contextMenuSub1-endchild"], by decide, by decide⟩⟩

/-- C11, amended: in the cascade started by `contextMenuAlertParent(S, event)`
on a level `S` of the document that has been shown, with no selected
descendant, whose class string names the anchor `a` in the level `p`, the
pointer of the event outside `a`: if, once `S` is hidden and `a` deselected,
the level `p` has been shown, has no selected descendant and its class string
names the anchor `b` in the level `g`, then, wherever the pointer of the event
is with respect to `b`, the cascade also hides `p` and deselects `b`, and goes
on from `g` without the event; however it ends, `S` and `p` are hidden and `a`
and `b` deselected. The hypotheses say nothing of the pointer and `b`: the
recursive call passes no event, and the pointer is tested against `a` only. -/
theorem cascade_hides_parent_level (env : Env) (n : Nat) (ev : MouseEvent) (w : World)
    (S : DomNode) (a p b g : Nat)
    (hS : w.find S.ref = some S)
    (hSshown : "hiddenByDefault" ∉ S.classes)
    (hSsel : S.hasSelected = false)
    (hSa : (anchorOf w S).map DomNode.ref = some a)
    (hSp : (levelOf w S).map DomNode.ref = some p)
    (hout : mouseInside ev (env.rectOf a) = false)
    (hPshown : "hiddenByDefault" ∉ ((closeLevel S.ref a w).node p).classes)
    (hPsel : ((closeLevel S.ref a w).node p).hasSelected = false)
    (hPb : (anchorOf (closeLevel S.ref a w) ((closeLevel S.ref a w).node p)).map DomNode.ref
      = some b)
    (hPg : (levelOf (closeLevel S.ref a w) ((closeLevel S.ref a w).node p)).map DomNode.ref
      = some g) :
    contextMenuAlertParent env (n + 2) S (some ev) w
      = contextMenuAlertParent env n
          ((closeLevel p b (closeLevel S.ref a w)).node g) none
          (closeLevel p b (closeLevel S.ref a w)) ∧
    Hidden (contextMenuAlertParent env (n + 2) S (some ev) w).world S.ref ∧
    Deselected (contextMenuAlertParent env (n + 2) S (some ev) w).world a ∧
    Hidden (contextMenuAlertParent env (n + 2) S (some ev) w).world p ∧
    Deselected (contextMenuAlertParent env (n + 2) S (some ev) w).world b := by
  obtain ⟨A, hA, rfl⟩ := Option.map_eq_some'.1 hSa
  obtain ⟨P0, hP0, rfl⟩ := Option.map_eq_some'.1 hSp
  obtain ⟨B, hB, rfl⟩ := Option.map_eq_some'.1 hPb
  obtain ⟨G0, hG0, rfl⟩ := Option.map_eq_some'.1 hPg
  -- the nodes found are in the document
  obtain ⟨A1, hA1⟩ := find_of_mem w A (anchorOf_mem w S A hA)
  obtain ⟨P1, hP1⟩ := find_of_mem w P0 (levelOf_mem w S P0 hP0)
  obtain ⟨P2, hP2⟩ := find_closeLevel S.ref A.ref w P0.ref P1 hP1
  have hPref : ((closeLevel S.ref A.ref w).node P0.ref).ref = P0.ref := node_ref _ _ P2 hP2
  obtain ⟨B1, hB1⟩ := find_of_mem _ B (anchorOf_mem _ _ B hB)
  obtain ⟨G1, hG1⟩ := find_of_mem _ G0 (levelOf_mem _ _ G0 hG0)
  obtain ⟨G2, hG2⟩ := find_closeLevel P0.ref B.ref _ G0.ref G1 hG1
  -- the two steps
  have step1 := cascade_step env (n + 1) S A P0 (some ev) w hSsel hA hP0 (by simp [hout])
  rw [current_eq_node _ P0 P2 hP2] at step1
  have step2 := cascade_step env n _ B G0 none (closeLevel S.ref A.ref w) hPsel hB hG0 rfl
  rw [hPref, current_eq_node _ G0 G2 hG2] at step2
  have heq := step1.trans step2
  -- what the two steps leave, and the rest of the cascade keeps
  have hrest := settles_cascade env n
    ((closeLevel P0.ref B.ref (closeLevel S.ref A.ref w)).node G0.ref) none
    (closeLevel P0.ref B.ref (closeLevel S.ref A.ref w))
  have h12 := settles_closeLevel P0.ref B.ref (closeLevel S.ref A.ref w)
  refine ⟨heq, ?_, ?_, ?_, ?_⟩
  · rw [heq]
    exact hidden_of_settles (settles_trans h12 hrest) _
      (hidden_closeLevel S.ref A.ref w S hS hSshown)
  · rw [heq]
    exact deselected_of_settles (settles_trans h12 hrest) _
      (deselected_closeLevel S.ref A.ref w A1 hA1)
  · rw [heq]
    refine hidden_of_settles hrest _ (hidden_closeLevel P0.ref B.ref _ _ ?_ hPshown)
    rw [hP2]
    exact (find_node _ _ (by rw [hP2]; rfl)).symm ▸ hP2 ▸ rfl
  · rw [heq]
    exact deselected_of_settles hrest _ (deselected_closeLevel P0.ref B.ref _ B1 hB1)

/-- C11, amended, on `Menu.nested` with the pointer inside "File", the anchor
of the second level: both submenus end hidden and both anchors deselected. -/
theorem cascade_hides_parent_level_witness :
    mouseInside MouseEvent.overFile (Env.nested.rectOf 3) = true ∧
    (contextMenuAlertParent Env.nested 3 (World.hovered.node 6) (some MouseEvent.overFile)
        World.hovered
      = contextMenuAlertParent Env.nested 1
          ((closeLevel 4 3 (closeLevel (World.hovered.node 6).ref 5 World.hovered)).node 2) none
          (closeLevel 4 3 (closeLevel (World.hovered.node 6).ref 5 World.hovered)) ∧
    Hidden (contextMenuAlertParent Env.nested 3 (World.hovered.node 6)
      (some MouseEvent.overFile) World.hovered).world (World.hovered.node 6).ref ∧
    Deselected (contextMenuAlertParent Env.nested 3 (World.hovered.node 6)
      (some MouseEvent.overFile) World.hovered).world 5 ∧
    Hidden (contextMenuAlertParent Env.nested 3 (World.hovered.node 6)
      (some MouseEvent.overFile) World.hovered).world 4 ∧
    Deselected (contextMenuAlertParent Env.nested 3 (World.hovered.node 6)
      (some MouseEvent.overFile) World.hovered).world 3) :=
  ⟨by decide,
    cascade_hides_parent_level Env.nested 1 MouseEvent.overFile World.hovered
      (World.hovered.node 6) 5 4 3 2
      (by
        rw [show (World.hovered.node 6).ref = 6 by decide]
        exact find_node _ _ (by decide))
      (by decide) (by decide) (by decide) (by decide) (by decide) (by decide) (by decide)
      (by decide) (by decide)⟩

end BreveMenus

